import Mathlib

/-!
CHAI OpenCL-FPGA benchmarks: work partitioning and result merge.

A shallow embedding of `OpenCL-FPGA/CEDD/support/partitioner.h` (the
`Partitioner` record, `partitioner_create`, `cpu_first`, `cpu_next`, `cpu_more`),
of the proxy-thread loop of `OpenCL-FPGA/CEDD/main.cpp`, of the
"Copy Back and Merge" loop of `OpenCL-FPGA/BS/main.cpp`, of the main loops of
`BS/main.cpp` and `RSCD/main.cpp` (Reset, launch, the two waits), of `read_input`,
"Copy Back and Merge" and the post-processing of `RSCD/main.cpp`, of the batch loop
of `TQ/main.cpp` and `TQH/main.cpp`, and of the two proxy threads of `CEDT/main.cpp`.

Machine model.
* `unsigned int` is a natural number below `2 ^ 32`; unsigned arithmetic wraps,
  written with an explicit `% 2 ^ 32`.
* `std::atomic_int` holds a signed 32-bit value, an integer in
  `[-2 ^ 31, 2 ^ 31)`; `fetch_add` wraps in two's complement.
* `float` is IEEE-754 binary32 with round-to-nearest-even, every operation
  rounded to `float` (FLT_EVAL_METHOD 0).
-/

namespace Chai

/-! ## The C type `float` -/

/-- A value of the C type `float`: a finite number `(-1) ^ neg * m * 2 ^ e`, an
infinity or a NaN.  A finite value is a binary32 number when `m < 2 ^ 24` and
`-149 ≤ e ≤ 104`; one number may have several such representations. -/
inductive F32 where
  | fin (neg : Bool) (m : Nat) (e : Int)
  | inf (neg : Bool)
  | nan
deriving DecidableEq, Repr

/-- Well-formedness: the finite value fits the binary32 format. -/
def F32.wf : F32 → Bool
  | .fin _ m e => decide (m < 2 ^ 24) && decide (-149 ≤ e) && decide (e ≤ 104)
  | _ => true

/-- The real (here rational) number a finite `float` denotes. -/
def F32.toRat : F32 → Option ℚ
  | .fin neg m e => some ((if neg then -1 else 1) * (m : ℚ) * (2 : ℚ) ^ e)
  | _ => none

/-- The comparison `alpha >= 0.0` (exact: `float` converts to `double` without
rounding; `-0.0 >= 0.0` holds, a NaN compares false). -/
def F32.ge_zero : F32 → Bool
  | .fin neg m _ => !neg || decide (m = 0)
  | .inf neg => !neg
  | .nan => false

/-- The comparison `alpha <= 1.0`. -/
def F32.le_one : F32 → Bool
  | .fin neg m e =>
      neg || (if 0 ≤ e then decide (m * 2 ^ e.toNat ≤ 1) else decide (m ≤ 2 ^ (-e).toNat))
  | .inf neg => neg
  | .nan => false

/-- Number of significant bits of `x`, computed with fuel `fuel` (one unit per
bit; `x` itself is always enough). -/
def bit_length_aux : Nat → Nat → Nat
  | 0, _ => 0
  | fuel + 1, x => if x = 0 then 0 else bit_length_aux fuel (x / 2) + 1

/-- Number of significant bits of `x`: the least `b` with `x < 2 ^ b`. -/
def bit_length (x : Nat) : Nat := bit_length_aux x x

/-- Rounding of the exact value `M * 2 ^ E` (sign `neg`) to binary32, to nearest,
ties to even: the `k` low bits that do not fit 24 significant bits (or lie below
the subnormal exponent `-149`) are dropped; a result of `2 ^ 128` or more is an
infinity. -/
def f32_round (neg : Bool) (M : Nat) (E : Int) : F32 :=
  let k := max (bit_length M - 24) (-149 - E).toNat
  let q := M / 2 ^ k
  let r := M % 2 ^ k
  let q1 := if 2 * r < 2 ^ k then q else if 2 * r = 2 ^ k ∧ q % 2 = 0 then q else q + 1
  if 128 ≤ E + k ∧ 0 < q1 then .inf neg
  else if 0 ≤ E + k ∧ 2 ^ 128 ≤ q1 * 2 ^ (E + k).toNat then .inf neg
  else .fin neg q1 (E + k)

/-- The conversion `unsigned int → float` (the usual arithmetic conversion of
`p.n_tasks` in `p.n_tasks * alpha`). -/
def u32_to_f32 (n : Nat) : F32 := f32_round false n 0

/-- The product of two `float`s. -/
def f32_mul : F32 → F32 → F32
  | .nan, _ => .nan
  | _, .nan => .nan
  | .inf s, .inf t => .inf (xor s t)
  | .inf s, .fin t m _ => if m = 0 then .nan else .inf (xor s t)
  | .fin s m _, .inf t => if m = 0 then .nan else .inf (xor s t)
  | .fin s m1 e1, .fin t m2 e2 => f32_round (xor s t) (m1 * m2) (e1 + e2)

/-- The conversion `float → unsigned int`: truncation toward zero.  Where the
truncated value is not an `unsigned int` (C++ leaves the conversion undefined)
the result is the unspecified value `junk`. -/
def f32_to_u32 (junk : Nat) : F32 → Nat
  | .fin neg m e =>
      let t := if 0 ≤ e then m * 2 ^ e.toNat else m / 2 ^ (-e).toNat
      if t = 0 then 0 else if neg then junk else if t < 2 ^ 32 then t else junk
  | _ => junk

/-! ## `support/partitioner.h` -/

/-- The macro `STATIC_PARTITIONING`. -/
def STATIC_PARTITIONING : Nat := 0
/-- The macro `DYNAMIC_PARTITIONING`. -/
def DYNAMIC_PARTITIONING : Nat := 1

/-- The record `Partitioner` of three `unsigned int` fields. -/
structure Partitioner where
  n_tasks : Nat
  cut : Nat
  strategy : Nat
deriving DecidableEq, Repr

/-- The function `partitioner_create(n_tasks, alpha)`.  `junk` is the indeterminate content of
the field `cut` of the uninitialised local `p`, which the DYNAMIC branch never
assigns (and the unspecified result of an out-of-range conversion). -/
def partitioner_create (junk : Nat) (n_tasks : Nat) (alpha : F32) : Partitioner :=
  if alpha.ge_zero && alpha.le_one then
    { n_tasks := n_tasks
      cut := f32_to_u32 junk (f32_mul (u32_to_f32 n_tasks) alpha)
      strategy := STATIC_PARTITIONING }
  else
    { n_tasks := n_tasks
      cut := junk
      strategy := DYNAMIC_PARTITIONING }

/-- Reinterpretation of a signed 32-bit value as `unsigned int` (the conversion
of the `int` returned by `fetch_add` to the `unsigned int` return type). -/
def to_u32 (c : Int) : Nat := (c % 2 ^ 32).toNat

/-- Wrap an integer into the signed 32-bit range. -/
def wrap_s32 (c : Int) : Int := (c + 2 ^ 31) % 2 ^ 32 - 2 ^ 31

/-- The call `worklist->fetch_add(1)`: the old value and the new content of the cursor. -/
def fetch_add_1 (worklist : Int) : Int × Int := (worklist, wrap_s32 (worklist + 1))

/-- The function `cpu_first(p, id, worklist)`: the returned index and the cursor afterwards. -/
def cpu_first (p : Partitioner) (id : Nat) (worklist : Int) : Nat × Int :=
  if p.strategy = DYNAMIC_PARTITIONING then
    (to_u32 (fetch_add_1 worklist).1, (fetch_add_1 worklist).2)
  else
    ((id * p.cut) % 2 ^ 32, worklist)

/-- The function `cpu_next(p, old, numCPUThreads, worklist)`: the returned index and the
cursor afterwards. -/
def cpu_next (p : Partitioner) (old numCPUThreads : Nat) (worklist : Int) : Nat × Int :=
  if p.strategy = DYNAMIC_PARTITIONING then
    (to_u32 (fetch_add_1 worklist).1, (fetch_add_1 worklist).2)
  else
    ((old + numCPUThreads) % 2 ^ 32, worklist)

/-- The function `cpu_more(p, id, old)`: may worker `id` run the body for index `old`. -/
def cpu_more (p : Partitioner) (id old : Nat) : Bool :=
  if p.strategy = DYNAMIC_PARTITIONING then
    decide (old < p.n_tasks)
  else
    decide (old < (if id = 0 then p.cut else p.n_tasks))

/-- The `float` 0.75. -/
def alpha_0_75 : F32 := .fin false 3 (-2)
/-- The `float` 1.0. -/
def alpha_1 : F32 := .fin false 1 0
/-- The `float` nearest to 0.3, `10066330 * 2 ^ (-25)` (bit pattern 0x3e99999a). -/
def alpha_0_3 : F32 := .fin false 10066330 (-25)
/-- The `float` 0.5. -/
def alpha_0_5 : F32 := .fin false 1 (-1)

/-! ## Worker loops (`CEDD/main.cpp`, proxy threads) -/

/-- The loop `for(index = cpu_first(..); cpu_more(.., index); index = cpu_next(.., index, stride, ..))`
from its test onwards: the indices for which the body runs, in order, and the
cursor at exit; `none` when `fuel` tests do not reach the exit. -/
def worker_loop (p : Partitioner) (id stride : Nat) : Nat → Nat → Int → Option (List Nat × Int)
  | 0, _, _ => none
  | fuel + 1, index, worklist =>
    if cpu_more p id index then
      (worker_loop p id stride fuel (cpu_next p index stride worklist).1
        (cpu_next p index stride worklist).2).map (fun r => (index :: r.1, r.2))
    else
      some ([], worklist)

/-- The whole loop of worker `id`, starting with `cpu_first`. -/
def run_worker (p : Partitioner) (id stride fuel : Nat) (worklist : Int) :
    Option (List Nat × Int) :=
  worker_loop p id stride fuel (cpu_first p id worklist).1 (cpu_first p id worklist).2

/-- Successive claims with `cpu_first` by the workers `ids`, in that order: the
indices returned and the cursor afterwards. -/
def claims_from (p : Partitioner) : List Nat → Int → List Nat × Int
  | [], worklist => ([], worklist)
  | id :: ids, worklist =>
    ((cpu_first p id worklist).1 :: (claims_from p ids (cpu_first p id worklist).2).1,
      (claims_from p ids (cpu_first p id worklist).2).2)

/-- Where a claimer stands in its loop: before `cpu_first`, inside the loop body
with its current index, or after `cpu_more` has rejected its index. -/
inductive Claimer where
  | idle
  | holding (index : Nat)
  | finished
deriving DecidableEq, Repr

/-- The shared cursor, the claimers, and the log of accepted claims
(claimer, index) in the order they were made. -/
structure DynState where
  cursor : Int
  claimers : List Claimer
  accepted : List (Nat × Nat)
deriving DecidableEq, Repr

/-- The outcome of a claim `r` (index, new cursor) by claimer `i`: `cpu_more`
either admits the index to the loop body or ends the loop. -/
def settle (p : Partitioner) (s : DynState) (i : Nat) (r : Nat × Int) : DynState :=
  if cpu_more p i r.1 then
    { cursor := r.2, claimers := s.claimers.set i (.holding r.1),
      accepted := s.accepted ++ [(i, r.1)] }
  else
    { cursor := r.2, claimers := s.claimers.set i .finished, accepted := s.accepted }

/-- One atomic step of claimer `i`: its next claim (`cpu_first` at loop entry,
`cpu_next` afterwards) followed by its own `cpu_more` test.  A claimer that has
left its loop, or does not exist, takes no step. -/
def dyn_step (p : Partitioner) (stride : Nat) (s : DynState) (i : Nat) : DynState :=
  match s.claimers[i]? with
  | some .idle => settle p s i (cpu_first p i s.cursor)
  | some (.holding old) => settle p s i (cpu_next p old stride s.cursor)
  | _ => s

/-- An interleaving: the claimers take their steps in the order `sched` lists them. -/
def dyn_run (p : Partitioner) (stride : Nat) (s : DynState) (sched : List Nat) : DynState :=
  sched.foldl (dyn_step p stride) s

/-- The iteration starts with the cursor reset to 0 and `w` claimers at loop entry. -/
def dyn_init (w : Nat) : DynState :=
  { cursor := 0, claimers := List.replicate w .idle, accepted := [] }

/-- Every claimer has left its loop. -/
def all_finished (s : DynState) : Bool := s.claimers.all (fun c => decide (c = .finished))

/-- Invariant of the DYNAMIC protocol with `w` claimers, while the cursor cannot
wrap: the cursor counts the claims made so far (accepted ones plus one rejected
claim per finished claimer), the accepted indices are `0, 1, ..` in claim order,
and a claim is rejected only once all of `[0, n_tasks)` has been handed out. -/
def DynInv (p : Partitioner) (w : Nat) (s : DynState) : Prop :=
  s.claimers.length = w ∧
  s.cursor = wrap_s32 ((s.accepted.length + s.claimers.count .finished : Nat) : Int) ∧
  s.accepted.map Prod.snd = List.range s.accepted.length ∧
  s.accepted.length ≤ p.n_tasks ∧
  (0 < s.claimers.count .finished → s.accepted.length = p.n_tasks)

/-! ## `BS/main.cpp`: Copy Back and Merge -/

/-- The body of the innermost loop: the guarded copy of pixel `(i, j)`. -/
def merge_pixel {α : Type} (out_size_i out_size_j : Int) (h_out : Int → α) (i j : Int)
    (h_out_merge : Int → α) : Int → α :=
  if i < out_size_i ∧ j < out_size_j then
    Function.update h_out_merge (i * out_size_j + j) (h_out (i * out_size_j + j))
  else
    h_out_merge

/-- The body of the loop over `t`: the `i` and `j` loops over the tile of task `t`
(`i = row, .., row + n_work_items - 1`, likewise `j`). -/
def merge_task {α : Type} (n_work_items out_size_i out_size_j : Int) (n_tasks_j : Nat)
    (h_out : Int → α) (h_out_merge : Int → α) (t : Nat) : Int → α :=
  let ty : Int := ((t / n_tasks_j : Nat) : Int)
  let tx : Int := ((t % n_tasks_j : Nat) : Int)
  let row := ty * n_work_items
  let col := tx * n_work_items
  (List.range n_work_items.toNat).foldl
    (fun (b : Int → α) (di : Nat) => (List.range n_work_items.toNat).foldl
      (fun (b : Int → α) (dj : Nat) =>
        merge_pixel out_size_i out_size_j h_out (row + (di : Int)) (col + (dj : Int)) b)
      b)
    h_out_merge

/-- The merge loop `for(t = 0; t < partitioner.cut; ++t)`; `h_out_merge` holds the
buffer read back from the device.  `int` arithmetic is exact (signed overflow is
undefined in C++ and outside the model). -/
def merge {α : Type} (n_work_items out_size_i out_size_j : Int) (n_tasks_j cut : Nat)
    (h_out : Int → α) (h_out_merge : Int → α) : Int → α :=
  (List.range cut).foldl (merge_task n_work_items out_size_i out_size_j n_tasks_j h_out)
    h_out_merge

/-- The `float` 0.0. -/
def alpha_0 : F32 := .fin false 0 0

/-! ## The partitioner functions as memory transformers -/

/-- The memory the three functions reach through their pointer arguments: the
record behind `const Partitioner *p` and the cursor behind `std::atomic_int *worklist`. -/
structure Mem where
  partitioner : Partitioner
  worklist : Int
deriving DecidableEq, Repr

/-- The call `cpu_first(p, id, worklist)` on memory `m`: its result and the memory
afterwards.  `p` points to a `const` record, which is only read; the one write of the
function is `worklist->fetch_add(1)`. -/
def exec_cpu_first (m : Mem) (id : Nat) : Nat × Mem :=
  ((cpu_first m.partitioner id m.worklist).1,
    { partitioner := m.partitioner, worklist := (cpu_first m.partitioner id m.worklist).2 })

/-- The call `cpu_next(p, old, numCPUThreads, worklist)` on memory `m`. -/
def exec_cpu_next (m : Mem) (old numCPUThreads : Nat) : Nat × Mem :=
  ((cpu_next m.partitioner old numCPUThreads m.worklist).1,
    { partitioner := m.partitioner,
      worklist := (cpu_next m.partitioner old numCPUThreads m.worklist).2 })

/-- The call `cpu_more(p, id, old)` on memory `m`: the function has no `worklist`
argument and only reads `*p`. -/
def exec_cpu_more (m : Mem) (id old : Nat) : Bool × Mem :=
  (cpu_more m.partitioner id old, m)

/-! ## Iterations and per-claimer views -/

/-- The indices claimer `i` has had accepted, in order. -/
def claimer_log (i : Nat) (s : DynState) : List Nat :=
  (s.accepted.filter (fun e => decide (e.1 = i))).map Prod.snd

/-- What claimer `i` can see of a state: where it stands and its own log. -/
def claimer_view (i : Nat) (s : DynState) : Option Claimer × List Nat :=
  (s.claimers[i]?, claimer_log i s)

/-- One step of claimer `i` on its own view, with the cursor ignored (what the
step amounts to under STATIC). -/
def view_step (p : Partitioner) (stride i : Nat) :
    Option Claimer × List Nat → Option Claimer × List Nat
  | (some .idle, log) =>
    if cpu_more p i (cpu_first p i 0).1 then
      (some (.holding (cpu_first p i 0).1), log ++ [(cpu_first p i 0).1])
    else (some .finished, log)
  | (some (.holding old), log) =>
    if cpu_more p i (cpu_next p old stride 0).1 then
      (some (.holding (cpu_next p old stride 0).1), log ++ [(cpu_next p old stride 0).1])
    else (some .finished, log)
  | v => v

/-- The state at the start of an iteration of the main loop, for `w` claimers: the
"Reset" block (`if(partitioner.strategy == DYNAMIC_PARTITIONING) worklist[0].store(0)`)
applied to the cursor content `cursor` left by what came before, every claimer at
its loop entry, an empty log. -/
def iteration_start (p : Partitioner) (w : Nat) (cursor : Int) : DynState :=
  { cursor := if p.strategy = DYNAMIC_PARTITIONING then 0 else cursor,
    claimers := List.replicate w .idle, accepted := [] }

/-- The start of the next iteration from the state `s` the previous iteration left: the
"Reset" block applied to the cursor of `s`, every claimer (a new kernel launch, new host
threads) at its loop entry again, an empty log. -/
def next_iteration (p : Partitioner) (s : DynState) : DynState :=
  { cursor := if p.strategy = DYNAMIC_PARTITIONING then 0 else s.cursor,
    claimers := s.claimers.map (fun _ => Claimer.idle), accepted := [] }

/-- The same restart with the store of "Reset" left out: the cursor keeps the value the
previous iteration left. -/
def restart_without_reset (s : DynState) : DynState :=
  { cursor := s.cursor, claimers := s.claimers.map (fun _ => Claimer.idle), accepted := [] }

/-- Termination measure of the DYNAMIC protocol: `2 ^ 32` per claimer still in its
loop, plus the distance of the cursor (as `unsigned int`) from `2 ^ 32 - 1`. -/
def dyn_measure (s : DynState) : Nat :=
  (s.claimers.length - s.claimers.count .finished) * 2 ^ 32 + (2 ^ 32 - 1 - to_u32 s.cursor)

/-! ## RSCD: `read_input` -/

/-- The record `flowvector` of RSCD: four `int` fields. -/
structure flowvector where
  x : Int
  y : Int
  vx : Int
  vy : Int
deriving DecidableEq, Repr

/-- How a call ends: it returns a value, it ends the process through `exit(status)`, or
it runs into behaviour the C++ standard leaves undefined. -/
inductive Outcome (α : Type) where
  | returned (a : α)
  | exited (status : Int)
  | undefined
deriving DecidableEq, Repr

/-- The loop `while(fscanf(File, "%d,%d,%d,%d", &v[ic].x, ..) == 4)` of `read_input`.
The records still ahead in the file are the list argument (the scan fails at its end),
`ic` is the counter, `v` holds the records stored so far (`ic` of them) and `cap` is the
number of records the caller's buffer has room for: `fscanf` stores through `&v[ic]`
before `ic` is compared with `n`. -/
def read_records (cap : Nat) (n : Int) :
    List flowvector → Int → List flowvector → Outcome (Int × List flowvector)
  | [], ic, v => .returned (ic, v)
  | record :: rest, ic, v =>
    if (cap : Int) ≤ ic then .undefined
    else if ic + 1 > n then .exited (-1)
    else read_records cap n rest (ic + 1) (v ++ [record])

/-- The loop `for(i = 0; i < 2 * max_iter; i++) r[i] = ((int)rand()) % n;` with `todo`
iterations left; `rnd i` is the value of the call of `rand()` in iteration `i` and `%` on
`int` truncates towards zero. The remainder by zero is undefined. -/
def fill_random (n : Int) (rnd : Nat → Nat) : Nat → Nat → List Int → Outcome (List Int)
  | 0, _, r => .returned r
  | todo + 1, i, r =>
    if n = 0 then .undefined
    else fill_random n rnd todo (i + 1) (r ++ [Int.tmod (rnd i) n])

/-- The function `read_input(v, r, p)` of RSCD. The file is `none` when `fopen` fails and
otherwise the count `n` of its header with the well-formed records that follow; `v` has
room for `cap` records and `r` for `2 * max_iter` numbers, as allocated in `main`. The
product `2 * p.max_iter` is computed in `int`. -/
def read_input (cap : Nat) (file : Option (Int × List flowvector)) (max_iter : Int)
    (rnd : Nat → Nat) : Outcome (List flowvector × List Int) :=
  match file with
  | none => .exited (-1)
  | some (n, records) =>
    match read_records cap n records 0 [] with
    | .undefined => .undefined
    | .exited status => .exited status
    | .returned (ic, v) =>
      if ic < n then .exited (-1)
      else if 2 * max_iter < -2 ^ 31 ∨ 2 ^ 31 ≤ 2 * max_iter then .undefined
      else
        match fill_random n rnd (2 * max_iter).toNat 0 [] with
        | .returned r => .returned (v, r)
        | .exited status => .exited status
        | .undefined => .undefined

/-! ## The main loop of BS and RSCD -/

/-- The two benchmarks whose main loop is embedded. -/
inductive Benchmark where
  | BS
  | RSCD
deriving DecidableEq, Repr

/-- Program points of the main thread inside `for(rep = 0; rep < n_warmup + n_reps; rep++)`:
`reset` is the Reset block, `reset_finish` the `clFinish` that follows it in RSCD,
`launch` the guarded `clEnqueueNDRangeKernel`, `spawn` the construction of `main_thread`,
`cl_finish` and `join` the two waits, `post` the rest of the body (in RSCD the copy back,
merge and post-processing) and `done` the code after the loop (in BS the merge, in both
the verification). -/
inductive MainPc where
  | reset
  | reset_finish
  | launch
  | spawn
  | cl_finish
  | join
  | post
  | done
deriving DecidableEq, Repr

/-- State of the enqueued kernel, and of the thread `main_thread`. -/
inductive Activity where
  | idle
  | running
  | finished
deriving DecidableEq, Repr

/-- The values the main loop reads: the benchmark, the partitioner and the `int`
parameters `n_warmup`, `n_reps` and `n_work_groups`. -/
structure MainConfig where
  benchmark : Benchmark
  partitioner : Partitioner
  n_warmup : Int
  n_reps : Int
  n_work_groups : Int
deriving DecidableEq, Repr

/-- State of one run of the main loop (build with `OCL_2_0`, where the worklist exists):
the loop counter, the program point of the main thread, the kernel, the thread
`main_thread`, the value of `worklist[0]`, and the values returned by the `fetch_add`
calls since the last Reset, oldest first. -/
structure MainState where
  rep : Int
  pc : MainPc
  device : Activity
  host : Activity
  worklist : Int
  claims : List Int
deriving DecidableEq, Repr

/-- Who takes the next step: the main thread, or the kernel or the host threads, each
either claiming a task or finishing. -/
inductive Actor where
  | main
  | device_claim
  | device_end
  | host_claim
  | host_end
deriving DecidableEq, Repr

/-- State before the loop: `rep = 0`, the loop condition checked once, nothing launched,
`worklist[0]` as allocated (any value). -/
def main_init (cfg : MainConfig) (worklist : Int) : MainState :=
  { rep := 0, pc := if 0 < cfg.n_warmup + cfg.n_reps then .reset else .done,
    device := .idle, host := .idle, worklist := worklist, claims := [] }

/-- One step of the main thread. `clFinish` returns once the enqueued kernel is no longer
running and `join` once `main_thread` has finished; until then the main thread stays where
it is. -/
def main_thread_step (cfg : MainConfig) (s : MainState) : MainState :=
  match s.pc with
  | .reset =>
    { s with
      worklist := if cfg.partitioner.strategy = DYNAMIC_PARTITIONING then 0 else s.worklist,
      claims := [],
      pc := if cfg.benchmark = .RSCD then .reset_finish else .launch }
  | .reset_finish => if s.device = .running then s else { s with pc := .launch }
  | .launch =>
    { s with device := if 0 < cfg.n_work_groups then .running else s.device, pc := .spawn }
  | .spawn => { s with host := .running, pc := .cl_finish }
  | .cl_finish => if s.device = .running then s else { s with pc := .join }
  | .join => if s.host = .running then s else { s with pc := .post }
  | .post =>
    { s with
      rep := s.rep + 1,
      pc := if s.rep + 1 < cfg.n_warmup + cfg.n_reps then .reset else .done }
  | .done => s

/-- Modelled from the spec: the device kernel and the function `run_cpu_threads` are not
among the sources; a running worker of either side claims tasks through the partitioner
calls, which under DYNAMIC are `worklist->fetch_add(1)` and under STATIC leave the
worklist alone. -/
def worker_claim (cfg : MainConfig) (s : MainState) : MainState :=
  if cfg.partitioner.strategy = DYNAMIC_PARTITIONING then
    { s with worklist := (fetch_add_1 s.worklist).2,
             claims := s.claims ++ [(fetch_add_1 s.worklist).1] }
  else s

/-- One step of the whole system; a step of an actor that is not running changes
nothing. -/
def main_step (cfg : MainConfig) (s : MainState) : Actor → MainState
  | .main => main_thread_step cfg s
  | .device_claim => if s.device = .running then worker_claim cfg s else s
  | .device_end => if s.device = .running then { s with device := .finished } else s
  | .host_claim => if s.host = .running then worker_claim cfg s else s
  | .host_end => if s.host = .running then { s with host := .finished } else s

/-- The state after the steps of `trace`, from the start of the loop. -/
def main_run (cfg : MainConfig) (worklist : Int) (trace : List Actor) : MainState :=
  trace.foldl (main_step cfg) (main_init cfg worklist)

/-- What holds in every reachable state: a side runs only between its start and the wait
for it; past the two waits both sides have finished (the kernel when one was launched);
no claim is made between Reset and the launch; and under DYNAMIC the cursor is 0 after
Reset until the first claim, which therefore returns 0. -/
def MainInv (cfg : MainConfig) (s : MainState) : Prop :=
  (s.device = .running → s.pc = .spawn ∨ s.pc = .cl_finish) ∧
  (s.host = .running → s.pc = .cl_finish ∨ s.pc = .join) ∧
  (s.pc = .cl_finish ∨ s.pc = .join ∨ s.pc = .post → s.host ≠ .idle) ∧
  (0 < cfg.n_work_groups →
    s.pc = .spawn ∨ s.pc = .cl_finish ∨ s.pc = .join ∨ s.pc = .post → s.device ≠ .idle) ∧
  (s.pc = .reset_finish ∨ s.pc = .launch → s.claims = []) ∧
  (cfg.partitioner.strategy = DYNAMIC_PARTITIONING →
    (s.claims.head? = none ∨ s.claims.head? = some 0) ∧
    ((s.pc = .reset_finish ∨ s.pc = .launch ∨ s.pc = .spawn ∨ s.pc = .cl_finish ∨
        s.pc = .join) → s.claims = [] → s.worklist = 0))

/-- A BS run used as an example: DYNAMIC partitioning of 4 tasks, one warmup and one timed
iteration, 32 work-groups. -/
def bs_example : MainConfig :=
  { benchmark := .BS, partitioner := ⟨4, 0, DYNAMIC_PARTITIONING⟩, n_warmup := 1,
    n_reps := 1, n_work_groups := 32 }

/-- An RSCD run used as an example: STATIC partitioning, no warmup, one timed iteration,
one work-group. -/
def rscd_example : MainConfig :=
  { benchmark := .RSCD, partitioner := ⟨4, 2, STATIC_PARTITIONING⟩, n_warmup := 0,
    n_reps := 1, n_work_groups := 1 }

/-! ## RSCD: Copy Back and Merge, Post-processing -/

/-- The comparison `p.alpha < 1.0` (exact: `float` converts to `double` without
rounding; a NaN compares false). -/
def F32.lt_one : F32 → Bool
  | .fin neg m e =>
      neg || (if 0 ≤ e then decide (m * 2 ^ e.toNat < 1) else decide (m < 2 ^ (-e).toNat))
  | .inf neg => neg
  | .nan => false

/-- The candidate list of RSCD on the host: the arrays `h_model_candidate` and
`h_outliers_candidate` (index to value; the buffers are taken large enough for the
regions read and written) and the counter `h_g_out_id[0]`. -/
structure Candidates where
  model : Int → Int
  outliers : Int → Int
  g_out_id : Int

/-- The call `clEnqueueReadBuffer(queue, buffer, CL_TRUE, 0, count * sizeof(int),
&host[pos], ..)`: the first `count` ints of the device buffer land in
`host[pos], .., host[pos + count - 1]`. -/
def read_buffer (device : Int → Int) (count : Int) (host : Int → Int) (pos : Int) : Int → Int :=
  fun i => if pos ≤ i ∧ i < pos + count then device (i - pos) else host i

/-- The block "Copy Back and Merge" of the RSCD main loop (build without `OCL_2_0`).
`d_g_out_id`, `d_model_candidate` and `d_outliers_candidate` are the device buffers;
`junk` is the indeterminate value of the local `int d_candidates`, which is assigned
only inside `if(p.alpha < 1.0)`. -/
def copy_back_and_merge (alpha : F32) (junk : Int) (h : Candidates) (d_g_out_id : Int)
    (d_model_candidate d_outliers_candidate : Int → Int) : Candidates :=
  if alpha.lt_one then
    { model := read_buffer d_model_candidate d_g_out_id h.model h.g_out_id
      outliers := read_buffer d_outliers_candidate d_g_out_id h.outliers h.g_out_id
      g_out_id := h.g_out_id + d_g_out_id }
  else
    { model := h.model
      outliers := h.outliers
      g_out_id := h.g_out_id + junk }

/-- The loop `for(i = ..; i < h_g_out_id[0]; i++)` of the post-processing with `todo`
iterations left; the state is the pair `(best_outliers, best_model)`. -/
def post_processing_loop (h_outliers_candidate h_model_candidate : Int → Int) :
    Nat → Int → Int × Int → Int × Int
  | 0, _, best => best
  | todo + 1, i, best =>
    if h_outliers_candidate i < best.1 then
      post_processing_loop h_outliers_candidate h_model_candidate todo (i + 1)
        (h_outliers_candidate i, h_model_candidate i)
    else
      post_processing_loop h_outliers_candidate h_model_candidate todo (i + 1) best

/-- The post-processing of one repetition: `(best_outliers, best_model)` after the loop
over the `h_g_out_id[0]` candidates. -/
def post_processing (c : Candidates) (best_outliers best_model : Int) : Int × Int :=
  post_processing_loop c.outliers c.model c.g_out_id.toNat 0 (best_outliers, best_model)

/-! ## TQ and TQH: the batch loop -/

/-- The loop `for(n_consumed_tasks = 0; n_consumed_tasks < pool_size; n_consumed_tasks +=
queue_size)` of TQ and TQH from its test onwards: the destination ranges `[first, last)`,
counted in ints, of the copy back of each batch, in order. The copy back reads
`queue_size * s` ints to `&pool[n_consumed_tasks * s]`, where `s` is `n_work_items` and
the pool `h_data_pool` in TQ, `n_bins` and `h_histo` in TQH. The result is `none` when
`fuel` tests do not reach the exit; `int` arithmetic is exact. -/
def batch_loop (pool_size queue_size s : Int) : Nat → Int → Option (List (Int × Int))
  | 0, _ => none
  | fuel + 1, n_consumed_tasks =>
    if n_consumed_tasks < pool_size then
      (batch_loop pool_size queue_size s fuel (n_consumed_tasks + queue_size)).map
        (fun r => (n_consumed_tasks * s, n_consumed_tasks * s + queue_size * s) :: r)
    else
      some []

/-! ## Counting the claims of an interleaving -/

/-- The claim claimer `i` makes at its next step: `cpu_first` at loop entry, `cpu_next`
afterwards, none once it has left its loop (or does not exist). -/
def next_claim (p : Partitioner) (stride : Nat) (s : DynState) (i : Nat) : Option (Nat × Int) :=
  match s.claimers[i]? with
  | some .idle => some (cpu_first p i s.cursor)
  | some (.holding old) => some (cpu_next p old stride s.cursor)
  | _ => none

/-- Number of claims (calls of `cpu_first` or `cpu_next`) made along the interleaving
`sched` from state `s`. -/
def claims_made (p : Partitioner) (stride : Nat) : DynState → List Nat → Nat
  | _, [] => 0
  | s, i :: sched =>
    (if (next_claim p stride s i).isSome then 1 else 0)
      + claims_made p stride (dyn_step p stride s i) sched

/-- Number of claims of claimer `i` along `sched` from `s` that `cpu_more` rejects. -/
def rejected_claims (p : Partitioner) (stride i : Nat) : DynState → List Nat → Nat
  | _, [] => 0
  | s, j :: sched =>
    (match next_claim p stride s j with
      | some r => if j = i ∧ cpu_more p j r.1 = false then 1 else 0
      | none => 0)
      + rejected_claims p stride i (dyn_step p stride s j) sched

/-! ## CEDT: the two proxy threads -/

/-- The observable stages of a frame: on the FPGA proxy the device stages (copy to the
device, Gaussian and Sobel kernels, `clFinish`) and the copy back of `h_in_out[rep]` and
`h_theta[rep]`; on the CPU proxy the CPU stage (`run_cpu_threads` in `main_thread`, joined)
and the `memcpy` into `all_out_frames[rep]`. -/
inductive CedtStage where
  | device_stages
  | copy_back
  | cpu_stage
  | cpu_copy
deriving DecidableEq, Repr

/-- A completed stage of frame `rep`. -/
structure CedtEvent where
  kind : CedtStage
  rep : Nat
deriving DecidableEq, Repr

/-- Program points of the FPGA proxy inside its loop over `rep`: the test of
`gray_frame`, the device stages, the copy back, and `sobel_ready[rep].store(1)`. -/
inductive FpgaPc where
  | fetch
  | device
  | copy_back
  | release
deriving DecidableEq, Repr

/-- Program points of the CPU proxy inside its loop over `rep`: the loop
`while(sobel_ready[rep].load() == 0)`, the test `sobel_ready[rep].load() == -1`, the CPU
stage, and the `memcpy` into `all_out_frames[rep]`. -/
inductive CpuPc where
  | wait
  | check
  | stage
  | copy
deriving DecidableEq, Repr

/-- The two proxy threads. -/
inductive Proxy where
  | fpga
  | cpu
deriving DecidableEq, Repr

/-- State of the two proxies: the array `sobel_ready`, the loop counter and program point
of each proxy, and the stages completed so far, oldest first. -/
structure CedtState where
  sobel_ready : Nat → Int
  fpga_rep : Nat
  fpga_pc : FpgaPc
  cpu_rep : Nat
  cpu_pc : CpuPc
  events : List CedtEvent

/-- State when the proxy threads start: every `sobel_ready[i]` stores 0, both loops at
`rep = 0`. -/
def cedt_init : CedtState :=
  { sobel_ready := fun _ => 0, fpga_rep := 0, fpga_pc := .fetch, cpu_rep := 0, cpu_pc := .wait,
    events := [] }

/-- One atomic step of the FPGA proxy; `n` is `p.n_warmup + p.n_reps` and `present rep`
says that `all_gray_frames[rep]` is not null. After its loop the proxy takes no step. -/
def fpga_step (n : Nat) (present : Nat → Bool) (s : CedtState) : CedtState :=
  if s.fpga_rep < n then
    match s.fpga_pc with
    | .fetch =>
      if present s.fpga_rep then { s with fpga_pc := .device }
      else
        { s with sobel_ready := Function.update s.sobel_ready s.fpga_rep (-1),
                 fpga_rep := s.fpga_rep + 1 }
    | .device =>
      { s with events := s.events ++ [⟨.device_stages, s.fpga_rep⟩], fpga_pc := .copy_back }
    | .copy_back =>
      { s with events := s.events ++ [⟨.copy_back, s.fpga_rep⟩], fpga_pc := .release }
    | .release =>
      { s with sobel_ready := Function.update s.sobel_ready s.fpga_rep 1,
               fpga_rep := s.fpga_rep + 1, fpga_pc := .fetch }
  else s

/-- One atomic step of the CPU proxy. -/
def cpu_step (n : Nat) (s : CedtState) : CedtState :=
  if s.cpu_rep < n then
    match s.cpu_pc with
    | .wait => if s.sobel_ready s.cpu_rep = 0 then s else { s with cpu_pc := .check }
    | .check =>
      if s.sobel_ready s.cpu_rep = -1 then { s with cpu_rep := s.cpu_rep + 1, cpu_pc := .wait }
      else { s with cpu_pc := .stage }
    | .stage =>
      { s with events := s.events ++ [⟨.cpu_stage, s.cpu_rep⟩], cpu_pc := .copy }
    | .copy =>
      { s with events := s.events ++ [⟨.cpu_copy, s.cpu_rep⟩], cpu_rep := s.cpu_rep + 1,
               cpu_pc := .wait }
  else s

/-- One step of the proxy `a`. -/
def cedt_step (n : Nat) (present : Nat → Bool) (s : CedtState) : Proxy → CedtState
  | .fpga => fpga_step n present s
  | .cpu => cpu_step n s

/-- The state after the steps of `trace`. -/
def cedt_run (n : Nat) (present : Nat → Bool) (trace : List Proxy) : CedtState :=
  trace.foldl (cedt_step n present) cedt_init

/-- The frames for which stage `k` has been completed, in the order of completion. -/
def stage_reps (k : CedtStage) (events : List CedtEvent) : List Nat :=
  (events.filter (fun e => decide (e.kind = k))).map (fun e => e.rep)

/-- What holds in every reachable state of the two proxies. -/
structure CedtInv (s : CedtState) : Prop where
  flag_vals : ∀ r, s.sobel_ready r = 0 ∨ s.sobel_ready r = 1 ∨ s.sobel_ready r = -1
  flag_range : ∀ r, s.sobel_ready r ≠ 0 → r < s.fpga_rep
  flag_one : ∀ r, s.sobel_ready r = 1 →
    List.Sublist [⟨.device_stages, r⟩, ⟨.copy_back, r⟩] s.events
  fpga_cb : s.fpga_pc = .copy_back → List.Sublist [⟨.device_stages, s.fpga_rep⟩] s.events
  fpga_rel : s.fpga_pc = .release →
    List.Sublist [⟨.device_stages, s.fpga_rep⟩, ⟨.copy_back, s.fpga_rep⟩] s.events
  cpu_check : s.cpu_pc = .check → s.sobel_ready s.cpu_rep ≠ 0
  cpu_stage : s.cpu_pc = .stage → s.sobel_ready s.cpu_rep = 1
  cpu_copy : s.cpu_pc = .copy → s.sobel_ready s.cpu_rep = 1 ∧
    List.Sublist [⟨.device_stages, s.cpu_rep⟩, ⟨.copy_back, s.cpu_rep⟩, ⟨.cpu_stage, s.cpu_rep⟩]
      s.events
  log_stage : ∀ r, ⟨.cpu_stage, r⟩ ∈ s.events → s.sobel_ready r = 1 ∧
    List.Sublist [⟨.device_stages, r⟩, ⟨.copy_back, r⟩, ⟨.cpu_stage, r⟩] s.events
  log_copy : ∀ r, ⟨.cpu_copy, r⟩ ∈ s.events → s.sobel_ready r = 1 ∧
    List.Sublist [⟨.device_stages, r⟩, ⟨.copy_back, r⟩, ⟨.cpu_stage, r⟩, ⟨.cpu_copy, r⟩] s.events
  bound_dev : ∀ r, ⟨.device_stages, r⟩ ∈ s.events →
    r < s.fpga_rep ∨ (r = s.fpga_rep ∧ (s.fpga_pc = .copy_back ∨ s.fpga_pc = .release))
  bound_cb : ∀ r, ⟨.copy_back, r⟩ ∈ s.events →
    r < s.fpga_rep ∨ (r = s.fpga_rep ∧ s.fpga_pc = .release)
  bound_stage : ∀ r, ⟨.cpu_stage, r⟩ ∈ s.events →
    r < s.cpu_rep ∨ (r = s.cpu_rep ∧ s.cpu_pc = .copy)
  bound_copy : ∀ r, ⟨.cpu_copy, r⟩ ∈ s.events → r < s.cpu_rep
  sorted : ∀ k, (stage_reps k s.events).Pairwise (fun a b => a < b)

/-- A run of two frames of which the second is null. -/
def cedt_example : Nat → Bool := fun rep => decide (rep = 0)

/-! ## Rounding to nearest on scaled integers -/

/-- The rounded quotient of `f32_round`: `M / 2 ^ k` rounded to nearest, ties to even. -/
def rne (M k : Nat) : Nat :=
  if 2 * (M % 2 ^ k) < 2 ^ k then M / 2 ^ k
  else if 2 * (M % 2 ^ k) = 2 ^ k ∧ M / 2 ^ k % 2 = 0 then M / 2 ^ k else M / 2 ^ k + 1

/-- The binary32 rounding of `A * 2 ^ E0` in units of `2 ^ E0`, for an exponent
`E0 = -149 - s` at or below the subnormal exponent. -/
def round_scaled (s A : Nat) : Nat :=
  rne A (max (bit_length A - 24) s) * 2 ^ max (bit_length A - 24) s
/-- The `float` nearest to 0.7, `11744051 * 2 ^ (-24)` (bit pattern 0x3f333333). -/
def alpha_0_7 : F32 := .fin false 11744051 (-24)

/-! ## Lemmas on the `float` model -/

theorem bit_length_aux_le_iff (fuel : Nat) : ∀ x b : Nat, x ≤ fuel →
    (bit_length_aux fuel x ≤ b ↔ x < 2 ^ b) := by
  induction fuel with
  | zero =>
    intro x b hx
    have hx0 : x = 0 := by omega
    subst hx0
    simp [bit_length_aux]
  | succ fuel ih =>
    intro x b hx
    by_cases hx0 : x = 0
    · subst hx0
      simp [bit_length_aux]
    · simp only [bit_length_aux, if_neg hx0]
      cases b with
      | zero => simp; omega
      | succ b =>
        have h2 : x / 2 ≤ fuel := by omega
        rw [Nat.add_le_add_iff_right, ih (x / 2) b h2, pow_succ]
        omega

theorem bit_length_le_iff (x b : Nat) : bit_length x ≤ b ↔ x < 2 ^ b :=
  bit_length_aux_le_iff x x b le_rfl

theorem lt_two_pow_bit_length (x : Nat) : x < 2 ^ bit_length x :=
  (bit_length_le_iff x _).1 le_rfl

theorem two_pow_bit_length_pred_le (x : Nat) (hx : 0 < x) : 2 ^ (bit_length x - 1) ≤ x := by
  by_contra h
  have h1 := (bit_length_le_iff x (bit_length x - 1)).2 (by omega)
  have h2 : bit_length x ≠ 0 := by
    intro h0
    have := lt_two_pow_bit_length x
    rw [h0] at this
    simp at this
    omega
  omega


theorem le_one_nat_iff (m : Nat) (e : Int) :
    (if 0 ≤ e then decide (m * 2 ^ e.toNat ≤ 1) else decide (m ≤ 2 ^ (-e).toNat)) = true ↔
      (m : ℚ) * (2 : ℚ) ^ e ≤ 1 := by
  by_cases he : 0 ≤ e
  · obtain ⟨k, rfl⟩ := Int.eq_ofNat_of_zero_le he
    simp only [he, if_true, Int.toNat_ofNat, decide_eq_true_eq, zpow_natCast]
    exact_mod_cast Iff.rfl
  · obtain ⟨k, rfl⟩ : ∃ k : Nat, e = -(k : Int) := ⟨(-e).toNat, by omega⟩
    simp only [he, if_false, neg_neg, Int.toNat_ofNat, decide_eq_true_eq, zpow_neg, zpow_natCast]
    have hp : (0 : ℚ) < 2 ^ k := by positivity
    rw [← div_eq_mul_inv, div_le_one hp]
    exact_mod_cast Iff.rfl

theorem in_unit_iff (neg : Bool) (m : Nat) (e : Int) :
    ((F32.fin neg m e).ge_zero && (F32.fin neg m e).le_one) = true ↔
      (0 ≤ (if neg then -1 else 1) * (m : ℚ) * (2 : ℚ) ^ e ∧
        (if neg then -1 else 1) * (m : ℚ) * (2 : ℚ) ^ e ≤ 1) := by
  have hp : (0 : ℚ) < (2 : ℚ) ^ e := by positivity
  have hm : (0 : ℚ) ≤ (m : ℚ) := Nat.cast_nonneg m
  cases neg with
  | false =>
    have h0 : (0 : ℚ) ≤ (m : ℚ) * (2 : ℚ) ^ e := mul_nonneg hm hp.le
    simp only [F32.ge_zero, F32.le_one, Bool.not_false, Bool.true_or, Bool.true_and,
      Bool.false_or, Bool.false_eq_true, if_false, one_mul]
    rw [le_one_nat_iff]
    exact ⟨fun h => ⟨h0, h⟩, fun h => h.2⟩
  | true =>
    simp only [F32.ge_zero, F32.le_one, Bool.not_true, Bool.false_or, Bool.true_or,
      Bool.and_true, decide_eq_true_eq, if_true]
    constructor
    · intro h
      subst h
      simp
    · rintro ⟨h, -⟩
      by_contra hne
      have hpos : (0 : ℚ) < (m : ℚ) := by
        have : 0 < m := Nat.pos_of_ne_zero hne
        exact_mod_cast this
      have : (0 : ℚ) < (m : ℚ) * (2 : ℚ) ^ e := mul_pos hpos hp
      nlinarith


theorem bit_length_zero : bit_length 0 = 0 := rfl

theorem f32_round_zero (neg : Bool) (E : Int) : ∃ E1, f32_round neg 0 E = .fin neg 0 E1 := by
  refine ⟨E + ((max (bit_length 0 - 24) (-149 - E).toNat : Nat) : Int), ?_⟩
  simp [f32_round]

theorem f32_to_u32_zero (junk : Nat) (neg : Bool) (E : Int) :
    f32_to_u32 junk (.fin neg 0 E) = 0 := by
  simp [f32_to_u32]

theorem u32_to_f32_fin (n : Nat) (h : n < 2 ^ 32) :
    ∃ q k, u32_to_f32 n = .fin false q k := by
  have hb : bit_length n ≤ 32 := (bit_length_le_iff n 32).2 h
  have hk : max (bit_length n - 24) ((-149 - (0 : Int)).toNat) = bit_length n - 24 := by
    simp
  unfold u32_to_f32 f32_round
  simp only [hk]
  generalize hkk : bit_length n - 24 = k
  have hk8 : k ≤ 8 := by omega
  have hpow : 2 ^ k ≤ 2 ^ 8 := Nat.pow_le_pow_right (by norm_num) hk8
  have hq : n / 2 ^ k ≤ n := Nat.div_le_self _ _
  rw [if_neg, if_neg]
  · exact ⟨_, _, rfl⟩
  · rintro ⟨-, h2⟩
    have e1 : ((0 : Int) + (k : Int)).toNat = k := by simp
    rw [e1] at h2
    have hq1 : (if 2 * (n % 2 ^ k) < 2 ^ k then n / 2 ^ k
        else if 2 * (n % 2 ^ k) = 2 ^ k ∧ n / 2 ^ k % 2 = 0 then n / 2 ^ k
        else n / 2 ^ k + 1) ≤ 2 ^ 32 := by
      split_ifs <;> omega
    have : (if 2 * (n % 2 ^ k) < 2 ^ k then n / 2 ^ k
        else if 2 * (n % 2 ^ k) = 2 ^ k ∧ n / 2 ^ k % 2 = 0 then n / 2 ^ k
        else n / 2 ^ k + 1) * 2 ^ k ≤ 2 ^ 32 * 2 ^ 8 := Nat.mul_le_mul hq1 hpow
    norm_num at this h2
    omega
  · rintro ⟨h1, -⟩
    omega

theorem u32_to_f32_exact (n : Nat) (h : n < 2 ^ 24) : u32_to_f32 n = .fin false n 0 := by
  have hb : bit_length n ≤ 24 := (bit_length_le_iff n 24).2 h
  have hk : max (bit_length n - 24) ((-149 - (0 : Int)).toNat) = 0 := by
    simp; omega
  unfold u32_to_f32 f32_round
  simp only [hk]
  norm_num [Nat.mod_one]
  intro h2
  have h3 : n < 2 ^ 24 := h
  norm_num at h3
  omega


theorem f32_round_exact (neg : Bool) (M : Nat) (E : Int) (hM : M < 2 ^ 24)
    (hlo : -149 ≤ E) (hhi : E ≤ 0) : f32_round neg M E = .fin neg M E := by
  have hb : bit_length M ≤ 24 := (bit_length_le_iff M 24).2 hM
  have hk : max (bit_length M - 24) ((-149 - E).toNat) = 0 := by
    have : (-149 - E).toNat = 0 := by omega
    rw [this]; simp; omega
  unfold f32_round
  simp only [hk]
  have hM2 : M < 2 ^ 24 := hM
  norm_num at hM2
  norm_num [Nat.mod_one]
  rw [if_neg (by omega), if_neg]
  rintro ⟨h1, h2⟩
  have : E = 0 := by omega
  subst this
  simp at h2
  omega

/-- C3. `partitioner_create` stores `n_tasks` unchanged; the strategy is STATIC
exactly when `alpha` is a number with `0 ≤ alpha ≤ 1`, and DYNAMIC exactly otherwise
(a finite `alpha < 0` or `alpha > 1`, an infinity, a NaN). -/
theorem C3_partitioner_create_strategy (junk n_tasks : Nat) (alpha : F32) :
    (partitioner_create junk n_tasks alpha).n_tasks = n_tasks ∧
    ((partitioner_create junk n_tasks alpha).strategy = STATIC_PARTITIONING ↔
      ∃ q : ℚ, alpha.toRat = some q ∧ 0 ≤ q ∧ q ≤ 1) ∧
    ((partitioner_create junk n_tasks alpha).strategy = DYNAMIC_PARTITIONING ↔
      ¬ ∃ q : ℚ, alpha.toRat = some q ∧ 0 ≤ q ∧ q ≤ 1) := by
  have key : (alpha.ge_zero && alpha.le_one) = true ↔
      ∃ q : ℚ, alpha.toRat = some q ∧ 0 ≤ q ∧ q ≤ 1 := by
    cases alpha with
    | fin neg m e =>
      rw [in_unit_iff]
      simp [F32.toRat]
    | inf neg => cases neg <;> simp [F32.ge_zero, F32.le_one, F32.toRat]
    | nan => simp [F32.ge_zero, F32.le_one, F32.toRat]
  unfold partitioner_create
  by_cases h : (alpha.ge_zero && alpha.le_one) = true
  · rw [if_pos h]
    have := key.1 h
    simp [this, STATIC_PARTITIONING, DYNAMIC_PARTITIONING]
  · rw [if_neg h]
    have := mt key.2 h
    simp [this, STATIC_PARTITIONING, DYNAMIC_PARTITIONING]

/-- Where the product `n_tasks * alpha` is exact in single precision
(`n_tasks * m < 2 ^ 24` for `alpha = m * 2 ^ e` in `[0, 1]`), the cut is the floor of
`n_tasks * alpha`. -/
theorem cut_exact_product (junk n_tasks : Nat) (neg : Bool) (m : Nat) (e : Int) (q : ℚ)
    (hn : n_tasks < 2 ^ 32) (hwf : (F32.fin neg m e).wf = true)
    (hq : (F32.fin neg m e).toRat = some q) (h0 : 0 ≤ q) (h1 : q ≤ 1)
    (hex : n_tasks * m < 2 ^ 24) :
    ((partitioner_create junk n_tasks (.fin neg m e)).cut : Int) = ⌊(n_tasks : ℚ) * q⌋ := by
  have hq1 : q = (if neg then -1 else 1) * (m : ℚ) * (2 : ℚ) ^ e := by
    simpa [F32.toRat] using hq.symm
  have hunit := (in_unit_iff neg m e).2 ⟨by rw [← hq1]; exact h0, by rw [← hq1]; exact h1⟩
  have hlo : -149 ≤ e := by
    simp [F32.wf] at hwf
    omega
  unfold partitioner_create
  rw [if_pos hunit]
  simp only
  by_cases hm : m = 0
  · subst hm
    obtain ⟨q1, k, hf⟩ := u32_to_f32_fin n_tasks hn
    rw [hf]
    simp only [f32_mul, Nat.mul_zero]
    obtain ⟨E1, hr⟩ := f32_round_zero (xor false neg) (k + e)
    rw [hr, f32_to_u32_zero]
    simp [hq1]
  · have hmpos : 0 < m := Nat.pos_of_ne_zero hm
    have hp : (0 : ℚ) < (2 : ℚ) ^ e := by positivity
    have hmq : (0 : ℚ) < (m : ℚ) := by exact_mod_cast hmpos
    have hneg : neg = false := by
      cases neg with
      | false => rfl
      | true =>
        exfalso
        have : (0 : ℚ) < (m : ℚ) * (2 : ℚ) ^ e := mul_pos hmq hp
        rw [hq1] at h0
        simp at h0
        nlinarith
    subst hneg
    simp only [Bool.false_eq_true, if_false, one_mul] at hq1
    have hn24 : n_tasks < 2 ^ 24 := lt_of_le_of_lt (Nat.le_mul_of_pos_right n_tasks hmpos) hex
    have hle := (le_one_nat_iff m e).2 (by rw [← hq1]; exact h1)
    have he : e ≤ 0 := by
      by_contra hcon
      have hpos : 0 ≤ e := by omega
      rw [if_pos hpos] at hle
      simp only [decide_eq_true_eq] at hle
      have h2 : 2 ^ 1 ≤ 2 ^ e.toNat := Nat.pow_le_pow_right (by norm_num) (by omega)
      have h3 : 1 * 2 ^ e.toNat ≤ m * 2 ^ e.toNat := Nat.mul_le_mul_right _ hmpos
      omega
    rw [u32_to_f32_exact n_tasks hn24]
    simp only [f32_mul, Bool.xor_false, zero_add]
    rw [f32_round_exact false (n_tasks * m) e hex hlo he]
    obtain ⟨s, rfl⟩ : ∃ s : Nat, e = -(s : Int) := ⟨(-e).toNat, by omega⟩
    have hdiv : n_tasks * m / 2 ^ s ≤ n_tasks * m := Nat.div_le_self _ _
    have hfl : ⌊(n_tasks : ℚ) * q⌋ = ((n_tasks * m / 2 ^ s : Nat) : Int) := by
      rw [hq1, zpow_neg, zpow_natCast, ← mul_assoc, ← div_eq_mul_inv]
      have : ((n_tasks : ℚ) * (m : ℚ)) / (2 : ℚ) ^ s = ((n_tasks * m : Nat) : ℚ) / ((2 ^ s : Nat) : ℚ) := by
        push_cast; ring
      rw [this, Rat.floor_natCast_div_natCast]
      norm_cast
    rw [hfl]
    have hex2 : n_tasks * m < 2 ^ 24 := hex
    norm_num at hex2
    by_cases hs : s = 0
    · subst hs
      simp [f32_to_u32]
      split_ifs with ha hb
      · rcases ha with ha | ha
        · simp [ha]
        · exact absurd ha hm
      · rfl
      · omega
    · have hneg : ¬ (0 : Int) ≤ -(s : Int) := by omega
      simp only [f32_to_u32, hneg, if_false, neg_neg, Int.toNat_ofNat, Bool.false_eq_true]
      split_ifs with ha hb
      · simp [ha]
      · rfl
      · exfalso
        norm_num at hb
        omega


/-! ## Claims -/

/-- C1 fails as stated: `n_tasks = 1`, `alpha = 0.75` is STATIC with `cut = 0`, while
`round(1 * 0.75) = 1`. -/
theorem C1_counterexample :
    alpha_0_75.wf = true ∧ alpha_0_75.toRat = some (3 / 4) ∧
    (∀ junk, (partitioner_create junk 1 alpha_0_75).strategy = STATIC_PARTITIONING) ∧
    (∀ junk, (partitioner_create junk 1 alpha_0_75).cut = 0) ∧
    round (((1 : Nat) : ℚ) * (3 / 4)) = 1 := by
  refine ⟨by decide, by norm_num [alpha_0_75, F32.toRat], fun _ => rfl, fun _ => rfl, ?_⟩
  rw [round_eq, Int.floor_eq_iff]
  norm_num

/-- C2 at `n_tasks = 16777219 = 2 ^ 24 + 3`, `alpha = 1.0`: the conversion of `n_tasks`
to `float` rounds up to 16777220, so `cut = 16777220 > n_tasks`, and `cpu_more` hands
worker 0 the index 16777219, which is not below `n_tasks`. -/
theorem C2_eval :
    alpha_1.wf = true ∧ alpha_1.toRat = some 1 ∧
    (∀ junk, partitioner_create junk 16777219 alpha_1 =
      { n_tasks := 16777219, cut := 16777220, strategy := STATIC_PARTITIONING }) ∧
    cpu_more { n_tasks := 16777219, cut := 16777220, strategy := STATIC_PARTITIONING } 0 16777219
      = true := by
  refine ⟨by decide, by norm_num [alpha_1, F32.toRat], fun _ => rfl, by decide⟩

/-- C7. `cpu_more(p, id, index)` holds, under STATIC, exactly when `index < cut` for
`id = 0` and when `index < n_tasks` for `id ≠ 0`; under DYNAMIC exactly when
`index < n_tasks`, for every `id`. -/
theorem C7_cpu_more (p : Partitioner) (id index : Nat) :
    (p.strategy = STATIC_PARTITIONING →
      (cpu_more p id index = true ↔ if id = 0 then index < p.cut else index < p.n_tasks)) ∧
    (p.strategy = DYNAMIC_PARTITIONING → (cpu_more p id index = true ↔ index < p.n_tasks)) := by
  constructor
  · intro h
    have : ¬ p.strategy = DYNAMIC_PARTITIONING := by rw [h]; decide
    by_cases hid : id = 0 <;> simp [cpu_more, this, hid]
  · intro h
    simp [cpu_more, h]

/-- C8 fails as stated at the cursor value `c = 2147483647`: `cpu_next` leaves the
cursor at `-2147483648`, not at `c + 1`. -/
theorem C8_counterexample :
    cpu_next { n_tasks := 4294967295, cut := 0, strategy := DYNAMIC_PARTITIONING } 0 1 2147483647
      = (2147483647, -2147483648) ∧
    (cpu_next { n_tasks := 4294967295, cut := 0, strategy := DYNAMIC_PARTITIONING } 0 1
      2147483647).2 ≠ 2147483647 + 1 := by
  decide


theorem to_u32_lt (c : Int) : to_u32 c < 2 ^ 32 := by
  unfold to_u32
  omega

theorem to_u32_wrap_succ (c : Int) : to_u32 (wrap_s32 (c + 1)) = (to_u32 c + 1) % 2 ^ 32 := by
  unfold to_u32 wrap_s32
  omega

theorem wrap_s32_wrap_add (c : Int) (k : Int) : wrap_s32 (wrap_s32 c + k) = wrap_s32 (c + k) := by
  unfold wrap_s32
  omega

theorem to_u32_of_nonneg (c : Int) (h0 : 0 ≤ c) (h1 : c < 2 ^ 32) : to_u32 c = c.toNat := by
  unfold to_u32
  omega

theorem wrap_s32_of_range (c : Int) (h0 : -2 ^ 31 ≤ c) (h1 : c < 2 ^ 31) : wrap_s32 c = c := by
  unfold wrap_s32
  omega

theorem cpu_first_dynamic (p : Partitioner) (h : p.strategy = DYNAMIC_PARTITIONING) (id : Nat)
    (c : Int) : cpu_first p id c = (to_u32 c, wrap_s32 (c + 1)) := by
  simp [cpu_first, fetch_add_1, h]

theorem cpu_next_dynamic (p : Partitioner) (h : p.strategy = DYNAMIC_PARTITIONING)
    (old stride : Nat) (c : Int) : cpu_next p old stride c = (to_u32 c, wrap_s32 (c + 1)) := by
  simp [cpu_next, fetch_add_1, h]

theorem wrap_s32_range (c : Int) : -2 ^ 31 ≤ wrap_s32 c ∧ wrap_s32 c < 2 ^ 31 := by
  unfold wrap_s32
  omega

theorem claims_from_dynamic (p : Partitioner) (h : p.strategy = DYNAMIC_PARTITIONING) :
    ∀ (ids : List Nat) (c : Int), -2 ^ 31 ≤ c → c < 2 ^ 31 → claims_from p ids c =
      ((List.range ids.length).map (fun k => (to_u32 c + k) % 2 ^ 32),
        wrap_s32 (c + (ids.length : Int))) := by
  intro ids
  induction ids with
  | nil =>
    intro c h0 h1
    simp [claims_from, wrap_s32_of_range c h0 h1]
  | cons id ids ih =>
    intro c h0 h1
    have hr := wrap_s32_range (c + 1)
    simp only [claims_from, cpu_first_dynamic p h, ih _ hr.1 hr.2, List.length_cons,
      List.range_succ_eq_map, List.map_cons, List.map_map]
    have hlt := to_u32_lt c
    have e1 : (to_u32 c + 0) % 2 ^ 32 = to_u32 c := by
      rw [Nat.add_zero]; exact Nat.mod_eq_of_lt hlt
    have e2 : wrap_s32 (wrap_s32 (c + 1) + (ids.length : Int))
        = wrap_s32 (c + ((ids.length + 1 : Nat) : Int)) := by
      rw [wrap_s32_wrap_add]
      congr 1
      push_cast
      ring
    rw [e1, e2]
    congr 2
    apply List.map_congr_left
    intro k _
    simp only [Function.comp]
    rw [to_u32_wrap_succ]
    omega

/-- C8 (amended). Under STATIC `cpu_next` returns `old + stride` in 32-bit unsigned
arithmetic and leaves the cursor alone; under DYNAMIC it returns the cursor value `c`
converted to `unsigned int` and leaves the cursor at `c + 1` wrapped to a signed
32-bit value, whatever `old` and `stride` are; for `0 ≤ c < 2 ^ 31 - 1` that is `c`
and `c + 1`. -/
theorem C8_cpu_next (p : Partitioner) (old stride : Nat) (c : Int) :
    (p.strategy = STATIC_PARTITIONING →
      cpu_next p old stride c = ((old + stride) % 2 ^ 32, c)) ∧
    (p.strategy = DYNAMIC_PARTITIONING →
      cpu_next p old stride c = (to_u32 c, wrap_s32 (c + 1)) ∧
      (∀ old1 stride1, cpu_next p old1 stride1 c = cpu_next p old stride c) ∧
      (0 ≤ c → c < 2 ^ 31 - 1 → cpu_next p old stride c = (c.toNat, c + 1))) := by
  constructor
  · intro h
    have : ¬ p.strategy = DYNAMIC_PARTITIONING := by rw [h]; decide
    simp [cpu_next, this]
  · intro h
    refine ⟨cpu_next_dynamic p h old stride c, ?_, ?_⟩
    · intro old1 stride1
      rw [cpu_next_dynamic p h, cpu_next_dynamic p h]
    · intro h0 h1
      rw [cpu_next_dynamic p h, to_u32_of_nonneg c h0 (by omega),
        wrap_s32_of_range (c + 1) (by omega) (by omega)]

/-- C9 fails as stated at the cursor value `c = 2147483647`: `cpu_first` leaves the
cursor at `-2147483648`, not at `c + 1`. -/
theorem C9_counterexample :
    cpu_first { n_tasks := 4294967295, cut := 0, strategy := DYNAMIC_PARTITIONING } 0 2147483647
      = (2147483647, -2147483648) ∧
    (cpu_first { n_tasks := 4294967295, cut := 0, strategy := DYNAMIC_PARTITIONING } 0
      2147483647).2 ≠ 2147483647 + 1 := by
  decide

/-- C9 (amended). Under DYNAMIC `cpu_first` returns the cursor value `c` converted to
`unsigned int` and leaves the cursor at `c + 1` wrapped to a signed 32-bit value,
whatever the worker id; for `0 ≤ c < 2 ^ 31 - 1` that is `c` and `c + 1`.  After a
reset to 0 the first claim returns 0 and the `n`-th successive claim returns
`(n - 1) % 2 ^ 32`, which is `n - 1` as long as `n ≤ 2 ^ 32`. -/
theorem C9_cpu_first_dynamic (p : Partitioner) (id : Nat) (c : Int) (ids : List Nat)
    (h : p.strategy = DYNAMIC_PARTITIONING) :
    cpu_first p id c = (to_u32 c, wrap_s32 (c + 1)) ∧
    (∀ id1, cpu_first p id1 c = cpu_first p id c) ∧
    (0 ≤ c → c < 2 ^ 31 - 1 → cpu_first p id c = (c.toNat, c + 1)) ∧
    cpu_first p id 0 = (0, 1) ∧
    (claims_from p ids 0).1 = (List.range ids.length).map (fun k => k % 2 ^ 32) ∧
    (ids.length ≤ 2 ^ 32 → (claims_from p ids 0).1 = List.range ids.length) := by
  have hcl : (claims_from p ids 0).1 = (List.range ids.length).map (fun k => k % 2 ^ 32) := by
    rw [claims_from_dynamic p h ids 0 (by norm_num) (by norm_num)]
    simp [to_u32]
  refine ⟨cpu_first_dynamic p h id c, ?_, ?_, ?_, hcl, ?_⟩
  · intro id1
    rw [cpu_first_dynamic p h, cpu_first_dynamic p h]
  · intro h0 h1
    rw [cpu_first_dynamic p h, to_u32_of_nonneg c h0 (by omega),
      wrap_s32_of_range (c + 1) (by omega) (by omega)]
  · rw [cpu_first_dynamic p h]
    decide
  · intro hlen
    rw [hcl]
    conv_rhs => rw [← List.map_id (List.range ids.length)]
    apply List.map_congr_left
    intro k hk
    have : k < ids.length := List.mem_range.1 hk
    show k % 2 ^ 32 = k
    apply Nat.mod_eq_of_lt
    omega

/-- Instance of the amended C9: three successive claims after a reset. -/
theorem C9_witness :
    cpu_first { n_tasks := 5, cut := 0, strategy := DYNAMIC_PARTITIONING } 3 0 = (0, 1) ∧
    (claims_from { n_tasks := 5, cut := 0, strategy := DYNAMIC_PARTITIONING } [4, 2, 7] 0).1
      = [0, 1, 2] :=
  have h := C9_cpu_first_dynamic { n_tasks := 5, cut := 0, strategy := DYNAMIC_PARTITIONING }
    3 0 [4, 2, 7] rfl
  ⟨h.2.2.2.1, h.2.2.2.2.2 (by norm_num)⟩

/-- C10 fails as stated: with `n_tasks = 4`, `alpha = 0.5` (`cut = 2`) and `k = 2`
workers, worker 1 starts at `1 * cut = 2`, not at `1 * cut / 2 = 1`, and 2 is not
inside `[0, cut)`. -/
theorem C10_counterexample :
    partitioner_create 0 4 alpha_0_5 = { n_tasks := 4, cut := 2, strategy := STATIC_PARTITIONING } ∧
    (cpu_first (partitioner_create 0 4 alpha_0_5) 1 0).1 = 2 ∧
    (cpu_first (partitioner_create 0 4 alpha_0_5) 1 0).1 ≠
      1 * (partitioner_create 0 4 alpha_0_5).cut / 2 ∧
    ¬ (cpu_first (partitioner_create 0 4 alpha_0_5) 1 0).1 < (partitioner_create 0 4 alpha_0_5).cut := by
  decide

/-- C10 (amended). Under STATIC `cpu_first` for worker `id` returns `id * cut` in
32-bit unsigned arithmetic, whatever the number of host workers, and leaves the
cursor alone: worker 0 starts at 0, the beginning of `[0, cut)`, and worker 1 at
`cut`, the beginning of `[cut, n_tasks)`. -/
theorem C10_cpu_first_static (p : Partitioner) (id : Nat) (worklist : Int)
    (h : p.strategy = STATIC_PARTITIONING) :
    cpu_first p id worklist = ((id * p.cut) % 2 ^ 32, worklist) ∧
    cpu_first p 0 worklist = (0, worklist) ∧
    (p.cut < 2 ^ 32 → cpu_first p 1 worklist = (p.cut, worklist)) := by
  have hd : ¬ p.strategy = DYNAMIC_PARTITIONING := by rw [h]; decide
  refine ⟨by simp [cpu_first, hd], by simp [cpu_first, hd], ?_⟩
  intro hc
  simp only [cpu_first, if_neg hd, Nat.one_mul, Nat.mod_eq_of_lt hc]

/-- Instance of the amended C10: worker 1 of `partitioner_create(100, 0.3f)`. -/
theorem C10_witness :
    (partitioner_create 0 100 alpha_0_3).strategy = STATIC_PARTITIONING ∧
    cpu_first (partitioner_create 0 100 alpha_0_3) 1 0 = (30, 0) :=
  ⟨rfl, (C10_cpu_first_static (partitioner_create 0 100 alpha_0_3) 1 0 rfl).2.2 (by decide)⟩

theorem worker_loop_static_zero (p : Partitioner) (w : Int)
    (hs : p.strategy = STATIC_PARTITIONING) (hc : p.cut < 2 ^ 32) :
    ∀ (fuel index : Nat), index ≤ p.cut → p.cut - index < fuel →
      worker_loop p 0 1 fuel index w = some (List.range' index (p.cut - index), w) := by
  have hd : ¬ p.strategy = DYNAMIC_PARTITIONING := by rw [hs]; decide
  intro fuel
  induction fuel with
  | zero => intro index _ h; omega
  | succ fuel ih =>
    intro index hle hf
    by_cases hlt : index < p.cut
    · have hm : cpu_more p 0 index = true := by simp [cpu_more, hd, hlt]
      have hn : cpu_next p index 1 w = (index + 1, w) := by
        simp only [cpu_next, if_neg hd]
        rw [Nat.mod_eq_of_lt (by omega)]
      have hlen : p.cut - index = (p.cut - (index + 1)) + 1 := by omega
      simp only [worker_loop, hm, if_true, hn]
      rw [ih (index + 1) (by omega) (by omega), hlen, List.range'_succ]
      simp
    · have hm : cpu_more p 0 index = false := by simp [cpu_more, hd, hlt]
      have hz : p.cut - index = 0 := by omega
      simp [worker_loop, hm, hz]

/-- C4 fails as stated: with `n_tasks = 4`, `alpha = 0.5` (`cut = 2`) and `k = 2`
workers, worker 0 visits `[0]` and worker 1 visits `[2]`; index 1 is never visited
and index 2 lies outside `[0, cut)`. -/
theorem C4_counterexample :
    partitioner_create 0 4 alpha_0_5 = { n_tasks := 4, cut := 2, strategy := STATIC_PARTITIONING } ∧
    run_worker (partitioner_create 0 4 alpha_0_5) 0 2 8 0 = some ([0], 0) ∧
    run_worker (partitioner_create 0 4 alpha_0_5) 1 2 8 0 = some ([2], 0) ∧
    ¬ List.Perm ([0] ++ [2]) (List.range (partitioner_create 0 4 alpha_0_5).cut) := by
  refine ⟨by decide, by decide, by decide, ?_⟩
  intro h
  have h1 : 1 ∈ [0] ++ [2] := h.mem_iff.2 (by decide)
  revert h1
  decide

/-- C4 (amended). STATIC coverage holds for one host worker: for every STATIC
partitioner (with `cut` an `unsigned int`), the loop of worker 0 with stride 1,
`index = cpu_first; while cpu_more(index): index = cpu_next(index, 1)`, terminates
and runs its body for exactly the indices `0, 1, .., cut - 1`, in this order, each
once, leaving the cursor untouched. -/
theorem C4_static_single_worker (p : Partitioner) (fuel : Nat) (worklist : Int)
    (hs : p.strategy = STATIC_PARTITIONING) (hc : p.cut < 2 ^ 32) (hf : p.cut < fuel) :
    run_worker p 0 1 fuel worklist = some (List.range p.cut, worklist) := by
  have hd : ¬ p.strategy = DYNAMIC_PARTITIONING := by rw [hs]; decide
  have h0 : cpu_first p 0 worklist = (0, worklist) := by simp [cpu_first, hd]
  unfold run_worker
  rw [h0, worker_loop_static_zero p worklist hs hc fuel 0 (Nat.zero_le _) (by omega),
    List.range_eq_range']
  simp

/-- Instance of the amended C4: `partitioner_create(100, 0.3f)`, fuel 31. -/
theorem C4_witness :
    (partitioner_create 0 100 alpha_0_3).strategy = STATIC_PARTITIONING ∧
    (partitioner_create 0 100 alpha_0_3).cut = 30 ∧
    run_worker (partitioner_create 0 100 alpha_0_3) 0 1 31 0 = some (List.range 30, 0) :=
  ⟨rfl, rfl, C4_static_single_worker (partitioner_create 0 100 alpha_0_3) 31 0 rfl
    (by decide) (by decide)⟩

theorem count_finished_lt (l : List Claimer) (i : Nat) (c : Claimer)
    (hget : l[i]? = some c) (hc : c ≠ .finished) : l.count .finished < l.length := by
  obtain ⟨hi, hli⟩ := List.getElem?_eq_some.1 hget
  have h1 := List.count_set Claimer.finished Claimer.finished l i hi
  have h2 : (l.set i .finished).count .finished ≤ (l.set i .finished).length :=
    List.count_le_length _ _
  rw [List.length_set] at h2
  have h3 : (l[i] == Claimer.finished) = false := by
    rw [hli]; simpa using hc
  simp [h3] at h1
  omega

theorem count_finished_set_active (l : List Claimer) (i : Nat) (c d : Claimer)
    (hget : l[i]? = some c) (hc : c ≠ .finished) (hd : d ≠ .finished) :
    (l.set i d).count .finished = l.count .finished := by
  obtain ⟨hi, hli⟩ := List.getElem?_eq_some.1 hget
  have h1 := List.count_set d Claimer.finished l i hi
  have h3 : (l[i] == Claimer.finished) = false := by
    rw [hli]; simpa using hc
  have h4 : (d == Claimer.finished) = false := by simpa using hd
  simp [h3, h4] at h1
  exact h1

theorem count_finished_set_finished (l : List Claimer) (i : Nat) (c : Claimer)
    (hget : l[i]? = some c) (hc : c ≠ .finished) :
    (l.set i .finished).count .finished = l.count .finished + 1 := by
  obtain ⟨hi, hli⟩ := List.getElem?_eq_some.1 hget
  have h1 := List.count_set Claimer.finished Claimer.finished l i hi
  have h3 : (l[i] == Claimer.finished) = false := by
    rw [hli]; simpa using hc
  simp [h3] at h1
  exact h1

theorem dyn_step_active (p : Partitioner) (hd : p.strategy = DYNAMIC_PARTITIONING)
    (stride : Nat) (s : DynState) (i : Nat) (c : Claimer)
    (hget : s.claimers[i]? = some c) (hc : c ≠ .finished) :
    dyn_step p stride s i = settle p s i (to_u32 s.cursor, wrap_s32 (s.cursor + 1)) := by
  unfold dyn_step
  rw [hget]
  cases c with
  | idle => simp only [cpu_first_dynamic p hd]
  | holding old => simp only [cpu_next_dynamic p hd]
  | finished => exact absurd rfl hc

theorem dyn_step_inactive (p : Partitioner) (stride : Nat) (s : DynState) (i : Nat)
    (hget : s.claimers[i]? = none ∨ s.claimers[i]? = some .finished) :
    dyn_step p stride s i = s := by
  unfold dyn_step
  rcases hget with h | h <;> rw [h]

theorem to_u32_wrap_natCast (k : Nat) (h : k < 2 ^ 32) : to_u32 (wrap_s32 (k : Int)) = k := by
  unfold to_u32 wrap_s32
  omega

theorem claims_lt (A F n w : Nat) (hb : n + w ≤ 2 ^ 32) (hle : A ≤ n) (hF : F < w) :
    A + F < 2 ^ 32 := by
  omega

theorem settle_inv (p : Partitioner) (hd : p.strategy = DYNAMIC_PARTITIONING) (w : Nat)
    (hb : p.n_tasks + w ≤ 2 ^ 32) (s : DynState) (i : Nat) (c : Claimer)
    (hget : s.claimers[i]? = some c) (hc : c ≠ .finished) (hinv : DynInv p w s) :
    DynInv p w (settle p s i (to_u32 s.cursor, wrap_s32 (s.cursor + 1))) := by
  obtain ⟨hlen, hcur, hacc, hle, hfull⟩ := hinv
  have hF : s.claimers.count .finished < w := by
    rw [← hlen]; exact count_finished_lt _ i c hget hc
  have hidx : to_u32 s.cursor = s.accepted.length + s.claimers.count .finished := by
    rw [hcur]
    exact to_u32_wrap_natCast _ (claims_lt _ _ _ _ hb hle hF)
  have hcur1 : wrap_s32 (s.cursor + 1)
      = wrap_s32 ((s.accepted.length + s.claimers.count .finished + 1 : Nat) : Int) := by
    rw [hcur, wrap_s32_wrap_add]; congr 1
  unfold settle
  by_cases hlt : to_u32 s.cursor < p.n_tasks
  · have hm : cpu_more p i (to_u32 s.cursor) = true := by simp [cpu_more, hd, hlt]
    have hF0 : s.claimers.count .finished = 0 := by
      by_contra hne
      have := hfull (Nat.pos_of_ne_zero hne)
      omega
    simp only [hm, if_true]
    have hcnt := count_finished_set_active s.claimers i c (.holding (to_u32 s.cursor)) hget hc
      (by simp)
    refine ⟨by simp [hlen], ?_, ?_, ?_, ?_⟩
    · simp only [hcnt, hcur1, List.length_append, List.length_singleton]
      congr 2; omega
    · simp only [List.map_append, List.length_append, List.length_singleton, List.range_succ,
        hacc, List.map_cons, List.map_nil]
      congr 2; omega
    · simp only [List.length_append, List.length_singleton]; omega
    · simp only [hcnt]; intro h; omega
  · have hm : cpu_more p i (to_u32 s.cursor) = false := by simp [cpu_more, hd, hlt]
    simp only [hm, Bool.false_eq_true, if_false]
    have hcnt := count_finished_set_finished s.claimers i c hget hc
    refine ⟨by simp [hlen], ?_, hacc, hle, ?_⟩
    · simp only [hcnt, hcur1]; congr 1
    · intro _
      show s.accepted.length = p.n_tasks
      by_cases hF0 : s.claimers.count .finished = 0
      · omega
      · exact hfull (Nat.pos_of_ne_zero hF0)

theorem dyn_step_inv (p : Partitioner) (hd : p.strategy = DYNAMIC_PARTITIONING) (w stride : Nat)
    (hb : p.n_tasks + w ≤ 2 ^ 32) (s : DynState) (i : Nat) (hinv : DynInv p w s) :
    DynInv p w (dyn_step p stride s i) := by
  cases hget : s.claimers[i]? with
  | none => rw [dyn_step_inactive p stride s i (Or.inl hget)]; exact hinv
  | some c =>
    by_cases hc : c = .finished
    · subst hc; rw [dyn_step_inactive p stride s i (Or.inr hget)]; exact hinv
    · rw [dyn_step_active p hd stride s i c hget hc]
      exact settle_inv p hd w hb s i c hget hc hinv

theorem dyn_run_inv (p : Partitioner) (hd : p.strategy = DYNAMIC_PARTITIONING) (w stride : Nat)
    (hb : p.n_tasks + w ≤ 2 ^ 32) (sched : List Nat) :
    ∀ s, DynInv p w s → DynInv p w (dyn_run p stride s sched) := by
  induction sched with
  | nil => intro s h; exact h
  | cons i sched ih =>
    intro s h
    exact ih _ (dyn_step_inv p hd w stride hb s i h)

theorem dyn_init_inv (p : Partitioner) (w : Nat) : DynInv p w (dyn_init w) := by
  refine ⟨by simp [dyn_init], ?_, by simp [dyn_init], by simp [dyn_init], ?_⟩
  · simp [dyn_init, List.count_replicate, wrap_s32]
  · simp [dyn_init, List.count_replicate]

/-- C5 (amended). DYNAMIC coverage while the cursor cannot wrap: with `w ≥ 1`
claimers and `n_tasks + w ≤ 2 ^ 32`, for every interleaving of the atomic claim
steps from cursor 0 after which every claimer has left its loop, the indices
accepted by `cpu_more` are, in claim order, exactly `0, 1, .., n_tasks - 1`: none
twice, none omitted. -/
theorem C5_dynamic_coverage (p : Partitioner) (w stride : Nat) (sched : List Nat)
    (hd : p.strategy = DYNAMIC_PARTITIONING) (hw : 1 ≤ w) (hb : p.n_tasks + w ≤ 2 ^ 32)
    (hfin : all_finished (dyn_run p stride (dyn_init w) sched) = true) :
    (dyn_run p stride (dyn_init w) sched).accepted.map Prod.snd = List.range p.n_tasks := by
  obtain ⟨hlen, -, hacc, -, hfull⟩ :=
    dyn_run_inv p hd w stride hb sched _ (dyn_init_inv p w)
  have hall : (dyn_run p stride (dyn_init w) sched).claimers.count .finished
      = (dyn_run p stride (dyn_init w) sched).claimers.length := by
    rw [List.count_eq_length]
    intro b hbm
    have := List.all_eq_true.1 hfin b hbm
    simp only [decide_eq_true_eq] at this
    exact this.symm
  rw [hacc, hfull (by omega)]

/-- Instance of the amended C5: three tasks, two claimers. -/
theorem C5_witness :
    all_finished (dyn_run { n_tasks := 3, cut := 0, strategy := DYNAMIC_PARTITIONING } 1
      (dyn_init 2) [0, 1, 1, 0, 1]) = true ∧
    (dyn_run { n_tasks := 3, cut := 0, strategy := DYNAMIC_PARTITIONING } 1
      (dyn_init 2) [0, 1, 1, 0, 1]).accepted = [(0, 0), (1, 1), (1, 2)] ∧
    (dyn_run { n_tasks := 3, cut := 0, strategy := DYNAMIC_PARTITIONING } 1
      (dyn_init 2) [0, 1, 1, 0, 1]).accepted.map Prod.snd = List.range 3 :=
  ⟨by decide, by decide,
    C5_dynamic_coverage { n_tasks := 3, cut := 0, strategy := DYNAMIC_PARTITIONING } 2 1
      [0, 1, 1, 0, 1] rfl (by norm_num) (by norm_num) (by decide)⟩

theorem dyn_run_append (p : Partitioner) (stride : Nat) (s : DynState) (a b : List Nat) :
    dyn_run p stride s (a ++ b) = dyn_run p stride (dyn_run p stride s a) b := by
  simp [dyn_run, List.foldl_append]

theorem dyn_run_cons (p : Partitioner) (stride : Nat) (s : DynState) (i : Nat) (l : List Nat) :
    dyn_run p stride s (i :: l) = dyn_run p stride (dyn_step p stride s i) l := rfl

theorem dyn_run_single (p : Partitioner) (stride : Nat) (s : DynState) (i : Nat) :
    dyn_run p stride s [i] = dyn_step p stride s i := rfl

theorem dyn_step_accept (p : Partitioner) (hd : p.strategy = DYNAMIC_PARTITIONING)
    (stride : Nat) (s : DynState) (i : Nat) (c : Claimer)
    (hget : s.claimers[i]? = some c) (hc : c ≠ .finished) (hlt : to_u32 s.cursor < p.n_tasks) :
    dyn_step p stride s i =
      { cursor := wrap_s32 (s.cursor + 1),
        claimers := s.claimers.set i (.holding (to_u32 s.cursor)),
        accepted := s.accepted ++ [(i, to_u32 s.cursor)] } := by
  rw [dyn_step_active p hd stride s i c hget hc]
  simp [settle, cpu_more, hd, hlt]

theorem dyn_step_reject (p : Partitioner) (hd : p.strategy = DYNAMIC_PARTITIONING)
    (stride : Nat) (s : DynState) (i : Nat) (c : Claimer)
    (hget : s.claimers[i]? = some c) (hc : c ≠ .finished) (hge : p.n_tasks ≤ to_u32 s.cursor) :
    dyn_step p stride s i =
      { cursor := wrap_s32 (s.cursor + 1),
        claimers := s.claimers.set i .finished,
        accepted := s.accepted } := by
  rw [dyn_step_active p hd stride s i c hget hc]
  have : ¬ to_u32 s.cursor < p.n_tasks := by omega
  simp [settle, cpu_more, hd, this]

/-- A claimer that runs alone for `j` steps while the cursor stays below `n_tasks`
has all `j` claims accepted. -/
theorem solo_accept (p : Partitioner) (hd : p.strategy = DYNAMIC_PARTITIONING)
    (hn : p.n_tasks < 2 ^ 32) (stride i : Nat) :
    ∀ (j : Nat) (s : DynState), (∃ c, s.claimers[i]? = some c ∧ c ≠ .finished) →
      to_u32 s.cursor + j ≤ p.n_tasks →
      to_u32 (dyn_run p stride s (List.replicate j i)).cursor = to_u32 s.cursor + j ∧
      (dyn_run p stride s (List.replicate j i)).accepted.length = s.accepted.length + j ∧
      (dyn_run p stride s (List.replicate j i)).claimers.length = s.claimers.length ∧
      (∃ c, (dyn_run p stride s (List.replicate j i)).claimers[i]? = some c ∧ c ≠ .finished) ∧
      (∀ k, k ≠ i →
        (dyn_run p stride s (List.replicate j i)).claimers[k]? = s.claimers[k]?) := by
  intro j
  induction j with
  | zero =>
    intro s hact _
    exact ⟨rfl, rfl, rfl, hact, fun _ _ => rfl⟩
  | succ j ih =>
    intro s hact hle
    obtain ⟨c, hget, hc⟩ := hact
    have hi : i < s.claimers.length := (List.getElem?_eq_some.1 hget).1
    rw [List.replicate_succ, dyn_run_cons, dyn_step_accept p hd stride s i c hget hc (by omega)]
    have hu : to_u32 (wrap_s32 (s.cursor + 1)) = to_u32 s.cursor + 1 := by
      rw [to_u32_wrap_succ]; apply Nat.mod_eq_of_lt; omega
    have hact1 : ∃ c1, (s.claimers.set i (Claimer.holding (to_u32 s.cursor)))[i]? = some c1 ∧
        c1 ≠ .finished := ⟨.holding (to_u32 s.cursor), by simp [hi], by simp⟩
    obtain ⟨h1, h2, h3, h4, h5⟩ := ih
      { cursor := wrap_s32 (s.cursor + 1),
        claimers := s.claimers.set i (.holding (to_u32 s.cursor)),
        accepted := s.accepted ++ [(i, to_u32 s.cursor)] } hact1 (by simp only [hu]; omega)
    refine ⟨?_, ?_, ?_, h4, ?_⟩
    · rw [h1]; simp only [hu]; omega
    · rw [h2]; simp only [List.length_append, List.length_singleton]; omega
    · rw [h3]; simp
    · intro k hk
      rw [h5 k hk]
      simp [List.getElem?_set_ne (Ne.symm hk)]

/-- With `N = 2 ^ 32 - 1` tasks and two claimers, let claimer 0 run its whole loop
and then claimer 1: the cursor wraps to 0 and claimer 1 is handed `0, 1, ..` again. -/
theorem wraparound_run (N : Nat) (hN : N + 1 = 2 ^ 32) :
    all_finished (dyn_run { n_tasks := N, cut := 0, strategy := DYNAMIC_PARTITIONING } 1
      (dyn_init 2)
      ((List.replicate N 0 ++ [0]) ++ (List.replicate N 1 ++ [1]))) = true ∧
    (dyn_run { n_tasks := N, cut := 0, strategy := DYNAMIC_PARTITIONING } 1 (dyn_init 2)
      ((List.replicate N 0 ++ [0]) ++ (List.replicate N 1 ++ [1]))).accepted.length
      = N + N := by
  generalize hp : ({ n_tasks := N, cut := 0, strategy := DYNAMIC_PARTITIONING } : Partitioner) = p
  have hd : p.strategy = DYNAMIC_PARTITIONING := by rw [← hp]
  have hpn : p.n_tasks = N := by rw [← hp]
  have hn : p.n_tasks < 2 ^ 32 := by omega
  -- claimer 0 takes N accepted claims
  obtain ⟨s1, hs1⟩ : ∃ s1, dyn_run p 1 (dyn_init 2) (List.replicate N 0) = s1 := ⟨_, rfl⟩
  obtain ⟨a1, a2, a3, ⟨c0, a4, a4n⟩, a5⟩ := solo_accept p hd hn 1 0 N (dyn_init 2)
    ⟨.idle, by simp [dyn_init], by simp⟩ (by simp [dyn_init, to_u32, hpn])
  rw [hs1] at a1 a2 a3 a4 a5
  have hs1c : to_u32 s1.cursor = N := by rw [a1]; simp [dyn_init, to_u32]
  have hs1a : s1.accepted.length = N := by rw [a2]; simp [dyn_init]
  have hs1l : s1.claimers.length = 2 := by rw [a3]; simp [dyn_init]
  have hs1o : s1.claimers[1]? = some .idle := by rw [a5 1 (by decide)]; simp [dyn_init]
  -- its next claim is rejected
  have hstep0 := dyn_step_reject p hd 1 s1 0 c0 a4 a4n (by omega)
  -- claimer 1 takes N accepted claims from the wrapped cursor
  have hu2 : to_u32 (wrap_s32 (s1.cursor + 1)) = 0 := by
    rw [to_u32_wrap_succ, hs1c, hN]; simp
  obtain ⟨s2, hs2⟩ : ∃ s2 : DynState, s2 =
    { cursor := wrap_s32 (s1.cursor + 1), claimers := s1.claimers.set 0 .finished,
      accepted := s1.accepted } := ⟨_, rfl⟩
  rw [← hs2] at hstep0
  have hs2c : to_u32 s2.cursor = 0 := by rw [hs2]; exact hu2
  have hs2a : s2.accepted.length = N := by rw [hs2]; exact hs1a
  have hs2l : s2.claimers.length = 2 := by rw [hs2]; simp [hs1l]
  have hs2o : s2.claimers[1]? = some .idle := by rw [hs2]; simp [hs1o]
  have hs2z : s2.claimers[0]? = some .finished := by rw [hs2]; simp [hs1l]
  obtain ⟨s3, hs3⟩ : ∃ s3, dyn_run p 1 s2 (List.replicate N 1) = s3 := ⟨_, rfl⟩
  obtain ⟨b1, b2, b3, ⟨c1, b4, b4n⟩, b5⟩ := solo_accept p hd hn 1 1 N s2
    ⟨.idle, hs2o, by simp⟩ (by omega)
  rw [hs3] at b1 b2 b3 b4 b5
  have hs3o : s3.claimers[0]? = some .finished := by rw [b5 0 (by decide)]; exact hs2z
  have hstep1 := dyn_step_reject p hd 1 s3 1 c1 b4 b4n (by omega)
  simp only [dyn_run_append, dyn_run_single]
  rw [hs1, hstep0, hs3, hstep1]
  constructor
  · simp only [all_finished, List.all_eq_true, decide_eq_true_eq]
    intro x hx
    obtain ⟨k, hk, rfl⟩ := List.getElem_of_mem hx
    simp only [List.length_set] at hk
    have h01 : k = 0 ∨ k = 1 := by omega
    rcases h01 with rfl | rfl
    · obtain ⟨_, h⟩ := List.getElem?_eq_some.1 hs3o
      simp [List.getElem_set_ne, h]
    · simp
  · show s3.accepted.length = N + N
    omega
/-- C5 fails as stated: with `n_tasks = 4294967295` and two claimers there is an
interleaving, run to the end of both loops, in which twice `n_tasks` claims are
accepted, so the accepted indices are not `0 .. n_tasks - 1` once each. -/
theorem C5_counterexample :
    ∃ sched : List Nat,
      all_finished (dyn_run { n_tasks := 4294967295, cut := 0, strategy := DYNAMIC_PARTITIONING }
        1 (dyn_init 2) sched) = true ∧
      (dyn_run { n_tasks := 4294967295, cut := 0, strategy := DYNAMIC_PARTITIONING }
        1 (dyn_init 2) sched).accepted.length = 4294967295 + 4294967295 ∧
      (dyn_run { n_tasks := 4294967295, cut := 0, strategy := DYNAMIC_PARTITIONING }
        1 (dyn_init 2) sched).accepted.map Prod.snd ≠ List.range 4294967295 := by
  have h := wraparound_run 4294967295 (by norm_num)
  refine ⟨_, h.1, h.2, ?_⟩
  intro heq
  have hlen := congrArg List.length heq
  rw [List.length_map, List.length_range, h.2] at hlen
  omega

theorem f32_to_u32_lt (junk : Nat) (hj : junk < 2 ^ 32) (x : F32) :
    f32_to_u32 junk x < 2 ^ 32 := by
  cases x with
  | fin neg m e =>
    simp only [f32_to_u32]
    split_ifs <;> first | assumption | (norm_num)
  | inf neg => exact hj
  | nan => exact hj

theorem dynamic_ne_static : DYNAMIC_PARTITIONING ≠ STATIC_PARTITIONING := by decide

theorem static_cut_eq (junk n_tasks : Nat) (alpha : F32)
    (hs : (partitioner_create junk n_tasks alpha).strategy = STATIC_PARTITIONING) :
    (partitioner_create junk n_tasks alpha).cut
      = f32_to_u32 junk (f32_mul (u32_to_f32 n_tasks) alpha) := by
  unfold partitioner_create at hs ⊢
  by_cases h : (alpha.ge_zero && alpha.le_one) = true
  · rw [if_pos h]
  · rw [if_neg h] at hs
    exact absurd hs dynamic_ne_static

theorem partitioner_create_n_tasks (junk n_tasks : Nat) (alpha : F32) :
    (partitioner_create junk n_tasks alpha).n_tasks = n_tasks := by
  unfold partitioner_create
  split_ifs <;> rfl

theorem static_cut_lt (junk n_tasks : Nat) (alpha : F32) (hj : junk < 2 ^ 32)
    (hs : (partitioner_create junk n_tasks alpha).strategy = STATIC_PARTITIONING) :
    (partitioner_create junk n_tasks alpha).cut < 2 ^ 32 := by
  rw [static_cut_eq junk n_tasks alpha hs]
  exact f32_to_u32_lt junk hj _

theorem cut_zero_tasks (junk : Nat) (alpha : F32)
    (h : (alpha.ge_zero && alpha.le_one) = true) :
    f32_to_u32 junk (f32_mul (u32_to_f32 0) alpha) = 0 := by
  rw [u32_to_f32_exact 0 (by norm_num)]
  cases alpha with
  | fin neg m e =>
    simp only [f32_mul, Nat.zero_mul]
    obtain ⟨E1, hr⟩ := f32_round_zero (xor false neg) (0 + e)
    rw [hr, f32_to_u32_zero]
  | inf neg => cases neg <;> simp [F32.ge_zero, F32.le_one] at h
  | nan => simp [F32.ge_zero, F32.le_one] at h

theorem worker_loop_exit (p : Partitioner) (id stride fuel index : Nat) (w : Int)
    (h : cpu_more p id index = false) :
    worker_loop p id stride (fuel + 1) index w = some ([], w) := by
  simp [worker_loop, h]

/-- C13. Boundary `n_tasks = 0`: for every `alpha` (STATIC or DYNAMIC) and every
worker id, with the cursor at 0 the first index `cpu_first` returns on
`partitioner_create(0, alpha)` is rejected by `cpu_more`, so the worker loop runs its
body for no index; under STATIC `cut = 0` and the merge loop over `[0, cut)` leaves
the buffer as it was. -/
theorem C13_zero_tasks (junk : Nat) (alpha : F32) (id stride fuel : Nat) :
    cpu_more (partitioner_create junk 0 alpha) id
      (cpu_first (partitioner_create junk 0 alpha) id 0).1 = false ∧
    run_worker (partitioner_create junk 0 alpha) id stride (fuel + 1) 0
      = some ([], (cpu_first (partitioner_create junk 0 alpha) id 0).2) ∧
    ((partitioner_create junk 0 alpha).strategy = STATIC_PARTITIONING →
      (partitioner_create junk 0 alpha).cut = 0 ∧
      ∀ (n_work_items out_size_i out_size_j : Int) (n_tasks_j : Nat) (h_out dev : Int → Int),
        merge n_work_items out_size_i out_size_j n_tasks_j
          (partitioner_create junk 0 alpha).cut h_out dev = dev) := by
  have hmore : cpu_more (partitioner_create junk 0 alpha) id
      (cpu_first (partitioner_create junk 0 alpha) id 0).1 = false := by
    unfold partitioner_create
    by_cases h : (alpha.ge_zero && alpha.le_one) = true
    · rw [if_pos h, cut_zero_tasks junk alpha h]
      simp [cpu_more, cpu_first, STATIC_PARTITIONING, DYNAMIC_PARTITIONING]
    · rw [if_neg h]
      simp [cpu_more, cpu_first, fetch_add_1, to_u32, DYNAMIC_PARTITIONING]
  refine ⟨hmore, ?_, ?_⟩
  · unfold run_worker
    exact worker_loop_exit _ _ _ _ _ _ hmore
  · intro hs
    have hcut : (partitioner_create junk 0 alpha).cut = 0 := by
      unfold partitioner_create at hs ⊢
      by_cases h : (alpha.ge_zero && alpha.le_one) = true
      · rw [if_pos h]; exact cut_zero_tasks junk alpha h
      · rw [if_neg h] at hs; exact absurd hs dynamic_ne_static
    refine ⟨hcut, ?_⟩
    intro W oi oj ntj h_out dev
    rw [hcut]
    rfl

/-- C12 at `n_tasks = 16777219`, `alpha = 1.0`: `cpu_more` accepts index 16777219 for
worker 0 although it is not below `n_tasks`, and the loop of worker 0 (stride 1)
does reach that index. -/
theorem C12_eval :
    (∀ junk, (partitioner_create junk 16777219 alpha_1).n_tasks = 16777219) ∧
    (∀ junk, cpu_more (partitioner_create junk 16777219 alpha_1) 0 16777219 = true) ∧
    (∀ junk, ∃ visited, run_worker (partitioner_create junk 16777219 alpha_1) 0 1 16777221 0
        = some (visited, 0) ∧ 16777219 ∈ visited) := by
  have hp : ∀ junk, partitioner_create junk 16777219 alpha_1 =
      { n_tasks := 16777219, cut := 16777220, strategy := STATIC_PARTITIONING } := fun _ => rfl
  refine ⟨fun j => by rw [hp], fun j => by rw [hp]; decide, fun j => ?_⟩
  rw [hp]
  refine ⟨List.range' 0 16777220, ?_, ?_⟩
  · have h0 : cpu_first ⟨16777219, 16777220, STATIC_PARTITIONING⟩ 0 0 = (0, 0) := by decide
    unfold run_worker
    rw [h0]
    exact worker_loop_static_zero _ 0 rfl (by norm_num) 16777221 0 (Nat.zero_le _)
      (by norm_num)
  · rw [List.mem_range']
    exact ⟨16777219, by norm_num, by norm_num⟩

theorem worker_loop_static_stride_one (p : Partitioner) (id : Nat) (w : Int)
    (hs : p.strategy = STATIC_PARTITIONING)
    (hb : (if id = 0 then p.cut else p.n_tasks) < 2 ^ 32) :
    ∀ (fuel index : Nat), (if id = 0 then p.cut else p.n_tasks) - index < fuel →
      worker_loop p id 1 fuel index w
        = some (List.range' index ((if id = 0 then p.cut else p.n_tasks) - index), w) := by
  have hd : ¬ p.strategy = DYNAMIC_PARTITIONING := by rw [hs]; decide
  generalize hB : (if id = 0 then p.cut else p.n_tasks) = B at hb
  have hmore : ∀ index, cpu_more p id index = decide (index < B) := by
    intro index
    simp only [cpu_more, if_neg hd, hB]
  intro fuel
  induction fuel with
  | zero => intro index h; omega
  | succ fuel ih =>
    intro index hf
    by_cases hlt : index < B
    · have hm : cpu_more p id index = true := by rw [hmore]; simpa using hlt
      have hn : cpu_next p index 1 w = (index + 1, w) := by
        simp only [cpu_next, if_neg hd]
        rw [Nat.mod_eq_of_lt (by omega)]
      have hlen : B - index = (B - (index + 1)) + 1 := by omega
      simp only [worker_loop, hm, if_true, hn]
      rw [ih (index + 1) (by omega), hlen, List.range'_succ]
      simp
    · have hm : cpu_more p id index = false := by rw [hmore]; simpa using hlt
      have hz : B - index = 0 := by omega
      simp [worker_loop, hm, hz]

theorem count_two_ranges (cut n x : Nat) (hx : x < n) :
    (List.range cut ++ List.range' cut (n - cut)).count x = 1 := by
  rw [List.count_append]
  by_cases hc : x < cut
  · have h1 : (List.range cut).count x = 1 :=
      List.count_eq_one_of_mem (List.nodup_range cut) (List.mem_range.2 hc)
    have h2 : (List.range' cut (n - cut)).count x = 0 := by
      apply List.count_eq_zero_of_not_mem
      rw [List.mem_range']
      rintro ⟨i, _, hi⟩
      omega
    omega
  · have h1 : (List.range cut).count x = 0 := by
      apply List.count_eq_zero_of_not_mem
      rw [List.mem_range]
      exact hc
    have h2 : (List.range' cut (n - cut)).count x = 1 := by
      apply List.count_eq_one_of_mem (List.nodup_range' cut (n - cut))
      rw [List.mem_range']
      exact ⟨x - cut, by omega, by omega⟩
    omega

/-- C11. CEDD two-proxy static split: for every STATIC partitioner returned by
`partitioner_create` (all values `unsigned int`), the loop of the CPU proxy (id 0,
stride 1) terminates having visited exactly `0, 1, .., cut - 1` in increasing order,
the loop of the FPGA proxy (id 1, stride 1) exactly `cut, .., n_tasks - 1` in
increasing order, and every frame index of `[0, n_tasks)` is visited exactly once
by the two proxies together. -/
theorem C11_two_proxies (junk n_tasks : Nat) (alpha : F32) (fuel : Nat) (worklist : Int)
    (hj : junk < 2 ^ 32) (hn : n_tasks < 2 ^ 32)
    (hs : (partitioner_create junk n_tasks alpha).strategy = STATIC_PARTITIONING)
    (hf0 : (partitioner_create junk n_tasks alpha).cut < fuel) (hf1 : n_tasks < fuel) :
    run_worker (partitioner_create junk n_tasks alpha) 0 1 fuel worklist
      = some (List.range (partitioner_create junk n_tasks alpha).cut, worklist) ∧
    run_worker (partitioner_create junk n_tasks alpha) 1 1 fuel worklist
      = some (List.range' (partitioner_create junk n_tasks alpha).cut
          (n_tasks - (partitioner_create junk n_tasks alpha).cut), worklist) ∧
    ∀ x, x < n_tasks →
      (List.range (partitioner_create junk n_tasks alpha).cut ++
        List.range' (partitioner_create junk n_tasks alpha).cut
          (n_tasks - (partitioner_create junk n_tasks alpha).cut)).count x = 1 := by
  have hcut := static_cut_lt junk n_tasks alpha hj hs
  have hnt := partitioner_create_n_tasks junk n_tasks alpha
  generalize partitioner_create junk n_tasks alpha = p at hs hf0 hcut hnt
  have hd : ¬ p.strategy = DYNAMIC_PARTITIONING := by rw [hs]; decide
  have h0 : cpu_first p 0 worklist = (0, worklist) := by simp [cpu_first, hd]
  have h1 : cpu_first p 1 worklist = (p.cut, worklist) := by
    simp only [cpu_first, if_neg hd, Nat.one_mul, Nat.mod_eq_of_lt hcut]
  refine ⟨?_, ?_, fun x hx => count_two_ranges p.cut n_tasks x hx⟩
  · unfold run_worker
    rw [h0]
    have := worker_loop_static_stride_one p 0 worklist hs (by simpa using hcut) fuel 0
      (by simpa using hf0)
    simpa [List.range_eq_range'] using this
  · unfold run_worker
    rw [h1]
    have := worker_loop_static_stride_one p 1 worklist hs (by simpa [hnt] using hn) fuel p.cut
      (by simp only [hnt]; simp; omega)
    simpa [hnt] using this

/-- Instance of C11: `partitioner_create(100, 0.3f)`, fuel 101. -/
theorem C11_witness :
    run_worker (partitioner_create 0 100 alpha_0_3) 0 1 101 0 = some (List.range 30, 0) ∧
    run_worker (partitioner_create 0 100 alpha_0_3) 1 1 101 0 = some (List.range' 30 70, 0) :=
  have h := C11_two_proxies 0 100 alpha_0_3 101 0 (by norm_num) (by norm_num) rfl
    (by decide) (by norm_num)
  ⟨h.1, h.2.1⟩

theorem cpu_first_static (p : Partitioner) (hd : ¬ p.strategy = DYNAMIC_PARTITIONING)
    (id : Nat) (c : Int) : cpu_first p id c = ((id * p.cut) % 2 ^ 32, c) := by
  simp only [cpu_first, if_neg hd]

theorem cpu_next_static (p : Partitioner) (hd : ¬ p.strategy = DYNAMIC_PARTITIONING)
    (old stride : Nat) (c : Int) : cpu_next p old stride c = ((old + stride) % 2 ^ 32, c) := by
  simp only [cpu_next, if_neg hd]

theorem settle_cursor (p : Partitioner) (s : DynState) (i : Nat) (r : Nat × Int) :
    (settle p s i r).cursor = r.2 := by
  unfold settle
  split_ifs <;> rfl

theorem dyn_step_cursor_static (p : Partitioner) (hd : ¬ p.strategy = DYNAMIC_PARTITIONING)
    (stride : Nat) (s : DynState) (i : Nat) : (dyn_step p stride s i).cursor = s.cursor := by
  unfold dyn_step
  split
  · rw [settle_cursor, cpu_first_static p hd]
  · rw [settle_cursor, cpu_next_static p hd]
  · rfl

theorem dyn_run_cursor_static (p : Partitioner) (hd : ¬ p.strategy = DYNAMIC_PARTITIONING)
    (stride : Nat) (sched : List Nat) :
    ∀ s : DynState, (dyn_run p stride s sched).cursor = s.cursor := by
  induction sched with
  | nil => intro s; rfl
  | cons i sched ih =>
    intro s
    rw [dyn_run_cons, ih, dyn_step_cursor_static p hd]

theorem worker_loop_cursor_static (p : Partitioner) (hd : ¬ p.strategy = DYNAMIC_PARTITIONING)
    (id stride : Nat) :
    ∀ (fuel index : Nat) (w : Int) (r : List Nat × Int),
      worker_loop p id stride fuel index w = some r → r.2 = w := by
  intro fuel
  induction fuel with
  | zero => intro index w r h; simp [worker_loop] at h
  | succ fuel ih =>
    intro index w r h
    simp only [worker_loop, cpu_next_static p hd] at h
    split_ifs at h with hm
    · cases hr : worker_loop p id stride fuel ((index + stride) % 2 ^ 32) w with
      | none => rw [hr] at h; simp at h
      | some r1 =>
        rw [hr] at h
        simp only [Option.map_some', Option.some.injEq] at h
        rw [← h]
        exact ih _ _ r1 hr
    · simp only [Option.some.injEq] at h
      rw [← h]

/-- C16. Frame: `cpu_first`, `cpu_next` and `cpu_more` leave every field of the
Partitioner as it was; `cpu_more` leaves the worklist cursor as it was; under STATIC
`cpu_first` and `cpu_next` leave the cursor as it was, and so do a whole worker loop
and every interleaved run of the claim loops; under DYNAMIC each claim advances the
cursor by one (wrapped to 32 bits). -/
theorem C16_frame (m : Mem) (id old stride index fuel : Nat) (sched : List Nat)
    (s : DynState) :
    ((exec_cpu_first m id).2.partitioner = m.partitioner ∧
      (exec_cpu_next m old stride).2.partitioner = m.partitioner ∧
      (exec_cpu_more m id index).2.partitioner = m.partitioner) ∧
    (exec_cpu_more m id index).2.worklist = m.worklist ∧
    (m.partitioner.strategy = STATIC_PARTITIONING →
      (exec_cpu_first m id).2 = m ∧ (exec_cpu_next m old stride).2 = m ∧
      (∀ r, run_worker m.partitioner id stride fuel m.worklist = some r → r.2 = m.worklist) ∧
      (dyn_run m.partitioner stride s sched).cursor = s.cursor) ∧
    (m.partitioner.strategy = DYNAMIC_PARTITIONING →
      (exec_cpu_first m id).2.worklist = wrap_s32 (m.worklist + 1) ∧
      (exec_cpu_next m old stride).2.worklist = wrap_s32 (m.worklist + 1)) := by
  refine ⟨⟨rfl, rfl, rfl⟩, rfl, ?_, ?_⟩
  · intro hs
    have hd : ¬ m.partitioner.strategy = DYNAMIC_PARTITIONING := by rw [hs]; decide
    refine ⟨?_, ?_, ?_, dyn_run_cursor_static _ hd stride sched s⟩
    · simp only [exec_cpu_first, cpu_first_static _ hd]
    · simp only [exec_cpu_next, cpu_next_static _ hd]
    · intro r hr
      unfold run_worker at hr
      rw [cpu_first_static _ hd] at hr
      exact worker_loop_cursor_static _ hd id stride fuel _ _ r hr
  · intro hdyn
    constructor
    · simp only [exec_cpu_first, cpu_first_dynamic _ hdyn]
    · simp only [exec_cpu_next, cpu_next_dynamic _ hdyn]

theorem settle_length (p : Partitioner) (s : DynState) (i : Nat) (r : Nat × Int) :
    (settle p s i r).claimers.length = s.claimers.length := by
  unfold settle
  split_ifs <;> simp

theorem dyn_step_length (p : Partitioner) (stride : Nat) (s : DynState) (i : Nat) :
    (dyn_step p stride s i).claimers.length = s.claimers.length := by
  unfold dyn_step
  split
  · exact settle_length _ _ _ _
  · exact settle_length _ _ _ _
  · rfl

theorem dyn_run_length (p : Partitioner) (stride : Nat) (sched : List Nat) :
    ∀ s : DynState, (dyn_run p stride s sched).claimers.length = s.claimers.length := by
  induction sched with
  | nil => intro s; rfl
  | cons i sched ih =>
    intro s
    rw [dyn_run_cons, ih, dyn_step_length]

theorem claimer_view_settle_self (p : Partitioner) (s : DynState) (i : Nat) (r : Nat × Int)
    (hi : i < s.claimers.length) :
    claimer_view i (settle p s i r) =
      if cpu_more p i r.1 then (some (.holding r.1), claimer_log i s ++ [r.1])
      else (some .finished, claimer_log i s) := by
  unfold settle
  split_ifs with hm
  · simp [claimer_view, claimer_log, hi, List.filter_append]
  · simp [claimer_view, claimer_log, hi]

theorem claimer_view_settle_other (p : Partitioner) (s : DynState) (i j : Nat) (r : Nat × Int)
    (hji : j ≠ i) : claimer_view i (settle p s j r) = claimer_view i s := by
  unfold settle
  split_ifs with hm
  · simp [claimer_view, claimer_log, List.filter_append, hji, List.getElem?_set_ne hji]
  · simp [claimer_view, claimer_log, List.getElem?_set_ne hji]

theorem claimer_view_step_other (p : Partitioner) (stride : Nat) (s : DynState) (i j : Nat)
    (hji : j ≠ i) : claimer_view i (dyn_step p stride s j) = claimer_view i s := by
  unfold dyn_step
  split
  · exact claimer_view_settle_other _ _ _ _ _ hji
  · exact claimer_view_settle_other _ _ _ _ _ hji
  · rfl

theorem claimer_view_step_self (p : Partitioner) (hd : ¬ p.strategy = DYNAMIC_PARTITIONING)
    (stride : Nat) (s : DynState) (i : Nat) :
    claimer_view i (dyn_step p stride s i) = view_step p stride i (claimer_view i s) := by
  cases hget : s.claimers[i]? with
  | none =>
    rw [dyn_step_inactive p stride s i (Or.inl hget)]
    simp [claimer_view, hget, view_step]
  | some c =>
    have hi : i < s.claimers.length := (List.getElem?_eq_some.1 hget).1
    cases c with
    | idle =>
      have : dyn_step p stride s i = settle p s i (cpu_first p i s.cursor) := by
        unfold dyn_step; rw [hget]
      rw [this, claimer_view_settle_self p s i _ hi]
      simp only [claimer_view, hget, view_step, cpu_first_static p hd]
    | holding old =>
      have : dyn_step p stride s i = settle p s i (cpu_next p old stride s.cursor) := by
        unfold dyn_step; rw [hget]
      rw [this, claimer_view_settle_self p s i _ hi]
      simp only [claimer_view, hget, view_step, cpu_next_static p hd]
    | finished =>
      rw [dyn_step_inactive p stride s i (Or.inr hget)]
      simp [claimer_view, hget, view_step]

theorem claimer_view_run (p : Partitioner) (hd : ¬ p.strategy = DYNAMIC_PARTITIONING)
    (stride i : Nat) (sched : List Nat) :
    ∀ s : DynState, claimer_view i (dyn_run p stride s sched)
      = (view_step p stride i)^[sched.count i] (claimer_view i s) := by
  induction sched with
  | nil => intro s; rfl
  | cons j sched ih =>
    intro s
    rw [dyn_run_cons, ih]
    by_cases hji : j = i
    · subst hji
      rw [List.count_cons_self, Function.iterate_succ_apply, claimer_view_step_self p hd]
    · rw [List.count_cons_of_ne (Ne.symm hji), claimer_view_step_other p stride s i j hji]

theorem view_step_finished (p : Partitioner) (stride i : Nat) (log : List Nat) (k : Nat) :
    (view_step p stride i)^[k] (some .finished, log) = (some .finished, log) := by
  induction k with
  | zero => rfl
  | succ k ih => rw [Function.iterate_succ_apply]; exact ih

theorem view_step_stable (p : Partitioner) (stride i : Nat) (v : Option Claimer × List Nat)
    (k1 k2 : Nat) (hle : k1 ≤ k2) (h1 : ((view_step p stride i)^[k1] v).1 = some .finished) :
    (view_step p stride i)^[k2] v = (view_step p stride i)^[k1] v := by
  obtain ⟨d, rfl⟩ := Nat.exists_eq_add_of_le hle
  rw [Nat.add_comm, Function.iterate_add_apply]
  generalize (view_step p stride i)^[k1] v = x at h1 ⊢
  obtain ⟨c, log⟩ := x
  simp only at h1
  subst h1
  exact view_step_finished p stride i log d

theorem worker_loop_visits_static (p : Partitioner) (hd : ¬ p.strategy = DYNAMIC_PARTITIONING)
    (id stride : Nat) (w1 w2 : Int) :
    ∀ (fuel index : Nat), (worker_loop p id stride fuel index w1).map Prod.fst
      = (worker_loop p id stride fuel index w2).map Prod.fst := by
  intro fuel
  induction fuel with
  | zero => intro index; rfl
  | succ fuel ih =>
    intro index
    simp only [worker_loop, cpu_next_static p hd]
    split_ifs with hm
    · have e : ∀ x : Option (List Nat × Int),
          (x.map (fun r => (index :: r.1, r.2))).map Prod.fst
            = (x.map Prod.fst).map (fun l => index :: l) := by
        intro x
        cases x <;> rfl
      rw [e, e, ih]
    · rfl

theorem claimer_view_start (p : Partitioner) (w i : Nat) (c1 c2 : Int) :
    claimer_view i (iteration_start p w c1) = claimer_view i (iteration_start p w c2) := rfl

/-- C15. Under STATIC the task-to-worker assignment is deterministic: the indices a
worker's loop visits do not depend on the value of the worklist cursor, and in
interleaved runs the indices accepted for claimer `i` depend neither on the cursor
nor on how the other claimers are scheduled: two runs in which claimer `i` takes the
same number of steps, or in which it has left its loop, give it the same index
sequence. -/
theorem C15_static_deterministic (p : Partitioner) (w stride i fuel : Nat) (c1 c2 : Int)
    (sched1 sched2 : List Nat) (hs : p.strategy = STATIC_PARTITIONING) :
    (run_worker p i stride fuel c1).map Prod.fst
      = (run_worker p i stride fuel c2).map Prod.fst ∧
    (sched1.count i = sched2.count i →
      claimer_log i (dyn_run p stride (iteration_start p w c1) sched1)
        = claimer_log i (dyn_run p stride (iteration_start p w c2) sched2)) ∧
    ((dyn_run p stride (iteration_start p w c1) sched1).claimers[i]? = some .finished →
      (dyn_run p stride (iteration_start p w c2) sched2).claimers[i]? = some .finished →
      claimer_log i (dyn_run p stride (iteration_start p w c1) sched1)
        = claimer_log i (dyn_run p stride (iteration_start p w c2) sched2)) := by
  have hd : ¬ p.strategy = DYNAMIC_PARTITIONING := by rw [hs]; decide
  have hv1 := claimer_view_run p hd stride i sched1 (iteration_start p w c1)
  have hv2 := claimer_view_run p hd stride i sched2 (iteration_start p w c2)
  rw [claimer_view_start p w i c1 c2] at hv1
  refine ⟨?_, ?_, ?_⟩
  · unfold run_worker
    rw [cpu_first_static p hd, cpu_first_static p hd]
    exact worker_loop_visits_static p hd i stride c1 c2 fuel _
  · intro hc
    rw [hc] at hv1
    have := hv1.trans hv2.symm
    exact congrArg Prod.snd this
  · intro h1 h2
    have f1 : ((view_step p stride i)^[sched1.count i]
        (claimer_view i (iteration_start p w c2))).1 = some .finished := by
      rw [← hv1]; exact h1
    have f2 : ((view_step p stride i)^[sched2.count i]
        (claimer_view i (iteration_start p w c2))).1 = some .finished := by
      rw [← hv2]; exact h2
    have key : (view_step p stride i)^[sched1.count i] (claimer_view i (iteration_start p w c2))
        = (view_step p stride i)^[sched2.count i] (claimer_view i (iteration_start p w c2)) := by
      rcases Nat.le_total (sched1.count i) (sched2.count i) with hle | hle
      · exact (view_step_stable p stride i _ _ _ hle f1).symm
      · exact view_step_stable p stride i _ _ _ hle f2
    have := (hv1.trans key).trans hv2.symm
    exact congrArg Prod.snd this

/-- Instance of C15: `n_tasks = 4`, `cut = 2`, two claimers, cursors 0 and 7, two
schedules; claimer 0 is handed `[0, 1]` in both runs. -/
theorem C15_witness :
    claimer_log 0 (dyn_run ⟨4, 2, STATIC_PARTITIONING⟩ 1
        (iteration_start ⟨4, 2, STATIC_PARTITIONING⟩ 2 0) [0, 1, 0, 1, 0]) = [0, 1] ∧
    claimer_log 0 (dyn_run ⟨4, 2, STATIC_PARTITIONING⟩ 1
        (iteration_start ⟨4, 2, STATIC_PARTITIONING⟩ 2 0) [0, 1, 0, 1, 0])
      = claimer_log 0 (dyn_run ⟨4, 2, STATIC_PARTITIONING⟩ 1
        (iteration_start ⟨4, 2, STATIC_PARTITIONING⟩ 2 7) [1, 1, 0, 0, 0]) :=
  ⟨by decide,
    (C15_static_deterministic ⟨4, 2, STATIC_PARTITIONING⟩ 2 1 0 5 0 7 [0, 1, 0, 1, 0]
      [1, 1, 0, 0, 0] rfl).2.1 (by decide)⟩

theorem static_loop_never_exits (w : Int) :
    ∀ (fuel index : Nat), index % 2 = 0 → index < 2 ^ 32 →
      worker_loop ⟨4294967295, 0, STATIC_PARTITIONING⟩ 1 2 fuel index w = none := by
  intro fuel
  induction fuel with
  | zero => intro index _ _; rfl
  | succ fuel ih =>
    intro index he hlt
    have hm : cpu_more ⟨4294967295, 0, STATIC_PARTITIONING⟩ 1 index = true := by
      simp [cpu_more, STATIC_PARTITIONING, DYNAMIC_PARTITIONING]
      omega
    have hn : cpu_next ⟨4294967295, 0, STATIC_PARTITIONING⟩ index 2 w
        = ((index + 2) % 2 ^ 32, w) := rfl
    simp only [worker_loop, hm, if_true, hn]
    rw [ih ((index + 2) % 2 ^ 32) (by omega) (Nat.mod_lt _ (by norm_num))]
    rfl

/-- C19 fails as stated: `partitioner_create(4294967295, 0.0f)` is STATIC with `cut = 0`;
the loop of worker 1 with stride 2 visits `0, 2, 4, .., 2 ^ 32 - 2`, wraps to 0 and
never reaches an index that is not below `n_tasks`: no amount of fuel ends it. -/
theorem C19_counterexample :
    partitioner_create 0 4294967295 alpha_0
      = { n_tasks := 4294967295, cut := 0, strategy := STATIC_PARTITIONING } ∧
    ∀ fuel, run_worker (partitioner_create 0 4294967295 alpha_0) 1 2 fuel 0 = none := by
  have hp : partitioner_create 0 4294967295 alpha_0
      = { n_tasks := 4294967295, cut := 0, strategy := STATIC_PARTITIONING } := by decide
  refine ⟨hp, fun fuel => ?_⟩
  rw [hp]
  have h0 : cpu_first ⟨4294967295, 0, STATIC_PARTITIONING⟩ 1 0 = (0, 0) := by decide
  unfold run_worker
  rw [h0]
  exact static_loop_never_exits 0 fuel 0 (by norm_num) (by norm_num)

theorem isSome_map_cons (x : Option (List Nat × Int)) (index : Nat) :
    (x.map (fun r => (index :: r.1, r.2))).isSome = x.isSome := by
  cases x <;> rfl

theorem worker_loop_static_terminates (p : Partitioner) (hs : p.strategy = STATIC_PARTITIONING)
    (id stride : Nat) (hst : 1 ≤ stride) (w : Int)
    (hB : (if id = 0 then p.cut else p.n_tasks) + stride ≤ 2 ^ 32) :
    ∀ (fuel index : Nat), (if id = 0 then p.cut else p.n_tasks) - index < fuel →
      (worker_loop p id stride fuel index w).isSome = true := by
  have hd : ¬ p.strategy = DYNAMIC_PARTITIONING := by rw [hs]; decide
  generalize hBe : (if id = 0 then p.cut else p.n_tasks) = B at hB
  have hmore : ∀ index, cpu_more p id index = decide (index < B) := by
    intro index
    simp only [cpu_more, if_neg hd, hBe]
  intro fuel
  induction fuel with
  | zero => intro index h; omega
  | succ fuel ih =>
    intro index hf
    by_cases hlt : index < B
    · have hm : cpu_more p id index = true := by rw [hmore]; simpa using hlt
      have hn : cpu_next p index stride w = (index + stride, w) := by
        rw [cpu_next_static p hd, Nat.mod_eq_of_lt (by omega)]
      simp only [worker_loop, hm, if_true, hn, isSome_map_cons]
      exact ih (index + stride) (by omega)
    · have hm : cpu_more p id index = false := by rw [hmore]; simpa using hlt
      simp [worker_loop, hm]

theorem worker_loop_dynamic_terminates (p : Partitioner)
    (hd : p.strategy = DYNAMIC_PARTITIONING) (hn : p.n_tasks < 2 ^ 32) (id stride : Nat) :
    ∀ (fuel index : Nat) (cur : Int), to_u32 cur = (index + 1) % 2 ^ 32 →
      p.n_tasks - index < fuel → (worker_loop p id stride fuel index cur).isSome = true := by
  intro fuel
  induction fuel with
  | zero => intro index cur _ h; omega
  | succ fuel ih =>
    intro index cur hc hf
    by_cases hlt : index < p.n_tasks
    · have hm : cpu_more p id index = true := by simp [cpu_more, hd, hlt]
      have h1 : (index + 1) % 2 ^ 32 = index + 1 := Nat.mod_eq_of_lt (by omega)
      simp only [worker_loop, hm, if_true, cpu_next_dynamic p hd, isSome_map_cons, hc, h1]
      apply ih (index + 1) (wrap_s32 (cur + 1))
      · rw [to_u32_wrap_succ, hc, h1]
      · omega
    · have hm : cpu_more p id index = false := by simp [cpu_more, hd, hlt]
      simp [worker_loop, hm]

theorem measure_accept (L F u : Nat) (hu : u + 1 < 2 ^ 32) :
    (L - F) * 2 ^ 32 + (2 ^ 32 - 1 - (u + 1)) + 1 ≤ (L - F) * 2 ^ 32 + (2 ^ 32 - 1 - u) := by
  omega

theorem measure_reject (L F u v : Nat) (hF : F < L) (hv : v < 2 ^ 32) :
    (L - (F + 1)) * 2 ^ 32 + (2 ^ 32 - 1 - v) + 1 ≤ (L - F) * 2 ^ 32 + (2 ^ 32 - 1 - u) := by
  obtain ⟨k, rfl⟩ : ∃ k, L = F + 1 + k := ⟨L - (F + 1), by omega⟩
  have e1 : F + 1 + k - (F + 1) = k := by omega
  have e2 : F + 1 + k - F = k + 1 := by omega
  rw [e1, e2]
  omega

theorem dyn_measure_step_active (p : Partitioner) (hd : p.strategy = DYNAMIC_PARTITIONING)
    (hn : p.n_tasks < 2 ^ 32) (stride : Nat) (s : DynState) (i : Nat) (c : Claimer)
    (hget : s.claimers[i]? = some c) (hc : c ≠ .finished) :
    dyn_measure (dyn_step p stride s i) + 1 ≤ dyn_measure s := by
  by_cases hlt : to_u32 s.cursor < p.n_tasks
  · rw [dyn_step_accept p hd stride s i c hget hc hlt]
    have hu : to_u32 (wrap_s32 (s.cursor + 1)) = to_u32 s.cursor + 1 := by
      rw [to_u32_wrap_succ]; apply Nat.mod_eq_of_lt; omega
    have hcnt := count_finished_set_active s.claimers i c (.holding (to_u32 s.cursor)) hget hc
      (by simp)
    simp only [dyn_measure, List.length_set, hcnt, hu]
    exact measure_accept _ _ _ (by omega)
  · rw [dyn_step_reject p hd stride s i c hget hc (by omega)]
    have hcnt := count_finished_set_finished s.claimers i c hget hc
    have hF := count_finished_lt s.claimers i c hget hc
    simp only [dyn_measure, List.length_set, hcnt]
    exact measure_reject _ _ _ _ hF (to_u32_lt _)

theorem dyn_measure_step_le (p : Partitioner) (hd : p.strategy = DYNAMIC_PARTITIONING)
    (hn : p.n_tasks < 2 ^ 32) (stride : Nat) (s : DynState) (i : Nat) :
    dyn_measure (dyn_step p stride s i) ≤ dyn_measure s := by
  cases hget : s.claimers[i]? with
  | none => rw [dyn_step_inactive p stride s i (Or.inl hget)]
  | some c =>
    by_cases hc : c = .finished
    · subst hc; rw [dyn_step_inactive p stride s i (Or.inr hget)]
    · exact Nat.le_of_succ_le (dyn_measure_step_active p hd hn stride s i c hget hc)

theorem finished_absorbing (p : Partitioner) (stride i : Nat) (sched : List Nat) :
    ∀ s : DynState, s.claimers[i]? = some .finished →
      (dyn_run p stride s sched).claimers[i]? = some .finished := by
  induction sched with
  | nil => intro s h; exact h
  | cons j sched ih =>
    intro s h
    rw [dyn_run_cons]
    apply ih
    by_cases hji : j = i
    · subst hji
      rw [dyn_step_inactive p stride s j (Or.inr h)]
      exact h
    · have := claimer_view_step_other p stride s i j hji
      have h1 := congrArg Prod.fst this
      simp only [claimer_view] at h1
      rw [h1]
      exact h

theorem dyn_claims_bounded (p : Partitioner) (hd : p.strategy = DYNAMIC_PARTITIONING)
    (hn : p.n_tasks < 2 ^ 32) (stride i : Nat) (sched : List Nat) :
    ∀ (s : DynState) (c : Claimer), (dyn_run p stride s sched).claimers[i]? = some c →
      c ≠ .finished → dyn_measure (dyn_run p stride s sched) + sched.count i ≤ dyn_measure s := by
  induction sched with
  | nil => intro s c _ _; simp [dyn_run]
  | cons j sched ih =>
    intro s c hfin hc
    rw [dyn_run_cons] at hfin ⊢
    have h1 := ih (dyn_step p stride s j) c hfin hc
    by_cases hji : j = i
    · subst hji
      rw [List.count_cons_self]
      have hi : j < s.claimers.length := by
        have := (List.getElem?_eq_some.1 hfin).1
        rw [dyn_run_length, dyn_step_length] at this
        exact this
      have hact : s.claimers[j]? ≠ some .finished := by
        intro hf
        have := finished_absorbing p stride j (j :: sched) s hf
        rw [dyn_run_cons, hfin] at this
        exact hc (Option.some.inj this)
      have hget : s.claimers[j]? = some s.claimers[j] := List.getElem?_eq_getElem hi
      have hne : s.claimers[j] ≠ .finished := by
        intro hf
        rw [hf] at hget
        exact hact hget
      have h2 := dyn_measure_step_active p hd hn stride s j _ hget hne
      omega
    · rw [List.count_cons_of_ne (Ne.symm hji)]
      have h2 := dyn_measure_step_le p hd hn stride s j
      omega

theorem dyn_measure_init (w : Nat) : dyn_measure (dyn_init w) < (w + 1) * 2 ^ 32 := by
  have h : dyn_measure (dyn_init w) = w * 2 ^ 32 + (2 ^ 32 - 1) := by
    simp [dyn_measure, dyn_init, List.count_replicate, to_u32]
  rw [h]
  omega


/-- C19, amended: with `n_tasks` an `unsigned int` and stride at least 1, the STATIC loop
of worker `id` terminates (enough fuel gives a result) provided its bound (`cut` for
worker 0, `n_tasks` otherwise) plus the stride does not exceed `2 ^ 32`; the DYNAMIC loop
of a worker running alone terminates for every `n_tasks`; and in any interleaving of `w`
DYNAMIC claimers a claimer that is still in its loop has taken fewer than
`(w + 1) * 2 ^ 32` steps, so every claimer's loop ends after finitely many of its own
steps. -/
theorem C19_termination (p : Partitioner) (id stride fuel w : Nat) (worklist : Int)
    (sched : List Nat) (hn : p.n_tasks < 2 ^ 32) (hst : 1 ≤ stride) :
    (p.strategy = STATIC_PARTITIONING →
      (if id = 0 then p.cut else p.n_tasks) + stride ≤ 2 ^ 32 →
      (if id = 0 then p.cut else p.n_tasks) < fuel →
      (run_worker p id stride fuel worklist).isSome = true) ∧
    (p.strategy = DYNAMIC_PARTITIONING → p.n_tasks < fuel →
      (run_worker p id stride fuel worklist).isSome = true) ∧
    (p.strategy = DYNAMIC_PARTITIONING →
      ∀ c, (dyn_run p stride (dyn_init w) sched).claimers[id]? = some c → c ≠ .finished →
        sched.count id < (w + 1) * 2 ^ 32) := by
  refine ⟨fun hs hB hf => ?_, fun hd hf => ?_, fun hd c hc hne => ?_⟩
  · unfold run_worker
    exact worker_loop_static_terminates p hs id stride hst _ hB fuel _ (by omega)
  · unfold run_worker
    rw [cpu_first_dynamic p hd]
    exact worker_loop_dynamic_terminates p hd hn id stride fuel _ _
      (to_u32_wrap_succ worklist) (by omega)
  · have h1 := dyn_claims_bounded p hd hn stride id sched (dyn_init w) c hc hne
    have h2 := dyn_measure_init w
    omega

theorem C19_witness :
    (partitioner_create 0 100 alpha_0_3).n_tasks < 2 ^ 32 ∧ 1 ≤ 4 ∧
    (run_worker (partitioner_create 0 100 alpha_0_3) 0 4 31 0).isSome = true :=
  ⟨by decide, by decide,
    (C19_termination (partitioner_create 0 100 alpha_0_3) 0 4 31 2 0 [] (by decide)
      (by decide)).1 (by decide) (by decide) (by decide)⟩


theorem read_records_spec (cap : Nat) (n : Int) :
    ∀ (records : List flowvector) (ic : Int) (v : List flowvector),
      ic ≤ n → ic + records.length ≤ cap →
      read_records cap n records ic v
        = if ic + records.length ≤ n then .returned (ic + records.length, v ++ records)
          else .exited (-1) := by
  intro records
  induction records with
  | nil =>
    intro ic v hic _
    simp only [read_records, List.length_nil, Nat.cast_zero, add_zero, if_pos hic,
      List.append_nil]
  | cons record rest ih =>
    intro ic v hic hcap
    simp only [List.length_cons, Nat.cast_add, Nat.cast_one] at hcap ⊢
    have h1 : ¬ ((cap : Int) ≤ ic) := by omega
    by_cases h2 : ic + 1 > n
    · have h3 : ¬ (ic + ((rest.length : Int) + 1) ≤ n) := by omega
      simp only [read_records, if_neg h1, if_pos h2, if_neg h3]
    · simp only [read_records, if_neg h1, if_neg h2]
      rw [ih (ic + 1) (v ++ [record]) (by omega) (by omega)]
      have e1 : ic + 1 + (rest.length : Int) = ic + ((rest.length : Int) + 1) := by omega
      rw [e1, List.append_assoc]
      rfl

theorem fill_random_returns (n : Int) (hn : n ≠ 0) (rnd : Nat → Nat) :
    ∀ (todo i : Nat) (r : List Int), ∃ r1, fill_random n rnd todo i r = .returned r1 := by
  intro todo
  induction todo with
  | zero => intro i r; exact ⟨r, rfl⟩
  | succ todo ih =>
    intro i r
    simp only [fill_random, if_neg hn]
    exact ih _ _

theorem read_input_eval_counted (cap : Nat) (n : Int) (records : List flowvector)
    (max_iter : Int) (rnd : Nat → Nat) (hn : 0 < n) (hcap : records.length ≤ cap)
    (h1 : -2 ^ 31 ≤ 2 * max_iter) (h2 : 2 * max_iter < 2 ^ 31) :
    ((records.length : Int) = n →
      ∃ r, read_input cap (some (n, records)) max_iter rnd = .returned (records, r)) ∧
    ((records.length : Int) ≠ n →
      read_input cap (some (n, records)) max_iter rnd = .exited (-1)) := by
  have hrec := read_records_spec cap n records 0 [] (by omega) (by omega)
  simp only [zero_add, List.nil_append] at hrec
  have hov : ¬ (2 * max_iter < -2 ^ 31 ∨ 2 ^ 31 ≤ 2 * max_iter) := by omega
  constructor
  · intro hlen
    obtain ⟨r, hr⟩ := fill_random_returns n (by omega) rnd (2 * max_iter).toNat 0 []
    refine ⟨r, ?_⟩
    have h3 : ¬ ((records.length : Int) < n) := by omega
    simp only [read_input, hrec, if_pos (le_of_eq hlen), if_neg h3, if_neg hov, hr]
  · intro hlen
    by_cases hle : (records.length : Int) ≤ n
    · have h3 : (records.length : Int) < n := by omega
      simp only [read_input, hrec, if_pos hle, if_pos h3]
    · simp only [read_input, hrec, if_neg hle]

/-- C17: `read_input` ends through `exit(-1)` when the file cannot be opened, and for a
header count `n >= 1` (buffer large enough for the records, `2 * max_iter` an `int`) it
returns exactly when the number of records equals `n` and ends through `exit(-1)`
otherwise. It misses the counts below 1: with header 0 and no records the remainder
`rand() % 0` is undefined for every `max_iter >= 1`; with header -1 and no records it
returns although no record count equals -1; and with the buffer of `n` records that
`main` allocates, one record too many is stored past its end before the count is
checked. -/
theorem C17_read_input :
    (∀ cap max_iter rnd, read_input cap none max_iter rnd = .exited (-1)) ∧
    (∀ cap n records max_iter rnd, 1 ≤ n → records.length ≤ cap →
      -2 ^ 31 ≤ 2 * max_iter → 2 * max_iter < 2 ^ 31 →
      ((∃ out, read_input cap (some (n, records)) max_iter rnd = .returned out)
          ↔ (records.length : Int) = n) ∧
      ((records.length : Int) ≠ n →
        read_input cap (some (n, records)) max_iter rnd = .exited (-1))) ∧
    (∀ cap max_iter rnd, 1 ≤ max_iter →
      read_input cap (some (0, [])) max_iter rnd = .undefined) ∧
    (∀ cap rnd, ∃ r, read_input cap (some (-1, [])) 2000 rnd = .returned ([], r)) ∧
    (∀ a b max_iter rnd, read_input 1 (some (1, [a, b])) max_iter rnd = .undefined) := by
  refine ⟨fun _ _ _ => rfl, ?_, ?_, ?_, ?_⟩
  · intro cap n records max_iter rnd hn hcap h1 h2
    have h := read_input_eval_counted cap n records max_iter rnd (by omega) hcap h1 h2
    refine ⟨⟨?_, ?_⟩, fun hne => h.2 hne⟩
    · rintro ⟨out, hout⟩
      by_contra hne
      rw [h.2 hne] at hout
      cases hout
    · intro hlen
      obtain ⟨r, hr⟩ := h.1 hlen
      exact ⟨_, hr⟩
  · intro cap max_iter rnd hm
    have hr : read_records cap 0 [] 0 [] = .returned (0, []) := rfl
    by_cases hov : 2 * max_iter < -2 ^ 31 ∨ 2 ^ 31 ≤ 2 * max_iter
    · simp only [read_input, hr, lt_irrefl, if_false, if_pos hov]
    · obtain ⟨k, hk⟩ : ∃ k, (2 * max_iter).toNat = k + 1 :=
        ⟨(2 * max_iter).toNat - 1, by omega⟩
      simp only [read_input, hr, lt_irrefl, if_false, if_neg hov, hk, fill_random, if_true]
  · intro cap rnd
    have hr : read_records cap (-1) [] 0 [] = .returned (0, []) := rfl
    obtain ⟨r, hfill⟩ := fill_random_returns (-1) (by decide) rnd (2 * (2000 : Int)).toNat 0 []
    refine ⟨r, ?_⟩
    have h3 : ¬ ((0 : Int) < -1) := by decide
    have hov : ¬ (2 * (2000 : Int) < -2 ^ 31 ∨ 2 ^ 31 ≤ 2 * (2000 : Int)) := by norm_num
    simp only [read_input, hr, if_neg h3, if_neg hov, hfill]
  · intro a b max_iter rnd
    have hr : read_records 1 1 [a, b] 0 [] = .undefined := by
      simp [read_records]
    simp only [read_input, hr]


theorem main_init_inv (cfg : MainConfig) (w : Int) : MainInv cfg (main_init cfg w) := by
  simp only [MainInv, main_init]
  split <;> simp

theorem worker_claim_dynamic (cfg : MainConfig) (s : MainState)
    (hd : cfg.partitioner.strategy = DYNAMIC_PARTITIONING) :
    worker_claim cfg s
      = ⟨s.rep, s.pc, s.device, s.host, wrap_s32 (s.worklist + 1), s.claims ++ [s.worklist]⟩ := by
  simp only [worker_claim, if_pos hd, fetch_add_1]

theorem head_append_single (l : List Int) (w : Int)
    (h : l.head? = none ∨ l.head? = some 0) (h0 : l = [] → w = 0) :
    (l ++ [w]).head? = some 0 := by
  cases l with
  | nil => rw [h0 rfl]; rfl
  | cons a l =>
    rcases h with h | h
    · cases h
    · exact h

theorem worker_claim_inv (cfg : MainConfig) (s : MainState) (h : MainInv cfg s)
    (hpc : s.pc = .spawn ∨ s.pc = .cl_finish ∨ s.pc = .join) :
    MainInv cfg (worker_claim cfg s) := by
  by_cases hd : cfg.partitioner.strategy = DYNAMIC_PARTITIONING
  · rw [worker_claim_dynamic cfg s hd]
    obtain ⟨h1, h2, h3, h4, h5, h6⟩ := h
    obtain ⟨h7, h8⟩ := h6 hd
    have hp5 : s.pc = .reset_finish ∨ s.pc = .launch ∨ s.pc = .spawn ∨ s.pc = .cl_finish ∨
        s.pc = .join := by
      rcases hpc with h | h | h
      · exact Or.inr (Or.inr (Or.inl h))
      · exact Or.inr (Or.inr (Or.inr (Or.inl h)))
      · exact Or.inr (Or.inr (Or.inr (Or.inr h)))
    have hne : s.claims ++ [s.worklist] ≠ [] := by simp
    refine ⟨h1, h2, h3, h4, ?_, fun _ => ⟨Or.inr ?_, ?_⟩⟩
    · intro hp
      exfalso
      rcases hpc with h | h | h <;> rcases hp with hp | hp <;> rw [h] at hp <;> cases hp
    · exact head_append_single s.claims s.worklist h7 (h8 hp5)
    · intro _ hnil
      exact absurd hnil hne
  · have hw : worker_claim cfg s = s := by simp only [worker_claim, if_neg hd]
    rw [hw]
    exact h

theorem main_thread_step_inv (cfg : MainConfig) (s : MainState) (h : MainInv cfg s) :
    MainInv cfg (main_thread_step cfg s) := by
  obtain ⟨rep, pc, device, host, worklist, claims⟩ := s
  obtain ⟨h1, h2, h3, h4, h5, h6⟩ := h
  dsimp only at h1 h2 h3 h4 h5 h6
  cases pc
  · by_cases hb : cfg.benchmark = .RSCD <;> simp_all [MainInv, main_thread_step]
  · by_cases hdv : device = .running <;> simp_all [MainInv, main_thread_step]
  · by_cases hw : 0 < cfg.n_work_groups <;> simp_all [MainInv, main_thread_step]
  · simp_all [MainInv, main_thread_step]
  · by_cases hdv : device = .running <;> simp_all [MainInv, main_thread_step]
  · by_cases hh : host = .running <;> simp_all [MainInv, main_thread_step]
  · by_cases hm : rep + 1 < cfg.n_warmup + cfg.n_reps
    · simp_all [MainInv, main_thread_step]
    · simp only [MainInv, main_thread_step, if_neg hm]
      simp_all
  · simp_all [MainInv, main_thread_step]

theorem main_step_inv (cfg : MainConfig) (s : MainState) (a : Actor) (h : MainInv cfg s) :
    MainInv cfg (main_step cfg s a) := by
  cases a with
  | main => exact main_thread_step_inv cfg s h
  | device_claim =>
    simp only [main_step]
    split
    · rename_i hr
      exact worker_claim_inv cfg s h (by rcases h.1 hr with h | h <;> simp [h])
    · exact h
  | device_end =>
    simp only [main_step]
    split
    · obtain ⟨h1, h2, h3, h4, h5, h6⟩ := h
      exact And.intro (fun hr => by cases hr)
        (And.intro h2 (And.intro h3 (And.intro (fun _ _ hr => by cases hr) (And.intro h5 h6))))
    · exact h
  | host_claim =>
    simp only [main_step]
    split
    · rename_i hr
      exact worker_claim_inv cfg s h (by rcases h.2.1 hr with h | h <;> simp [h])
    · exact h
  | host_end =>
    simp only [main_step]
    split
    · obtain ⟨h1, h2, h3, h4, h5, h6⟩ := h
      exact And.intro h1
        (And.intro (fun hr => by cases hr) (And.intro (fun _ hr => by cases hr)
          (And.intro h4 (And.intro h5 h6))))
    · exact h

theorem main_run_inv (cfg : MainConfig) (w : Int) (trace : List Actor) :
    MainInv cfg (main_run cfg w trace) := by
  unfold main_run
  have key : ∀ (trace : List Actor) (s : MainState), MainInv cfg s →
      MainInv cfg (trace.foldl (main_step cfg) s) := by
    intro trace
    induction trace with
    | nil => intro s h; exact h
    | cons a trace ih => intro s h; exact ih _ (main_step_inv cfg s a h)
  exact key trace _ (main_init_inv cfg w)

theorem activity_finished (a : Activity) (h1 : a ≠ .running) (h2 : a ≠ .idle) :
    a = .finished := by
  cases a <;> simp_all

/-- C18: in every state the main loop of BS or RSCD can reach, under every interleaving
of the main thread with the kernel and the host threads, neither side is running while
the main thread is past the two waits (the rest of the iteration, the code after the
loop) or at the next Reset and launch; at the code after the waits `main_thread` has
finished, and so has the kernel when one was launched. Both orders of finishing lead
there, and each wait holds the main thread while its side still runs. -/
theorem C18_barrier :
    (∀ cfg w trace,
      ((main_run cfg w trace).pc = .post ∨ (main_run cfg w trace).pc = .done ∨
        (main_run cfg w trace).pc = .reset ∨ (main_run cfg w trace).pc = .reset_finish ∨
        (main_run cfg w trace).pc = .launch →
          (main_run cfg w trace).device ≠ .running ∧ (main_run cfg w trace).host ≠ .running) ∧
      ((main_run cfg w trace).pc = .post →
          (main_run cfg w trace).host = .finished ∧
          (0 < cfg.n_work_groups → (main_run cfg w trace).device = .finished))) ∧
    (main_run bs_example 7 [.main, .main, .main, .device_end, .host_end, .main, .main]).pc
      = .post ∧
    (main_run bs_example 7 [.main, .main, .main, .host_end, .device_end, .main, .main]).pc
      = .post ∧
    (main_run bs_example 7 [.main, .main, .main, .host_end, .main, .main]).pc = .cl_finish ∧
    (main_run bs_example 7 [.main, .main, .main, .device_end, .main, .main]).pc = .join ∧
    (main_run rscd_example 7
      [.main, .main, .main, .main, .host_end, .device_end, .main, .main]).pc = .post ∧
    (main_run rscd_example 7 [.main, .main, .main, .main, .host_end, .main, .main]).pc
      = .cl_finish := by
  refine ⟨fun cfg w trace => ?_, by decide, by decide, by decide, by decide, by decide,
    by decide⟩
  have hinv := main_run_inv cfg w trace
  generalize main_run cfg w trace = s at hinv ⊢
  obtain ⟨h1, h2, h3, h4, _, _⟩ := hinv
  constructor
  · intro hp
    constructor
    · intro hr
      rcases h1 hr with h | h <;> rw [h] at hp <;> simp at hp
    · intro hr
      rcases h2 hr with h | h <;> rw [h] at hp <;> simp at hp
  · intro hp
    constructor
    · apply activity_finished
      · intro hr
        rcases h2 hr with h | h <;> rw [h] at hp <;> simp at hp
      · exact h3 (Or.inr (Or.inr hp))
    · intro hw
      apply activity_finished
      · intro hr
        rcases h1 hr with h | h <;> rw [h] at hp <;> simp at hp
      · exact h4 hw (Or.inr (Or.inr (Or.inr hp)))

/-- C20: under DYNAMIC, in every state the main loop of BS or RSCD (build with the
worklist) can reach: the first value claimed since the last Reset, if any, is 0; while a
side runs and no claim has been made yet the cursor holds 0; and at the kernel launch,
which precedes the start of the host threads, the cursor holds 0 and no claim has been
made. -/
theorem C20_worklist_reset (cfg : MainConfig) (w : Int) (trace : List Actor)
    (hd : cfg.partitioner.strategy = DYNAMIC_PARTITIONING) :
    ((main_run cfg w trace).claims.head? = none ∨
      (main_run cfg w trace).claims.head? = some 0) ∧
    ((main_run cfg w trace).device = .running ∨ (main_run cfg w trace).host = .running →
      (main_run cfg w trace).claims = [] → (main_run cfg w trace).worklist = 0) ∧
    ((main_run cfg w trace).pc = .launch →
      (main_run cfg w trace).worklist = 0 ∧ (main_run cfg w trace).claims = []) := by
  have hinv := main_run_inv cfg w trace
  generalize main_run cfg w trace = s at hinv ⊢
  obtain ⟨h1, h2, _, _, h5, h6⟩ := hinv
  obtain ⟨h7, h8⟩ := h6 hd
  refine ⟨h7, ?_, ?_⟩
  · intro hr hnil
    apply h8 _ hnil
    rcases hr with hr | hr
    · rcases h1 hr with h | h <;> simp [h]
    · rcases h2 hr with h | h <;> simp [h]
  · intro hp
    have hnil := h5 (Or.inr hp)
    exact ⟨h8 (by simp [hp]) hnil, hnil⟩

theorem C20_witness :
    bs_example.partitioner.strategy = DYNAMIC_PARTITIONING ∧
    (main_run bs_example 7 [.main, .main, .main, .device_claim, .host_claim, .device_end,
      .host_end, .main, .main, .main, .main, .main, .main, .host_claim]).claims = [0] ∧
    (main_run bs_example 7 [.main, .main, .main, .device_claim, .host_claim, .device_end,
      .host_end, .main, .main, .main, .main, .main, .main, .host_claim]).claims.head?
      = some 0 :=
  ⟨by decide, by decide,
    ((C20_worklist_reset bs_example 7 [.main, .main, .main, .device_claim, .host_claim,
      .device_end, .host_end, .main, .main, .main, .main, .main, .main, .host_claim]
      (by decide)).1).resolve_left (by decide)⟩


/-- C24. Under DYNAMIC the field `cut` is irrelevant: two Partitioners with strategy
DYNAMIC and the same `n_tasks` give the same results of `cpu_first`, `cpu_next` and
`cpu_more` and the same cursor afterwards, for all arguments, whatever their `cut`. -/
theorem C24_cut_irrelevant (p1 p2 : Partitioner) (id old stride : Nat) (worklist : Int)
    (h1 : p1.strategy = DYNAMIC_PARTITIONING) (h2 : p2.strategy = DYNAMIC_PARTITIONING)
    (hn : p1.n_tasks = p2.n_tasks) :
    cpu_first p1 id worklist = cpu_first p2 id worklist ∧
    cpu_next p1 old stride worklist = cpu_next p2 old stride worklist ∧
    cpu_more p1 id old = cpu_more p2 id old := by
  refine ⟨?_, ?_, ?_⟩
  · simp only [cpu_first, if_pos h1, if_pos h2]
  · simp only [cpu_next, if_pos h1, if_pos h2]
  · simp only [cpu_more, if_pos h1, if_pos h2, hn]

theorem C24_witness :
    cpu_first ⟨10, 3, DYNAMIC_PARTITIONING⟩ 0 5 = cpu_first ⟨10, 77, DYNAMIC_PARTITIONING⟩ 0 5 ∧
    cpu_first ⟨10, 3, DYNAMIC_PARTITIONING⟩ 0 5 = (5, 6) ∧
    cpu_more ⟨10, 3, DYNAMIC_PARTITIONING⟩ 0 5 = cpu_more ⟨10, 77, DYNAMIC_PARTITIONING⟩ 0 5 :=
  ⟨(C24_cut_irrelevant ⟨10, 3, DYNAMIC_PARTITIONING⟩ ⟨10, 77, DYNAMIC_PARTITIONING⟩ 0 5 1 5
      rfl rfl rfl).1,
    by decide,
    (C24_cut_irrelevant ⟨10, 3, DYNAMIC_PARTITIONING⟩ ⟨10, 77, DYNAMIC_PARTITIONING⟩ 0 5 1 5
      rfl rfl rfl).2.2⟩

theorem post_processing_loop_spec (o m : Int → Int) :
    ∀ (todo : Nat) (i : Int) (best : Int × Int),
      (post_processing_loop o m todo i best).1 ≤ best.1 ∧
      (∀ j, i ≤ j → j < i + todo → (post_processing_loop o m todo i best).1 ≤ o j) ∧
      ((post_processing_loop o m todo i best = best ∧ ∀ j, i ≤ j → j < i + todo → best.1 ≤ o j) ∨
        ∃ j, i ≤ j ∧ j < i + todo ∧ o j = (post_processing_loop o m todo i best).1 ∧
          (post_processing_loop o m todo i best).2 = m j ∧
          (post_processing_loop o m todo i best).1 < best.1 ∧
          ∀ k, i ≤ k → k < j → (post_processing_loop o m todo i best).1 < o k) := by
  intro todo
  induction todo with
  | zero =>
    intro i best
    refine ⟨le_refl _, ?_, Or.inl ⟨rfl, ?_⟩⟩
    · intro j h1 h2; simp at h2; omega
    · intro j h1 h2; simp at h2; omega
  | succ todo ih =>
    intro i best
    have hcast : i + ((todo + 1 : Nat) : Int) = i + 1 + (todo : Int) := by push_cast; ring
    by_cases hlt : o i < best.1
    · have hstep : post_processing_loop o m (todo + 1) i best
          = post_processing_loop o m todo (i + 1) (o i, m i) := by
        simp only [post_processing_loop, if_pos hlt]
      rw [hstep, hcast]
      obtain ⟨a1, a2, a3⟩ := ih (i + 1) (o i, m i)
      generalize post_processing_loop o m todo (i + 1) (o i, m i) = r at a1 a2 a3 ⊢
      dsimp only at a1 a3
      refine ⟨by omega, ?_, Or.inr ?_⟩
      · intro j h1 h2
        by_cases hj : j = i
        · rw [hj]; exact a1
        · exact a2 j (by omega) h2
      · rcases a3 with ⟨e, hall⟩ | ⟨j, h1, h2, h3, h4, h5, h6⟩
        · refine ⟨i, le_refl _, by omega, by rw [e], by rw [e], by rw [e]; exact hlt, ?_⟩
          intro k h1 h2; omega
        · refine ⟨j, by omega, h2, h3, h4, by omega, ?_⟩
          intro k hk1 hk2
          by_cases hk : k = i
          · rw [hk]; exact h5
          · exact h6 k (by omega) hk2
    · have hstep : post_processing_loop o m (todo + 1) i best
          = post_processing_loop o m todo (i + 1) best := by
        simp only [post_processing_loop, if_neg hlt]
      rw [hstep, hcast]
      obtain ⟨a1, a2, a3⟩ := ih (i + 1) best
      generalize post_processing_loop o m todo (i + 1) best = r at a1 a2 a3 ⊢
      refine ⟨a1, ?_, ?_⟩
      · intro j h1 h2
        by_cases hj : j = i
        · rw [hj]; omega
        · exact a2 j (by omega) h2
      · rcases a3 with ⟨e, hall⟩ | ⟨j, h1, h2, h3, h4, h5, h6⟩
        · refine Or.inl ⟨e, ?_⟩
          intro j h1 h2
          by_cases hj : j = i
          · rw [hj]; omega
          · exact hall j (by omega) h2
        · refine Or.inr ⟨j, by omega, h2, h3, h4, h5, ?_⟩
          intro k hk1 hk2
          by_cases hk : k = i
          · rw [hk]; omega
          · exact h6 k (by omega) hk2

/-- C26. RSCD post-processing selects the minimum: after the loop `best_outliers` is at
most its old value `b0` and at most every candidate's outlier count (so it never
increases from one repetition to the next); if some candidate is strictly below `b0`,
`best_outliers` is the outlier count of a candidate `i`, every candidate before `i` has
a strictly larger count, and `best_model` is `h_model_candidate[i]`; otherwise both
variables keep their old values. -/
theorem C26_post_processing (c : Candidates) (b0 m0 : Int) :
    (post_processing c b0 m0).1 ≤ b0 ∧
    (∀ i, 0 ≤ i → i < c.g_out_id → (post_processing c b0 m0).1 ≤ c.outliers i) ∧
    ((∃ i, 0 ≤ i ∧ i < c.g_out_id ∧ c.outliers i < b0) →
      ∃ i, 0 ≤ i ∧ i < c.g_out_id ∧ c.outliers i = (post_processing c b0 m0).1 ∧
        (∀ k, 0 ≤ k → k < i → (post_processing c b0 m0).1 < c.outliers k) ∧
        (post_processing c b0 m0).2 = c.model i) ∧
    ((∀ i, 0 ≤ i → i < c.g_out_id → b0 ≤ c.outliers i) →
      post_processing c b0 m0 = (b0, m0)) := by
  obtain ⟨a1, a2, a3⟩ := post_processing_loop_spec c.outliers c.model c.g_out_id.toNat 0 (b0, m0)
  unfold post_processing
  generalize post_processing_loop c.outliers c.model c.g_out_id.toNat 0 (b0, m0) = r
    at a1 a2 a3 ⊢
  dsimp only at a1 a3
  refine ⟨a1, ?_, ?_, ?_⟩
  · intro i h1 h2
    exact a2 i h1 (by omega)
  · rintro ⟨i, h1, h2, h3⟩
    rcases a3 with ⟨e, hall⟩ | ⟨j, g1, g2, g3, g4, g5, g6⟩
    · have := hall i h1 (by omega)
      omega
    · exact ⟨j, g1, by omega, g3, g6, g4⟩
  · intro hall
    rcases a3 with ⟨e, _⟩ | ⟨j, g1, g2, g3, g4, g5, g6⟩
    · exact e
    · have := hall j g1 (by omega)
      omega

/-- C21. RSCD copy back and merge with `alpha < 1.0`: with `h = h_g_out_id[0]` host
candidates and `d` candidates reported by the device, the positions below `h` of both
host arrays are unchanged, position `h + j` holds candidate `j` of the device for every
`j` in `[0, d)`, in both arrays alike, and `h_g_out_id[0]` becomes `h + d`. -/
theorem C21_copy_back_and_merge (alpha : F32) (junk : Int) (h : Candidates) (d : Int)
    (d_model d_outliers : Int → Int) (ha : alpha.lt_one = true) :
    (∀ i, i < h.g_out_id →
      (copy_back_and_merge alpha junk h d d_model d_outliers).model i = h.model i ∧
      (copy_back_and_merge alpha junk h d d_model d_outliers).outliers i = h.outliers i) ∧
    (∀ j, 0 ≤ j → j < d →
      (copy_back_and_merge alpha junk h d d_model d_outliers).model (h.g_out_id + j)
        = d_model j ∧
      (copy_back_and_merge alpha junk h d d_model d_outliers).outliers (h.g_out_id + j)
        = d_outliers j) ∧
    (copy_back_and_merge alpha junk h d d_model d_outliers).g_out_id = h.g_out_id + d := by
  simp only [copy_back_and_merge, if_pos ha, read_buffer]
  refine ⟨fun i hi => ?_, fun j h0 h1 => ?_, trivial⟩
  · have hn : ¬ (h.g_out_id ≤ i ∧ i < h.g_out_id + d) := by omega
    simp only [if_neg hn, and_self]
  · have hp : h.g_out_id ≤ h.g_out_id + j ∧ h.g_out_id + j < h.g_out_id + d := by omega
    simp only [if_pos hp, add_sub_cancel_left, and_self]

theorem C21_witness :
    alpha_0_3.lt_one = true ∧
    (copy_back_and_merge alpha_0_3 0 ⟨fun _ => 5, fun _ => 7, 1⟩ 2 (fun i => 10 + i)
      (fun i => 20 + i)).g_out_id = 3 ∧
    (copy_back_and_merge alpha_0_3 0 ⟨fun _ => 5, fun _ => 7, 1⟩ 2 (fun i => 10 + i)
      (fun i => 20 + i)).model 2 = 11 :=
  ⟨by decide,
    (C21_copy_back_and_merge alpha_0_3 0 ⟨fun _ => 5, fun _ => 7, 1⟩ 2 (fun i => 10 + i)
      (fun i => 20 + i) (by decide)).2.2,
    by decide⟩

/-- C28 at `alpha = 1.0`: the copy back is skipped and the arrays are what the host
produced, but the counter becomes `h + junk`, where `junk` is the indeterminate value
of the local `d_candidates` that only the skipped block assigns; with `h = 1` and
`junk = 1` the counter is 2, not 1. -/
theorem C28_eval :
    alpha_1.lt_one = false ∧
    (∀ junk h d d_model d_outliers,
      (copy_back_and_merge alpha_1 junk h d d_model d_outliers).model = h.model ∧
      (copy_back_and_merge alpha_1 junk h d d_model d_outliers).outliers = h.outliers ∧
      (copy_back_and_merge alpha_1 junk h d d_model d_outliers).g_out_id
        = h.g_out_id + junk) ∧
    (copy_back_and_merge alpha_1 1 ⟨fun _ => 5, fun _ => 7, 1⟩ 0 (fun _ => 0)
      (fun _ => 0)).g_out_id = 2 := by
  refine ⟨by decide, fun junk h d d_model d_outliers => ⟨rfl, rfl, rfl⟩, by decide⟩


theorem batch_loop_spec (pool_size queue_size s : Int) (hq : 0 < queue_size) (hs : 0 < s) :
    ∀ (fuel : Nat) (n : Int), pool_size - n ≤ fuel →
      ∃ ranges, batch_loop pool_size queue_size s (fuel + 1) n = some ranges ∧
        (∀ r ∈ ranges, n * s ≤ r.1 ∧ r.1 < r.2) ∧
        ranges.Pairwise (fun a b => a.2 ≤ b.1) ∧
        (∀ x, n * s ≤ x → x < pool_size * s → ∃ r ∈ ranges, r.1 ≤ x ∧ x < r.2) ∧
        (queue_size ∣ pool_size - n → ∀ r ∈ ranges, r.2 ≤ pool_size * s) := by
  have hqs : 0 < queue_size * s := mul_pos hq hs
  intro fuel
  induction fuel with
  | zero =>
    intro n hf
    have hlt : ¬ n < pool_size := by simp at hf; omega
    refine ⟨[], ?_, ?_, List.Pairwise.nil, ?_, ?_⟩
    · simp only [batch_loop, if_neg hlt]
    · intro r hr; cases hr
    · intro x h1 h2
      exfalso
      have : pool_size * s ≤ n * s := mul_le_mul_of_nonneg_right (by omega) (le_of_lt hs)
      omega
    · intro _ r hr; cases hr
  | succ fuel ih =>
    intro n hf
    by_cases hlt : n < pool_size
    · obtain ⟨rest, e, a, b, c, d⟩ := ih (n + queue_size) (by push_cast at hf; omega)
      have hn : (n + queue_size) * s = n * s + queue_size * s := by ring
      refine ⟨(n * s, n * s + queue_size * s) :: rest, ?_, ?_, ?_, ?_, ?_⟩
      · rw [batch_loop, if_pos hlt, e, Option.map_some']
      · intro r hr
        rcases List.mem_cons.1 hr with h | h
        · rw [h]; constructor <;> dsimp only <;> omega
        · have := a r h
          rw [hn] at this
          omega
      · refine List.pairwise_cons.2 ⟨?_, b⟩
        intro r hr
        have := a r hr
        rw [hn] at this
        exact this.1
      · intro x h1 h2
        by_cases hx : x < n * s + queue_size * s
        · exact ⟨_, List.mem_cons_self _ _, h1, hx⟩
        · obtain ⟨r, hr, g⟩ := c x (by rw [hn]; omega) h2
          exact ⟨r, List.mem_cons_of_mem _ hr, g⟩
      · intro hdvd r hr
        obtain ⟨k, hk⟩ := hdvd
        have hk1 : 1 ≤ k := by
          by_contra hk0
          have : queue_size * k ≤ 0 := mul_nonpos_of_nonneg_of_nonpos (le_of_lt hq) (by omega)
          omega
        have hle : n + queue_size ≤ pool_size := by
          have : queue_size * 1 ≤ queue_size * k := mul_le_mul_of_nonneg_left hk1 (le_of_lt hq)
          omega
        rcases List.mem_cons.1 hr with h | h
        · rw [h]
          dsimp only
          rw [← hn]
          exact mul_le_mul_of_nonneg_right hle (le_of_lt hs)
        · refine d ⟨k - 1, ?_⟩ r h
          rw [mul_sub, mul_one, ← hk]
          ring
    · refine ⟨[], ?_, ?_, List.Pairwise.nil, ?_, ?_⟩
      · simp only [batch_loop, if_neg hlt]
      · intro r hr; cases hr
      · intro x h1 h2
        exfalso
        have : pool_size * s ≤ n * s := mul_le_mul_of_nonneg_right (by omega) (le_of_lt hs)
        omega
      · intro _ r hr; cases hr

/-- C27 at `pool_size = 5`, `queue_size = 2`: the batch loop of TQ and TQH runs the
batches 0, 2 and 4, and the copy back of the last one has the destination range
`[4 * s, 6 * s)`, which ends after the pool buffer of `5 * s` ints. For every
`queue_size > 0`, `pool_size` and `s > 0` the loop terminates, the ranges are non-empty,
in increasing order without overlap and cover `[0, pool_size * s)`; they lie inside the
pool buffer when `queue_size` divides `pool_size`. -/
theorem C27_batch_loop :
    batch_loop 5 2 64 4 0 = some [(0, 128), (128, 256), (256, 384)] ∧ (5 : Int) * 64 < 384 ∧
    (∀ pool_size queue_size s : Int, 0 < queue_size → 0 < s →
      ∃ ranges, batch_loop pool_size queue_size s (pool_size.toNat + 1) 0 = some ranges ∧
        (∀ r ∈ ranges, 0 ≤ r.1 ∧ r.1 < r.2) ∧
        ranges.Pairwise (fun a b => a.2 ≤ b.1) ∧
        (∀ x, 0 ≤ x → x < pool_size * s → ∃ r ∈ ranges, r.1 ≤ x ∧ x < r.2) ∧
        (queue_size ∣ pool_size → ∀ r ∈ ranges, r.2 ≤ pool_size * s)) := by
  refine ⟨by decide, by decide, ?_⟩
  intro pool_size queue_size s hq hs
  obtain ⟨ranges, e, a, b, c, d⟩ :=
    batch_loop_spec pool_size queue_size s hq hs pool_size.toNat 0 (by omega)
  refine ⟨ranges, e, ?_, b, ?_, ?_⟩
  · intro r hr
    have := a r hr
    omega
  · intro x h1 h2
    exact c x (by omega) h2
  · intro hdvd
    exact d (by simpa using hdvd)


theorem next_claim_active (p : Partitioner) (hd : p.strategy = DYNAMIC_PARTITIONING)
    (stride : Nat) (s : DynState) (i : Nat) (c : Claimer)
    (hget : s.claimers[i]? = some c) (hc : c ≠ .finished) :
    next_claim p stride s i = some (to_u32 s.cursor, wrap_s32 (s.cursor + 1)) := by
  unfold next_claim
  rw [hget]
  cases c with
  | idle => simp only [cpu_first_dynamic p hd]
  | holding old => simp only [cpu_next_dynamic p hd]
  | finished => exact absurd rfl hc

theorem next_claim_inactive (p : Partitioner) (stride : Nat) (s : DynState) (i : Nat)
    (hget : s.claimers[i]? = none ∨ s.claimers[i]? = some .finished) :
    next_claim p stride s i = none := by
  unfold next_claim
  rcases hget with h | h <;> rw [h]

theorem claimer_cases (s : DynState) (i : Nat) :
    (s.claimers[i]? = none ∨ s.claimers[i]? = some .finished) ∨
      ∃ c, s.claimers[i]? = some c ∧ c ≠ .finished := by
  cases h : s.claimers[i]? with
  | none => exact Or.inl (Or.inl rfl)
  | some c =>
    by_cases hc : c = .finished
    · exact Or.inl (Or.inr (by rw [hc]))
    · exact Or.inr ⟨c, rfl, hc⟩

theorem claims_made_count (p : Partitioner) (hd : p.strategy = DYNAMIC_PARTITIONING)
    (stride : Nat) (sched : List Nat) :
    ∀ s : DynState,
      claims_made p stride s sched + (s.accepted.length + s.claimers.count .finished)
        = (dyn_run p stride s sched).accepted.length
          + (dyn_run p stride s sched).claimers.count .finished := by
  induction sched with
  | nil => intro s; simp [claims_made, dyn_run]
  | cons i sched ih =>
    intro s
    rw [dyn_run_cons, ← ih (dyn_step p stride s i)]
    simp only [claims_made]
    rcases claimer_cases s i with h | ⟨c, hget, hc⟩
    · rw [next_claim_inactive p stride s i h, dyn_step_inactive p stride s i h]
      simp
    · rw [next_claim_active p hd stride s i c hget hc]
      by_cases hlt : to_u32 s.cursor < p.n_tasks
      · rw [dyn_step_accept p hd stride s i c hget hc hlt]
        have hcnt := count_finished_set_active s.claimers i c (.holding (to_u32 s.cursor)) hget
          hc (by simp)
        simp only [Option.isSome_some, if_true, List.length_append, List.length_singleton, hcnt]
        omega
      · rw [dyn_step_reject p hd stride s i c hget hc (by omega)]
        have hcnt := count_finished_set_finished s.claimers i c hget hc
        simp only [Option.isSome_some, if_true, hcnt]
        omega

theorem claimer_step_other (p : Partitioner) (stride : Nat) (s : DynState) (i j : Nat)
    (hji : j ≠ i) : (dyn_step p stride s j).claimers[i]? = s.claimers[i]? := by
  have h := congrArg Prod.fst (claimer_view_step_other p stride s i j hji)
  simpa only [claimer_view] using h

theorem rejected_claims_finished (p : Partitioner) (stride i : Nat) (sched : List Nat) :
    ∀ s : DynState, s.claimers[i]? = some .finished →
      rejected_claims p stride i s sched = 0 := by
  induction sched with
  | nil => intro s _; rfl
  | cons j sched ih =>
    intro s h
    simp only [rejected_claims]
    by_cases hji : j = i
    · subst hji
      rw [next_claim_inactive p stride s j (Or.inr h), dyn_step_inactive p stride s j (Or.inr h)]
      simp only [zero_add]
      exact ih s h
    · have h0 : (match next_claim p stride s j with
          | some r => if j = i ∧ cpu_more p j r.1 = false then 1 else 0
          | none => 0) = 0 := by
        cases next_claim p stride s j with
        | none => rfl
        | some r => simp [hji]
      rw [h0, zero_add]
      exact ih _ (by rw [claimer_step_other p stride s i j hji]; exact h)

theorem rejected_claims_active (p : Partitioner) (hd : p.strategy = DYNAMIC_PARTITIONING)
    (stride i : Nat) (sched : List Nat) :
    ∀ (s : DynState) (c : Claimer), s.claimers[i]? = some c → c ≠ .finished →
      rejected_claims p stride i s sched
        = if (dyn_run p stride s sched).claimers[i]? = some .finished then 1 else 0 := by
  induction sched with
  | nil =>
    intro s c hget hc
    have : ¬ (s.claimers[i]? = some Claimer.finished) := by
      rw [hget]; intro h; exact hc (Option.some.inj h)
    simp only [rejected_claims, dyn_run, List.foldl_nil, if_neg this]
  | cons j sched ih =>
    intro s c hget hc
    rw [dyn_run_cons]
    simp only [rejected_claims]
    by_cases hji : j = i
    · subst hji
      have hi : j < s.claimers.length := (List.getElem?_eq_some.1 hget).1
      rw [next_claim_active p hd stride s j c hget hc]
      by_cases hlt : to_u32 s.cursor < p.n_tasks
      · have hm : cpu_more p j (to_u32 s.cursor) = true := by simp [cpu_more, hd, hlt]
        have hstep := dyn_step_accept p hd stride s j c hget hc hlt
        have hget1 : (dyn_step p stride s j).claimers[j]? = some (.holding (to_u32 s.cursor)) := by
          rw [hstep]
          simp [hi]
        rw [ih _ _ hget1 (by simp)]
        simp [hm]
      · have hm : cpu_more p j (to_u32 s.cursor) = false := by simp [cpu_more, hd, hlt]
        have hstep := dyn_step_reject p hd stride s j c hget hc (by omega)
        have hget1 : (dyn_step p stride s j).claimers[j]? = some .finished := by
          rw [hstep]
          simp [hi]
        rw [rejected_claims_finished p stride j sched _ hget1,
          if_pos (finished_absorbing p stride j sched _ hget1)]
        simp [hm]
    · have h0 : (match next_claim p stride s j with
          | some r => if j = i ∧ cpu_more p j r.1 = false then 1 else 0
          | none => 0) = 0 := by
        cases next_claim p stride s j with
        | none => rfl
        | some r => simp [hji]
      rw [h0, zero_add]
      exact ih _ c (by rw [claimer_step_other p stride s i j hji]; exact hget) hc

/-- C25. DYNAMIC overshoot: with `w ≥ 1` claimers starting from cursor 0 on a DYNAMIC
partitioner, `n_tasks + w` within a signed 32-bit int, and an interleaving after which
every claimer has left its loop: each claimer has made exactly one claim that `cpu_more`
rejected, `n_tasks` claims were accepted, `n_tasks + w` claims were made in all, and the
cursor ends at `n_tasks + w`. -/
theorem C25_dynamic_overshoot (p : Partitioner) (w stride : Nat) (sched : List Nat)
    (hd : p.strategy = DYNAMIC_PARTITIONING) (hw : 1 ≤ w) (hb : p.n_tasks + w < 2 ^ 31)
    (hfin : all_finished (dyn_run p stride (dyn_init w) sched) = true) :
    (∀ i, i < w → rejected_claims p stride i (dyn_init w) sched = 1) ∧
    (dyn_run p stride (dyn_init w) sched).accepted.length = p.n_tasks ∧
    claims_made p stride (dyn_init w) sched = p.n_tasks + w ∧
    (dyn_run p stride (dyn_init w) sched).cursor = ((p.n_tasks + w : Nat) : Int) := by
  obtain ⟨hlen, hcur, -, -, hfull⟩ :=
    dyn_run_inv p hd w stride (by omega) sched _ (dyn_init_inv p w)
  have hcm := claims_made_count p hd stride sched (dyn_init w)
  have hall : ∀ b ∈ (dyn_run p stride (dyn_init w) sched).claimers, b = Claimer.finished := by
    intro b hbm
    have := List.all_eq_true.1 hfin b hbm
    simp only [decide_eq_true_eq] at this
    exact this
  have hcount : (dyn_run p stride (dyn_init w) sched).claimers.count .finished = w := by
    have hc : (dyn_run p stride (dyn_init w) sched).claimers.count .finished
        = (dyn_run p stride (dyn_init w) sched).claimers.length := by
      rw [List.count_eq_length]
      intro b hbm
      exact (hall b hbm).symm
    rw [hc, hlen]
  have hacc := hfull (by omega)
  have h0 : (dyn_init w).accepted.length + (dyn_init w).claimers.count .finished = 0 := by
    simp [dyn_init, List.count_replicate]
  refine ⟨fun i hi => ?_, hacc, by omega, ?_⟩
  · have hget0 : (dyn_init w).claimers[i]? = some .idle := by
      simp [dyn_init, hi]
    rw [rejected_claims_active p hd stride i sched (dyn_init w) .idle hget0 (by simp)]
    have hi1 : i < (dyn_run p stride (dyn_init w) sched).claimers.length := by omega
    have hget1 : (dyn_run p stride (dyn_init w) sched).claimers[i]? = some .finished := by
      rw [List.getElem?_eq_getElem hi1]
      exact congrArg some (hall _ (List.getElem_mem _))
    rw [if_pos hget1]
  · rw [hcur, hacc, hcount]
    apply wrap_s32_of_range
    · have : (0 : Int) ≤ ((p.n_tasks + w : Nat) : Int) := Int.natCast_nonneg _
      omega
    · have : ((p.n_tasks + w : Nat) : Int) < 2 ^ 31 := by exact_mod_cast hb
      exact this

theorem C25_witness :
    all_finished (dyn_run ⟨3, 0, DYNAMIC_PARTITIONING⟩ 1 (dyn_init 2) [0, 1, 0, 1, 0]) = true ∧
    claims_made ⟨3, 0, DYNAMIC_PARTITIONING⟩ 1 (dyn_init 2) [0, 1, 0, 1, 0] = 3 + 2 ∧
    (dyn_run ⟨3, 0, DYNAMIC_PARTITIONING⟩ 1 (dyn_init 2) [0, 1, 0, 1, 0]).cursor = 5 :=
  ⟨by decide,
    (C25_dynamic_overshoot ⟨3, 0, DYNAMIC_PARTITIONING⟩ 2 1 [0, 1, 0, 1, 0] rfl (by decide)
      (by decide) (by decide)).2.2.1,
    by decide⟩


theorem sublist_snoc_left (l1 l : List CedtEvent) (e : CedtEvent) (h : List.Sublist l1 l) :
    List.Sublist l1 (l ++ [e]) :=
  h.trans (List.sublist_append_left l [e])

theorem sublist_snoc_both (l1 l : List CedtEvent) (e : CedtEvent) (h : List.Sublist l1 l) :
    List.Sublist (l1 ++ [e]) (l ++ [e]) :=
  List.Sublist.append h (List.Sublist.refl _)

theorem stage_reps_snoc (k : CedtStage) (l : List CedtEvent) (e : CedtEvent) :
    stage_reps k (l ++ [e])
      = if e.kind = k then stage_reps k l ++ [e.rep] else stage_reps k l := by
  unfold stage_reps
  by_cases h : e.kind = k
  · simp [List.filter_append, h]
  · simp [List.filter_append, h]

theorem mem_stage_reps (k : CedtStage) (l : List CedtEvent) (r : Nat) :
    r ∈ stage_reps k l ↔ (⟨k, r⟩ : CedtEvent) ∈ l := by
  unfold stage_reps
  simp only [List.mem_map, List.mem_filter, decide_eq_true_eq]
  constructor
  · rintro ⟨e, ⟨he, hk⟩, hr⟩
    obtain ⟨k1, r1⟩ := e
    dsimp only at hk hr
    rw [← hk, ← hr]
    exact he
  · intro h
    exact ⟨⟨k, r⟩, ⟨h, rfl⟩, rfl⟩

theorem sorted_snoc (k : CedtStage) (l : List CedtEvent) (e : CedtEvent)
    (hs : (stage_reps k l).Pairwise (fun a b => a < b))
    (hb : e.kind = k → ∀ r, (⟨k, r⟩ : CedtEvent) ∈ l → r < e.rep) :
    (stage_reps k (l ++ [e])).Pairwise (fun a b => a < b) := by
  rw [stage_reps_snoc]
  by_cases h : e.kind = k
  · rw [if_pos h, List.pairwise_append]
    refine ⟨hs, List.pairwise_singleton _ _, ?_⟩
    intro a ha b hb1
    rw [List.mem_singleton] at hb1
    rw [hb1]
    exact hb h a ((mem_stage_reps k l a).1 ha)
  · rw [if_neg h]
    exact hs

theorem cedt_init_inv : CedtInv cedt_init := by
  constructor <;> simp [cedt_init, stage_reps]

theorem mem_snoc_cases (x e : CedtEvent) (l : List CedtEvent) (h : x ∈ l ++ [e]) :
    x ∈ l ∨ x = e := by
  simpa using h

theorem flag_three (v : Int) (h : v = 0 ∨ v = 1 ∨ v = -1) (h0 : v ≠ 0) (h1 : v ≠ -1) :
    v = 1 := by
  omega

theorem inv_fetch_present (fl : Nat → Int) (frep crep : Nat) (cpc : CpuPc)
    (ev : List CedtEvent) (h : CedtInv ⟨fl, frep, .fetch, crep, cpc, ev⟩) :
    CedtInv ⟨fl, frep, .device, crep, cpc, ev⟩ := by
  obtain ⟨a1, a2, a3, a4, a5, a6, a7, a8, a9, a10, a11, a12, a13, a14, a15⟩ := h
  dsimp only at a1 a2 a3 a4 a5 a6 a7 a8 a9 a10 a11 a12 a13 a14 a15
  refine ⟨a1, a2, a3, (fun h => by cases h), (fun h => by cases h), a6, a7, a8, a9, a10, ?_, ?_,
    a13, a14, a15⟩
  all_goals try dsimp only
  · intro r hm
    rcases a11 r hm with h | ⟨_, h | h⟩
    · exact Or.inl h
    · cases h
    · cases h
  · intro r hm
    rcases a12 r hm with h | ⟨_, h⟩
    · exact Or.inl h
    · cases h

theorem inv_store (fl : Nat → Int) (frep crep : Nat) (fpc : FpgaPc) (cpc : CpuPc)
    (ev : List CedtEvent) (v : Int) (hv : v = 1 ∨ v = -1)
    (h1 : v = 1 → List.Sublist [⟨.device_stages, frep⟩, ⟨.copy_back, frep⟩] ev)
    (h : CedtInv ⟨fl, frep, fpc, crep, cpc, ev⟩) :
    CedtInv ⟨Function.update fl frep v, frep + 1, .fetch, crep, cpc, ev⟩ := by
  obtain ⟨a1, a2, a3, a4, a5, a6, a7, a8, a9, a10, a11, a12, a13, a14, a15⟩ := h
  dsimp only at a1 a2 a3 a4 a5 a6 a7 a8 a9 a10 a11 a12 a13 a14 a15
  have hfr : ¬ frep < frep := lt_irrefl _
  have hold : ∀ r, fl r ≠ 0 → Function.update fl frep v r = fl r := by
    intro r hr
    have := a2 r hr
    exact Function.update_noteq (by omega) _ _
  refine ⟨?_, ?_, ?_, (fun h => by cases h), (fun h => by cases h), ?_, ?_, ?_, ?_, ?_, ?_, ?_,
    a13, a14, a15⟩
  all_goals try dsimp only
  · intro r
    by_cases hr : r = frep
    · rw [hr, Function.update_same]
      exact Or.inr hv
    · rw [Function.update_noteq hr]
      exact a1 r
  · intro r hne
    by_cases hr : r = frep
    · omega
    · rw [Function.update_noteq hr] at hne
      have := a2 r hne
      omega
  · intro r hone
    by_cases hr : r = frep
    · rw [hr, Function.update_same] at hone
      rw [hr]
      exact h1 hone
    · rw [Function.update_noteq hr] at hone
      exact a3 r hone
  · intro hc
    rw [hold _ (a6 hc)]
    exact a6 hc
  · intro hc
    have := a7 hc
    rw [hold _ (by omega)]
    exact this
  · intro hc
    have := a8 hc
    rw [hold _ (by omega)]
    exact this
  · intro r hm
    have := a9 r hm
    rw [hold _ (by omega)]
    exact this
  · intro r hm
    have := a10 r hm
    rw [hold _ (by omega)]
    exact this
  · intro r hm
    rcases a11 r hm with h | ⟨h, _⟩
    · exact Or.inl (by omega)
    · exact Or.inl (by omega)
  · intro r hm
    rcases a12 r hm with h | ⟨h, _⟩
    · exact Or.inl (by omega)
    · exact Or.inl (by omega)

theorem inv_device (fl : Nat → Int) (frep crep : Nat) (cpc : CpuPc)
    (ev : List CedtEvent) (h : CedtInv ⟨fl, frep, .device, crep, cpc, ev⟩) :
    CedtInv ⟨fl, frep, .copy_back, crep, cpc, ev ++ [⟨.device_stages, frep⟩]⟩ := by
  obtain ⟨a1, a2, a3, a4, a5, a6, a7, a8, a9, a10, a11, a12, a13, a14, a15⟩ := h
  dsimp only at a1 a2 a3 a4 a5 a6 a7 a8 a9 a10 a11 a12 a13 a14 a15
  have hold : ∀ r, (⟨.device_stages, r⟩ : CedtEvent) ∈ ev → r < frep := by
    intro r hm
    rcases a11 r hm with h | ⟨_, h | h⟩
    · exact h
    · cases h
    · cases h
  refine ⟨a1, a2, fun r hr => sublist_snoc_left _ _ _ (a3 r hr), ?_, (fun h => by cases h),
    a6, a7, fun hc => ⟨(a8 hc).1, sublist_snoc_left _ _ _ (a8 hc).2⟩, ?_, ?_, ?_, ?_, ?_, ?_, ?_⟩
  all_goals try dsimp only
  · intro _
    exact List.sublist_append_right _ _
  · intro r hm
    rcases mem_snoc_cases _ _ _ hm with h | h
    · exact ⟨(a9 r h).1, sublist_snoc_left _ _ _ (a9 r h).2⟩
    · cases h
  · intro r hm
    rcases mem_snoc_cases _ _ _ hm with h | h
    · exact ⟨(a10 r h).1, sublist_snoc_left _ _ _ (a10 r h).2⟩
    · cases h
  · intro r hm
    rcases mem_snoc_cases _ _ _ hm with h | h
    · exact Or.inl (hold r h)
    · cases h
      exact Or.inr ⟨rfl, Or.inl rfl⟩
  · intro r hm
    rcases mem_snoc_cases _ _ _ hm with h | h
    · rcases a12 r h with h | ⟨_, h⟩
      · exact Or.inl h
      · cases h
    · cases h
  · intro r hm
    rcases mem_snoc_cases _ _ _ hm with h | h
    · exact a13 r h
    · cases h
  · intro r hm
    rcases mem_snoc_cases _ _ _ hm with h | h
    · exact a14 r h
    · cases h
  · intro k
    apply sorted_snoc k ev _ (a15 k)
    intro hk r hm
    dsimp only at hk
    subst hk
    exact hold r hm

theorem inv_copy_back (fl : Nat → Int) (frep crep : Nat) (cpc : CpuPc)
    (ev : List CedtEvent) (h : CedtInv ⟨fl, frep, .copy_back, crep, cpc, ev⟩) :
    CedtInv ⟨fl, frep, .release, crep, cpc, ev ++ [⟨.copy_back, frep⟩]⟩ := by
  obtain ⟨a1, a2, a3, a4, a5, a6, a7, a8, a9, a10, a11, a12, a13, a14, a15⟩ := h
  dsimp only at a1 a2 a3 a4 a5 a6 a7 a8 a9 a10 a11 a12 a13 a14 a15
  have hold : ∀ r, (⟨.copy_back, r⟩ : CedtEvent) ∈ ev → r < frep := by
    intro r hm
    rcases a12 r hm with h | ⟨_, h⟩
    · exact h
    · cases h
  refine ⟨a1, a2, fun r hr => sublist_snoc_left _ _ _ (a3 r hr), (fun h => by cases h), ?_,
    a6, a7, fun hc => ⟨(a8 hc).1, sublist_snoc_left _ _ _ (a8 hc).2⟩, ?_, ?_, ?_, ?_, ?_, ?_, ?_⟩
  all_goals try dsimp only
  · intro _
    exact sublist_snoc_both _ _ _ (a4 rfl)
  · intro r hm
    rcases mem_snoc_cases _ _ _ hm with h | h
    · exact ⟨(a9 r h).1, sublist_snoc_left _ _ _ (a9 r h).2⟩
    · cases h
  · intro r hm
    rcases mem_snoc_cases _ _ _ hm with h | h
    · exact ⟨(a10 r h).1, sublist_snoc_left _ _ _ (a10 r h).2⟩
    · cases h
  · intro r hm
    rcases mem_snoc_cases _ _ _ hm with h | h
    · rcases a11 r h with h | ⟨h, _⟩
      · exact Or.inl h
      · exact Or.inr ⟨h, Or.inr rfl⟩
    · cases h
  · intro r hm
    rcases mem_snoc_cases _ _ _ hm with h | h
    · exact Or.inl (hold r h)
    · cases h
      exact Or.inr ⟨rfl, rfl⟩
  · intro r hm
    rcases mem_snoc_cases _ _ _ hm with h | h
    · exact a13 r h
    · cases h
  · intro r hm
    rcases mem_snoc_cases _ _ _ hm with h | h
    · exact a14 r h
    · cases h
  · intro k
    apply sorted_snoc k ev _ (a15 k)
    intro hk r hm
    dsimp only at hk
    subst hk
    exact hold r hm

theorem fpga_step_inv (n : Nat) (present : Nat → Bool) (s : CedtState) (h : CedtInv s) :
    CedtInv (fpga_step n present s) := by
  obtain ⟨fl, frep, fpc, crep, cpc, ev⟩ := s
  unfold fpga_step
  dsimp only
  by_cases hn : frep < n
  · rw [if_pos hn]
    cases fpc with
    | fetch =>
      dsimp only
      by_cases hp : present frep = true
      · rw [if_pos hp]
        exact inv_fetch_present fl frep crep cpc ev h
      · rw [if_neg hp]
        exact inv_store fl frep crep .fetch cpc ev (-1) (Or.inr rfl)
          (fun h => by omega) h
    | device => exact inv_device fl frep crep cpc ev h
    | copy_back => exact inv_copy_back fl frep crep cpc ev h
    | release =>
      exact inv_store fl frep crep .release cpc ev 1 (Or.inl rfl) (fun _ => h.fpga_rel rfl) h
  · rw [if_neg hn]
    exact h

theorem inv_wait_exit (fl : Nat → Int) (frep crep : Nat) (fpc : FpgaPc)
    (ev : List CedtEvent) (hne : fl crep ≠ 0) (h : CedtInv ⟨fl, frep, fpc, crep, .wait, ev⟩) :
    CedtInv ⟨fl, frep, fpc, crep, .check, ev⟩ := by
  obtain ⟨a1, a2, a3, a4, a5, a6, a7, a8, a9, a10, a11, a12, a13, a14, a15⟩ := h
  dsimp only at a1 a2 a3 a4 a5 a6 a7 a8 a9 a10 a11 a12 a13 a14 a15
  refine ⟨a1, a2, a3, a4, a5, fun _ => hne, (fun h => by cases h), (fun h => by cases h), a9,
    a10, a11, a12, ?_, a14, a15⟩
  all_goals try dsimp only
  intro r hm
  rcases a13 r hm with h | ⟨_, h⟩
  · exact Or.inl h
  · cases h

theorem inv_check_skip (fl : Nat → Int) (frep crep : Nat) (fpc : FpgaPc)
    (ev : List CedtEvent) (h : CedtInv ⟨fl, frep, fpc, crep, .check, ev⟩) :
    CedtInv ⟨fl, frep, fpc, crep + 1, .wait, ev⟩ := by
  obtain ⟨a1, a2, a3, a4, a5, a6, a7, a8, a9, a10, a11, a12, a13, a14, a15⟩ := h
  dsimp only at a1 a2 a3 a4 a5 a6 a7 a8 a9 a10 a11 a12 a13 a14 a15
  refine ⟨a1, a2, a3, a4, a5, (fun h => by cases h), (fun h => by cases h),
    (fun h => by cases h), a9, a10, a11, a12, ?_, ?_, a15⟩
  all_goals try dsimp only
  · intro r hm
    rcases a13 r hm with h | ⟨_, h⟩
    · exact Or.inl (by omega)
    · cases h
  · intro r hm
    have := a14 r hm
    omega

theorem inv_check_pass (fl : Nat → Int) (frep crep : Nat) (fpc : FpgaPc)
    (ev : List CedtEvent) (hne : fl crep ≠ -1) (h : CedtInv ⟨fl, frep, fpc, crep, .check, ev⟩) :
    CedtInv ⟨fl, frep, fpc, crep, .stage, ev⟩ := by
  obtain ⟨a1, a2, a3, a4, a5, a6, a7, a8, a9, a10, a11, a12, a13, a14, a15⟩ := h
  dsimp only at a1 a2 a3 a4 a5 a6 a7 a8 a9 a10 a11 a12 a13 a14 a15
  refine ⟨a1, a2, a3, a4, a5, (fun h => by cases h),
    fun _ => flag_three _ (a1 crep) (a6 rfl) hne, (fun h => by cases h), a9,
    a10, a11, a12, ?_, a14, a15⟩
  all_goals try dsimp only
  intro r hm
  rcases a13 r hm with h | ⟨_, h⟩
  · exact Or.inl h
  · cases h

theorem inv_stage (fl : Nat → Int) (frep crep : Nat) (fpc : FpgaPc)
    (ev : List CedtEvent) (h : CedtInv ⟨fl, frep, fpc, crep, .stage, ev⟩) :
    CedtInv ⟨fl, frep, fpc, crep, .copy, ev ++ [⟨.cpu_stage, crep⟩]⟩ := by
  obtain ⟨a1, a2, a3, a4, a5, a6, a7, a8, a9, a10, a11, a12, a13, a14, a15⟩ := h
  dsimp only at a1 a2 a3 a4 a5 a6 a7 a8 a9 a10 a11 a12 a13 a14 a15
  have hold : ∀ r, (⟨.cpu_stage, r⟩ : CedtEvent) ∈ ev → r < crep := by
    intro r hm
    rcases a13 r hm with h | ⟨_, h⟩
    · exact h
    · cases h
  have hnew : List.Sublist
      [⟨.device_stages, crep⟩, ⟨.copy_back, crep⟩, (⟨.cpu_stage, crep⟩ : CedtEvent)]
      (ev ++ [⟨.cpu_stage, crep⟩]) := sublist_snoc_both _ _ _ (a3 crep (a7 rfl))
  refine ⟨a1, a2, fun r hr => sublist_snoc_left _ _ _ (a3 r hr),
    fun hc => sublist_snoc_left _ _ _ (a4 hc), fun hc => sublist_snoc_left _ _ _ (a5 hc),
    (fun h => by cases h), (fun h => by cases h), fun _ => ⟨a7 rfl, hnew⟩, ?_, ?_, ?_, ?_, ?_,
    ?_, ?_⟩
  all_goals try dsimp only
  · intro r hm
    rcases mem_snoc_cases _ _ _ hm with h | h
    · exact ⟨(a9 r h).1, sublist_snoc_left _ _ _ (a9 r h).2⟩
    · cases h
      exact ⟨a7 rfl, hnew⟩
  · intro r hm
    rcases mem_snoc_cases _ _ _ hm with h | h
    · exact ⟨(a10 r h).1, sublist_snoc_left _ _ _ (a10 r h).2⟩
    · cases h
  · intro r hm
    rcases mem_snoc_cases _ _ _ hm with h | h
    · exact a11 r h
    · cases h
  · intro r hm
    rcases mem_snoc_cases _ _ _ hm with h | h
    · exact a12 r h
    · cases h
  · intro r hm
    rcases mem_snoc_cases _ _ _ hm with h | h
    · exact Or.inl (hold r h)
    · cases h
      exact Or.inr ⟨rfl, rfl⟩
  · intro r hm
    rcases mem_snoc_cases _ _ _ hm with h | h
    · exact a14 r h
    · cases h
  · intro k
    apply sorted_snoc k ev _ (a15 k)
    intro hk r hm
    dsimp only at hk
    subst hk
    exact hold r hm

theorem inv_copy (fl : Nat → Int) (frep crep : Nat) (fpc : FpgaPc)
    (ev : List CedtEvent) (h : CedtInv ⟨fl, frep, fpc, crep, .copy, ev⟩) :
    CedtInv ⟨fl, frep, fpc, crep + 1, .wait, ev ++ [⟨.cpu_copy, crep⟩]⟩ := by
  obtain ⟨a1, a2, a3, a4, a5, a6, a7, a8, a9, a10, a11, a12, a13, a14, a15⟩ := h
  dsimp only at a1 a2 a3 a4 a5 a6 a7 a8 a9 a10 a11 a12 a13 a14 a15
  have hnew : List.Sublist
      [⟨.device_stages, crep⟩, ⟨.copy_back, crep⟩, ⟨.cpu_stage, crep⟩,
        (⟨.cpu_copy, crep⟩ : CedtEvent)]
      (ev ++ [⟨.cpu_copy, crep⟩]) := sublist_snoc_both _ _ _ (a8 rfl).2
  refine ⟨a1, a2, fun r hr => sublist_snoc_left _ _ _ (a3 r hr),
    fun hc => sublist_snoc_left _ _ _ (a4 hc), fun hc => sublist_snoc_left _ _ _ (a5 hc),
    (fun h => by cases h), (fun h => by cases h), (fun h => by cases h), ?_, ?_, ?_, ?_, ?_,
    ?_, ?_⟩
  all_goals try dsimp only
  · intro r hm
    rcases mem_snoc_cases _ _ _ hm with h | h
    · exact ⟨(a9 r h).1, sublist_snoc_left _ _ _ (a9 r h).2⟩
    · cases h
  · intro r hm
    rcases mem_snoc_cases _ _ _ hm with h | h
    · exact ⟨(a10 r h).1, sublist_snoc_left _ _ _ (a10 r h).2⟩
    · cases h
      exact ⟨(a8 rfl).1, hnew⟩
  · intro r hm
    rcases mem_snoc_cases _ _ _ hm with h | h
    · exact a11 r h
    · cases h
  · intro r hm
    rcases mem_snoc_cases _ _ _ hm with h | h
    · exact a12 r h
    · cases h
  · intro r hm
    rcases mem_snoc_cases _ _ _ hm with h | h
    · rcases a13 r h with h | ⟨h, _⟩
      · exact Or.inl (by omega)
      · exact Or.inl (by omega)
    · cases h
  · intro r hm
    rcases mem_snoc_cases _ _ _ hm with h | h
    · have := a14 r h
      omega
    · cases h
      exact Nat.lt_succ_self _
  · intro k
    apply sorted_snoc k ev _ (a15 k)
    intro hk r hm
    dsimp only at hk
    subst hk
    exact a14 r hm

theorem cpu_step_inv (n : Nat) (s : CedtState) (h : CedtInv s) : CedtInv (cpu_step n s) := by
  obtain ⟨fl, frep, fpc, crep, cpc, ev⟩ := s
  unfold cpu_step
  dsimp only
  by_cases hn : crep < n
  · rw [if_pos hn]
    cases cpc with
    | wait =>
      dsimp only
      by_cases h0 : fl crep = 0
      · rw [if_pos h0]
        exact h
      · rw [if_neg h0]
        exact inv_wait_exit fl frep crep fpc ev h0 h
    | check =>
      dsimp only
      by_cases h1 : fl crep = -1
      · rw [if_pos h1]
        exact inv_check_skip fl frep crep fpc ev h
      · rw [if_neg h1]
        exact inv_check_pass fl frep crep fpc ev h1 h
    | stage => exact inv_stage fl frep crep fpc ev h
    | copy => exact inv_copy fl frep crep fpc ev h
  · rw [if_neg hn]
    exact h

theorem cedt_run_inv (n : Nat) (present : Nat → Bool) (trace : List Proxy) :
    CedtInv (cedt_run n present trace) := by
  unfold cedt_run
  have key : ∀ (trace : List Proxy) (s : CedtState), CedtInv s →
      CedtInv (trace.foldl (cedt_step n present) s) := by
    intro trace
    induction trace with
    | nil => intro s h; exact h
    | cons a trace ih =>
      intro s h
      apply ih
      cases a with
      | fpga => exact fpga_step_inv n present s h
      | cpu => exact cpu_step_inv n s h
  exact key trace _ cedt_init_inv

/-- C29. CEDT handshake: in every state the two proxies can reach by interleaving their
atomic steps, for every number of frames and every set of null frames: when the CPU
proxy is about to run the CPU stage of its frame or to copy it out, `sobel_ready` of
that frame is 1; every frame with a completed CPU stage or copy has flag 1 and its
device stages and copy back were completed before, in this order; a flag is 1 only
after the device stages and the copy back of its frame; a frame flagged -1 has no CPU
stage and no copy; and each stage is completed for frames in strictly increasing order
of `rep`. A run with a first frame and a null second frame shows the steps happen. -/
theorem C29_handshake :
    (∀ (n : Nat) (present : Nat → Bool) (trace : List Proxy),
      ((cedt_run n present trace).cpu_pc = .stage ∨ (cedt_run n present trace).cpu_pc = .copy →
        (cedt_run n present trace).sobel_ready (cedt_run n present trace).cpu_rep = 1) ∧
      (∀ r, (cedt_run n present trace).sobel_ready r = 1 →
        List.Sublist [⟨.device_stages, r⟩, ⟨.copy_back, r⟩] (cedt_run n present trace).events) ∧
      (∀ r, (⟨.cpu_stage, r⟩ : CedtEvent) ∈ (cedt_run n present trace).events →
        (cedt_run n present trace).sobel_ready r = 1 ∧
        List.Sublist [⟨.device_stages, r⟩, ⟨.copy_back, r⟩, ⟨.cpu_stage, r⟩]
          (cedt_run n present trace).events) ∧
      (∀ r, (⟨.cpu_copy, r⟩ : CedtEvent) ∈ (cedt_run n present trace).events →
        (cedt_run n present trace).sobel_ready r = 1 ∧
        List.Sublist [⟨.device_stages, r⟩, ⟨.copy_back, r⟩, ⟨.cpu_stage, r⟩, ⟨.cpu_copy, r⟩]
          (cedt_run n present trace).events) ∧
      (∀ r, (cedt_run n present trace).sobel_ready r = -1 →
        (⟨.cpu_stage, r⟩ : CedtEvent) ∉ (cedt_run n present trace).events ∧
        (⟨.cpu_copy, r⟩ : CedtEvent) ∉ (cedt_run n present trace).events) ∧
      (∀ k, (stage_reps k (cedt_run n present trace).events).Pairwise (fun a b => a < b))) ∧
    (cedt_run 2 cedt_example
      [.cpu, .fpga, .fpga, .cpu, .fpga, .fpga, .fpga, .cpu, .cpu, .cpu, .cpu, .cpu,
        .cpu]).events
      = [⟨.device_stages, 0⟩, ⟨.copy_back, 0⟩, ⟨.cpu_stage, 0⟩, ⟨.cpu_copy, 0⟩] ∧
    (cedt_run 2 cedt_example
      [.cpu, .fpga, .fpga, .cpu, .fpga, .fpga, .fpga, .cpu, .cpu, .cpu, .cpu, .cpu,
        .cpu]).sobel_ready 1 = -1 ∧
    (cedt_run 2 cedt_example
      [.cpu, .fpga, .fpga, .cpu, .fpga, .fpga, .fpga, .cpu, .cpu, .cpu, .cpu, .cpu,
        .cpu]).cpu_rep = 2 := by
  refine ⟨fun n present trace => ?_, by decide, by decide, by decide⟩
  have hinv := cedt_run_inv n present trace
  generalize cedt_run n present trace = s at hinv ⊢
  refine ⟨?_, hinv.flag_one, hinv.log_stage, hinv.log_copy, ?_, hinv.sorted⟩
  · rintro (h | h)
    · exact hinv.cpu_stage h
    · exact (hinv.cpu_copy h).1
  · intro r hr
    constructor
    · intro hm
      have := (hinv.log_stage r hm).1
      omega
    · intro hm
      have := (hinv.log_copy r hm).1
      omega


theorem pow2_pos (k : Nat) : 0 < 2 ^ k := by positivity

theorem rne_cases (M k : Nat) : rne M k = M / 2 ^ k ∨ rne M k = M / 2 ^ k + 1 := by
  unfold rne
  split_ifs
  · exact Or.inl rfl
  · exact Or.inl rfl
  · exact Or.inr rfl

theorem rne_exact (Q k : Nat) : rne (Q * 2 ^ k) k = Q := by
  have hp : 0 < 2 ^ k := pow2_pos _
  unfold rne
  rw [Nat.mul_mod_left, Nat.mul_div_cancel _ hp, if_pos (by omega)]

theorem rne_mono_aux (p qa ra qb rb : Nat)
    (h : p * qa + ra ≤ p * qb + rb) (hq : qa ≤ qb) :
    (if 2 * ra < p then qa else if 2 * ra = p ∧ qa % 2 = 0 then qa else qa + 1)
      ≤ (if 2 * rb < p then qb else if 2 * rb = p ∧ qb % 2 = 0 then qb else qb + 1) := by
  rcases Nat.lt_or_ge qa qb with hlt | hge
  · split_ifs <;> omega
  · have he : qa = qb := le_antisymm hq hge
    subst he
    have hr : ra ≤ rb := by omega
    split_ifs <;> omega

theorem rne_mono (A B k : Nat) (h : A ≤ B) : rne A k ≤ rne B k := by
  have hp : 0 < 2 ^ k := pow2_pos _
  unfold rne
  apply rne_mono_aux (2 ^ k) (A / 2 ^ k) (A % 2 ^ k) (B / 2 ^ k) (B % 2 ^ k)
  · rw [Nat.div_add_mod, Nat.div_add_mod]
    exact h
  · exact Nat.div_le_div_right h

theorem rne_shift (M k j : Nat) : rne (M * 2 ^ j) (k + j) = rne M k := by
  have hj : 0 < 2 ^ j := pow2_pos _
  unfold rne
  rw [pow_add, Nat.mul_div_mul_right _ _ hj, Nat.mul_mod_mul_right]
  have e1 : 2 * (M % 2 ^ k * 2 ^ j) < 2 ^ k * 2 ^ j ↔ 2 * (M % 2 ^ k) < 2 ^ k := by
    rw [← Nat.mul_assoc]
    exact Nat.mul_lt_mul_right hj
  have e2 : 2 * (M % 2 ^ k * 2 ^ j) = 2 ^ k * 2 ^ j ↔ 2 * (M % 2 ^ k) = 2 ^ k := by
    rw [← Nat.mul_assoc]
    exact Nat.mul_left_inj (Nat.pos_iff_ne_zero.1 hj)
  simp only [e1, e2]

theorem bit_length_mono (A B : Nat) (h : A ≤ B) : bit_length A ≤ bit_length B :=
  (bit_length_le_iff A _).2 (lt_of_le_of_lt h (lt_two_pow_bit_length B))

theorem bit_length_mul_pow (M j : Nat) (hM : 0 < M) :
    bit_length (M * 2 ^ j) = bit_length M + j := by
  apply le_antisymm
  · rw [bit_length_le_iff, pow_add]
    exact Nat.mul_lt_mul_of_pos_right (lt_two_pow_bit_length M) (pow2_pos _)
  · by_contra hlt
    have h1 : bit_length (M * 2 ^ j) ≤ bit_length M - 1 + j := by
      have hb : bit_length M ≠ 0 := by
        intro h0
        have := lt_two_pow_bit_length M
        rw [h0] at this
        omega
      omega
    rw [bit_length_le_iff, pow_add] at h1
    have h2 := two_pow_bit_length_pred_le M hM
    have h3 : 2 ^ (bit_length M - 1) * 2 ^ j ≤ M * 2 ^ j := Nat.mul_le_mul_right _ h2
    omega

theorem round_scaled_fixed (s Q t : Nat) (hQ : Q < 2 ^ 24) (ht : s ≤ t) :
    round_scaled s (Q * 2 ^ t) = Q * 2 ^ t := by
  unfold round_scaled
  have hb : bit_length (Q * 2 ^ t) ≤ 24 + t := by
    rw [bit_length_le_iff, pow_add]
    exact Nat.mul_lt_mul_of_pos_right hQ (pow2_pos _)
  have hk : max (bit_length (Q * 2 ^ t) - 24) s ≤ t := by omega
  generalize max (bit_length (Q * 2 ^ t) - 24) s = k at hk
  obtain ⟨d, rfl⟩ : ∃ d, t = k + d := ⟨t - k, by omega⟩
  have e : Q * 2 ^ (k + d) = (Q * 2 ^ d) * 2 ^ k := by rw [pow_add]; ring
  rw [e, rne_exact]

theorem round_scaled_mono (s A B : Nat) (h : A ≤ B) : round_scaled s A ≤ round_scaled s B := by
  unfold round_scaled
  have hbl := bit_length_mono A B h
  have hkle : max (bit_length A - 24) s ≤ max (bit_length B - 24) s := by omega
  rcases Nat.lt_or_ge (max (bit_length A - 24) s) (max (bit_length B - 24) s) with hlt | hge
  · have hkB : max (bit_length B - 24) s = bit_length B - 24 := by omega
    have hBpos : 0 < B := by
      rcases Nat.eq_zero_or_pos B with h0 | h0
      · rw [h0, bit_length_zero] at hkB hlt
        omega
      · exact h0
    have hA : A < 2 ^ (max (bit_length A - 24) s + 24) :=
      (bit_length_le_iff A _).1 (by omega)
    have hB := two_pow_bit_length_pred_le B hBpos
    generalize max (bit_length A - 24) s = ka at hlt hA hkle ⊢
    generalize hkb : max (bit_length B - 24) s = kb at hlt hkB hkle ⊢
    obtain ⟨d, rfl⟩ : ∃ d, kb = ka + 1 + d := ⟨kb - ka - 1, by omega⟩
    have hbl1 : bit_length B - 1 = ka + 1 + d + 23 := by omega
    rw [hbl1] at hB
    have h1 : rne A ka ≤ 2 ^ (d + 24) := by
      have : rne A ka ≤ rne (2 ^ (d + 24) * 2 ^ ka) ka := by
        apply rne_mono
        have : 2 ^ (ka + 24) ≤ 2 ^ (d + 24) * 2 ^ ka := by
          rw [← pow_add]
          exact Nat.pow_le_pow_right (by norm_num) (by omega)
        omega
      rwa [rne_exact] at this
    have h2 : 2 ^ 23 ≤ rne B (ka + 1 + d) := by
      have : rne (2 ^ 23 * 2 ^ (ka + 1 + d)) (ka + 1 + d) ≤ rne B (ka + 1 + d) := by
        apply rne_mono
        rw [← pow_add]
        have e : 23 + (ka + 1 + d) = ka + 1 + d + 23 := by omega
        rw [e]
        exact hB
      rwa [rne_exact] at this
    calc rne A ka * 2 ^ ka ≤ 2 ^ (d + 24) * 2 ^ ka := Nat.mul_le_mul_right _ h1
      _ = 2 ^ 23 * 2 ^ (ka + 1 + d) := by
        rw [← pow_add, ← pow_add]
        congr 1
        omega
      _ ≤ rne B (ka + 1 + d) * 2 ^ (ka + 1 + d) := Nat.mul_le_mul_right _ h2
  · have he : max (bit_length A - 24) s = max (bit_length B - 24) s := le_antisymm hkle hge
    rw [he]
    exact Nat.mul_le_mul_right _ (rne_mono A B _ h)

theorem rne_zero (k : Nat) : rne 0 k = 0 := by
  have := rne_exact 0 k
  rwa [Nat.zero_mul] at this

theorem rne_k_zero (M : Nat) : rne M 0 = M := by
  have := rne_exact M 0
  rwa [pow_zero, Nat.mul_one] at this

theorem f32_round_rne (neg : Bool) (M : Nat) (E : Int) :
    f32_round neg M E
      = if 128 ≤ E + (max (bit_length M - 24) (-149 - E).toNat : Nat)
            ∧ 0 < rne M (max (bit_length M - 24) (-149 - E).toNat) then .inf neg
        else if 0 ≤ E + (max (bit_length M - 24) (-149 - E).toNat : Nat)
            ∧ 2 ^ 128 ≤ rne M (max (bit_length M - 24) (-149 - E).toNat)
                * 2 ^ (E + (max (bit_length M - 24) (-149 - E).toNat : Nat)).toNat then .inf neg
        else .fin neg (rne M (max (bit_length M - 24) (-149 - E).toNat))
          (E + (max (bit_length M - 24) (-149 - E).toNat : Nat)) := rfl

theorem round_scaled_link (M j D : Nat) (hD : 149 ≤ D) :
    rne M (max (bit_length M - 24) (D - 149 - j))
        * 2 ^ (max (bit_length M - 24) (D - 149 - j) + j)
      = round_scaled (D - 149) (M * 2 ^ j) := by
  rcases Nat.eq_zero_or_pos M with h0 | hpos
  · subst h0
    simp [round_scaled, rne_zero]
  · rcases Nat.eq_zero_or_pos (max (bit_length M - 24) (D - 149 - j)) with hk | hk
    · rw [hk, rne_k_zero, Nat.zero_add]
      have hM : M < 2 ^ 24 := (bit_length_le_iff M 24).1 (by omega)
      exact (round_scaled_fixed (D - 149) M j hM (by omega)).symm
    · unfold round_scaled
      rw [bit_length_mul_pow M j hpos]
      have e : max (bit_length M + j - 24) (D - 149)
          = max (bit_length M - 24) (D - 149 - j) + j := by omega
      rw [e, rne_shift]

theorem trunc_scaled (q k j D : Nat) :
    (if 0 ≤ (j : Int) - D + (k : Nat) then q * 2 ^ ((j : Int) - D + (k : Nat)).toNat
      else q / 2 ^ (-((j : Int) - D + (k : Nat))).toNat) = q * 2 ^ (k + j) / 2 ^ D := by
  by_cases h : 0 ≤ (j : Int) - D + (k : Nat)
  · rw [if_pos h]
    obtain ⟨t, ht⟩ : ∃ t : Nat, k + j = t + D := ⟨k + j - D, by omega⟩
    have e : ((j : Int) - D + (k : Nat)).toNat = t := by omega
    rw [e, ht, show 2 ^ (t + D) = 2 ^ t * 2 ^ D from pow_add 2 t D, ← Nat.mul_assoc,
      Nat.mul_div_cancel _ (pow2_pos D)]
  · rw [if_neg h]
    obtain ⟨t, ht⟩ : ∃ t : Nat, D = (k + j) + t := ⟨D - (k + j), by omega⟩
    have e : (-((j : Int) - D + (k : Nat))).toNat = t := by omega
    rw [e, ht, show 2 ^ (k + j + t) = 2 ^ (k + j) * 2 ^ t from pow_add 2 (k + j) t,
      Nat.mul_comm q, Nat.mul_div_mul_left _ _ (pow2_pos (k + j))]

theorem cut_scaled (junk M j D : Nat) (hD : 149 ≤ D)
    (hlt : round_scaled (D - 149) (M * 2 ^ j) < 2 ^ 32 * 2 ^ D) :
    f32_to_u32 junk (f32_round false M ((j : Int) - D))
      = round_scaled (D - 149) (M * 2 ^ j) / 2 ^ D := by
  have hk : (-149 - ((j : Int) - D)).toNat = D - 149 - j := by omega
  have hlink := round_scaled_link M j D hD
  rw [f32_round_rne, hk]
  rw [← hlink] at hlt ⊢
  generalize max (bit_length M - 24) (D - 149 - j) = k at hlt ⊢
  generalize rne M k = q at hlt ⊢
  have hc1 : ¬ (128 ≤ (j : Int) - D + (k : Nat) ∧ 0 < q) := by
    rintro ⟨h1, h2⟩
    obtain ⟨t, ht⟩ : ∃ t : Nat, k + j = 128 + D + t := ⟨k + j - (128 + D), by omega⟩
    rw [ht, pow_add, pow_add] at hlt
    have h3 : 1 * (2 ^ 128 * 2 ^ D * 1) ≤ q * (2 ^ 128 * 2 ^ D * 2 ^ t) :=
      Nat.mul_le_mul h2 (Nat.mul_le_mul_left _ (pow2_pos t))
    have h4 : 2 ^ 32 * 2 ^ D ≤ 2 ^ 128 * 2 ^ D := Nat.mul_le_mul_right _ (by norm_num)
    omega
  have hc2 : ¬ (0 ≤ (j : Int) - D + (k : Nat)
      ∧ 2 ^ 128 ≤ q * 2 ^ ((j : Int) - D + (k : Nat)).toNat) := by
    rintro ⟨h1, h2⟩
    obtain ⟨t, ht⟩ : ∃ t : Nat, k + j = t + D := ⟨k + j - D, by omega⟩
    have e : ((j : Int) - D + (k : Nat)).toNat = t := by omega
    rw [e] at h2
    rw [ht, pow_add, ← Nat.mul_assoc] at hlt
    have h3 : 2 ^ 128 * 2 ^ D ≤ q * 2 ^ t * 2 ^ D := Nat.mul_le_mul_right _ h2
    have h4 : 2 ^ 32 * 2 ^ D ≤ 2 ^ 128 * 2 ^ D := Nat.mul_le_mul_right _ (by norm_num)
    omega
  rw [if_neg hc1, if_neg hc2]
  have ht := trunc_scaled q k j D
  have hlt2 : q * 2 ^ (k + j) / 2 ^ D < 2 ^ 32 := (Nat.div_lt_iff_lt_mul (pow2_pos D)).2 hlt
  simp only [f32_to_u32, ht, Bool.false_eq_true, if_false, if_pos hlt2]
  split_ifs with h0
  · exact h0.symm
  · rfl

theorem u32_to_f32_rne (n : Nat) (h : n < 2 ^ 32) :
    u32_to_f32 n = .fin false (rne n (bit_length n - 24)) ((bit_length n - 24 : Nat) : Int) := by
  have hb : bit_length n ≤ 32 := (bit_length_le_iff n 32).2 h
  have hk : max (bit_length n - 24) ((-149 - (0 : Int)).toNat) = bit_length n - 24 := by
    simp
  unfold u32_to_f32
  rw [f32_round_rne, hk]
  have hk8 : bit_length n - 24 ≤ 8 := by omega
  generalize bit_length n - 24 = k at hk8 ⊢
  have hq : rne n k * 2 ^ k ≤ n + 2 ^ k := by
    have hdm := Nat.div_add_mod n (2 ^ k)
    rcases rne_cases n k with e | e
    · rw [e]
      have := Nat.div_mul_le_self n (2 ^ k)
      omega
    · rw [e, Nat.add_mul, Nat.one_mul]
      have := Nat.div_mul_le_self n (2 ^ k)
      omega
  have hpow : 2 ^ k ≤ 2 ^ 8 := Nat.pow_le_pow_right (by norm_num) hk8
  rw [if_neg, if_neg, zero_add]
  · rintro ⟨-, h2⟩
    have e1 : ((0 : Int) + (k : Int)).toNat = k := by simp
    rw [e1] at h2
    norm_num at h2 hpow h
    omega
  · rintro ⟨h1, -⟩
    omega

theorem round_scaled_zero_eq (n : Nat) :
    round_scaled 0 n = rne n (bit_length n - 24) * 2 ^ (bit_length n - 24) := by
  unfold round_scaled
  rw [Nat.max_eq_left (Nat.zero_le _)]

theorem round_scaled_of_zero (s : Nat) : round_scaled s 0 = 0 := by
  simp [round_scaled, rne_zero]

theorem round_u32_bound (n : Nat) (hn : n < 2 ^ 32 - 128) :
    round_scaled 0 n ≤ (2 ^ 24 - 1) * 2 ^ 8 := by
  have h1 : round_scaled 0 n ≤ round_scaled 0 4294967167 :=
    round_scaled_mono 0 n 4294967167 (by norm_num at hn; omega)
  have h2 : round_scaled 0 4294967167 = (2 ^ 24 - 1) * 2 ^ 8 := by decide
  omega

theorem alpha_scaled_le (m : Nat) (e : Int) (he : -149 ≤ e)
    (h : (if 0 ≤ e then decide (m * 2 ^ e.toNat ≤ 1) else decide (m ≤ 2 ^ (-e).toNat)) = true) :
    m * 2 ^ (e + 149).toNat ≤ 2 ^ 149 := by
  by_cases h0 : 0 ≤ e
  · rw [if_pos h0] at h
    simp only [decide_eq_true_eq] at h
    have e1 : (e + 149).toNat = e.toNat + 149 := by omega
    rw [e1, pow_add, ← Nat.mul_assoc]
    calc m * 2 ^ e.toNat * 2 ^ 149 ≤ 1 * 2 ^ 149 := Nat.mul_le_mul_right _ h
      _ = 2 ^ 149 := Nat.one_mul _
  · rw [if_neg h0] at h
    simp only [decide_eq_true_eq] at h
    calc m * 2 ^ (e + 149).toNat ≤ 2 ^ (-e).toNat * 2 ^ (e + 149).toNat :=
        Nat.mul_le_mul_right _ h
      _ = 2 ^ 149 := by
        rw [← pow_add]
        congr 1
        omega

theorem alpha_scaled_cast (m : Nat) (e : Int) (he : -149 ≤ e) :
    ((m * 2 ^ (e + 149).toNat : Nat) : ℚ) = (m : ℚ) * (2 : ℚ) ^ e * 2 ^ 149 := by
  obtain ⟨t, ht⟩ : ∃ t : Nat, e + 149 = t := ⟨(e + 149).toNat, by omega⟩
  have e1 : (e + 149).toNat = t := by omega
  have e2 : e = (t : Int) - 149 := by omega
  rw [e1, e2]
  push_cast
  rw [zpow_sub₀ (by norm_num : (2 : ℚ) ≠ 0), zpow_natCast]
  have : ((2 : ℚ) ^ (149 : Int)) = 2 ^ 149 := by norm_cast
  rw [this]
  field_simp

theorem cut_formula (junk n m : Nat) (neg : Bool) (e : Int) (hn : n < 2 ^ 32 - 128)
    (hwf : (F32.fin neg m e).wf = true)
    (hu : ((F32.fin neg m e).ge_zero && (F32.fin neg m e).le_one) = true) :
    (partitioner_create junk n (.fin neg m e)).cut
        = round_scaled 149 (round_scaled 0 n * (m * 2 ^ (e + 149).toNat) * 2 ^ 149) / 2 ^ 298 ∧
      round_scaled 149 (round_scaled 0 n * (m * 2 ^ (e + 149).toNat) * 2 ^ 149)
        ≤ (2 ^ 24 - 1) * 2 ^ 306 := by
  have hn32 : n < 2 ^ 32 := by omega
  have hlo : -149 ≤ e := by
    simp [F32.wf] at hwf
    omega
  unfold partitioner_create
  rw [if_pos hu]
  simp only
  rw [u32_to_f32_rne n hn32]
  simp only [f32_mul, Bool.false_xor]
  by_cases hm : m = 0
  · subst hm
    obtain ⟨E1, hr⟩ := f32_round_zero neg (((bit_length n - 24 : Nat) : Int) + e)
    rw [Nat.mul_zero, hr, f32_to_u32_zero]
    have hz : round_scaled 0 n * (0 * 2 ^ (e + 149).toNat) * 2 ^ 149 = 0 := by
      rw [Nat.zero_mul, Nat.mul_zero, Nat.zero_mul]
    rw [hz, round_scaled_of_zero]
    exact ⟨(Nat.zero_div _).symm, Nat.zero_le _⟩
  · have hneg : neg = false := by
      cases neg with
      | false => rfl
      | true => simp [F32.ge_zero, hm] at hu
    subst hneg
    have hle : (if 0 ≤ e then decide (m * 2 ^ e.toNat ≤ 1) else decide (m ≤ 2 ^ (-e).toNat))
        = true := by
      simpa [F32.ge_zero, F32.le_one] using hu
    have hal := alpha_scaled_le m e hlo hle
    have hF := round_u32_bound n hn
    obtain ⟨ee, hee⟩ : ∃ ee : Nat, (e + 149).toNat = ee := ⟨_, rfl⟩
    rw [hee] at hal ⊢
    have hE : ((bit_length n - 24 : Nat) : Int) + e
        = ((bit_length n - 24 + ee + 149 : Nat) : Int) - (298 : Nat) := by
      push_cast
      omega
    have hA : rne n (bit_length n - 24) * m * 2 ^ (bit_length n - 24 + ee + 149)
        = round_scaled 0 n * (m * 2 ^ ee) * 2 ^ 149 := by
      rw [round_scaled_zero_eq, pow_add, pow_add]
      ring
    have hbound : round_scaled 149 (round_scaled 0 n * (m * 2 ^ ee) * 2 ^ 149)
        ≤ (2 ^ 24 - 1) * 2 ^ 306 := by
      have h1 : round_scaled 0 n * (m * 2 ^ ee) * 2 ^ 149 ≤ (2 ^ 24 - 1) * 2 ^ 306 := by
        calc round_scaled 0 n * (m * 2 ^ ee) * 2 ^ 149
            ≤ (2 ^ 24 - 1) * 2 ^ 8 * 2 ^ 149 * 2 ^ 149 :=
              Nat.mul_le_mul_right _ (Nat.mul_le_mul hF hal)
          _ = (2 ^ 24 - 1) * 2 ^ 306 := by
              rw [show (306 : Nat) = 8 + (149 + 149) from rfl, pow_add, pow_add]
              simp only [Nat.mul_assoc]
      have h2 := round_scaled_mono 149 _ _ h1
      rwa [round_scaled_fixed 149 (2 ^ 24 - 1) 306 (by norm_num) (by norm_num)] at h2
    refine ⟨?_, hbound⟩
    have h3 : (2 ^ 24 - 1) * 2 ^ 306 < 2 ^ 32 * 2 ^ 298 := by
      rw [show (306 : Nat) = 8 + 298 from rfl, pow_add, ← Nat.mul_assoc]
      exact Nat.mul_lt_mul_of_pos_right (by norm_num) (pow2_pos 298)
    have hcs := cut_scaled junk (rne n (bit_length n - 24) * m)
      (bit_length n - 24 + ee + 149) 298 (by norm_num)
    rw [show (298 - 149 : Nat) = 149 from rfl, hA] at hcs
    rw [hE]
    exact hcs (lt_of_le_of_lt hbound h3)

theorem alpha_scaled_rat (neg : Bool) (m : Nat) (e : Int) (q : ℚ) (hlo : -149 ≤ e)
    (hq : (F32.fin neg m e).toRat = some q) (h0 : 0 ≤ q) :
    ((m * 2 ^ (e + 149).toNat : Nat) : ℚ) = q * 2 ^ 149 := by
  have hq1 : q = (if neg then -1 else 1) * (m : ℚ) * (2 : ℚ) ^ e := by
    simpa [F32.toRat] using hq.symm
  have hp : (0 : ℚ) < (2 : ℚ) ^ e := by positivity
  rw [alpha_scaled_cast m e hlo]
  cases neg with
  | false =>
    simp only [Bool.false_eq_true, if_false, one_mul] at hq1
    rw [hq1]
  | true =>
    simp only [if_true] at hq1
    have hm : (m : ℚ) = 0 := by
      have hm0 : (0 : ℚ) ≤ (m : ℚ) := Nat.cast_nonneg m
      have : (m : ℚ) * (2 : ℚ) ^ e ≤ 0 := by
        rw [hq1] at h0
        linarith
      by_contra hne
      have hpos : (0 : ℚ) < (m : ℚ) := lt_of_le_of_ne hm0 (Ne.symm hne)
      have := mul_pos hpos hp
      linarith
    rw [hq1, hm]
    simp

theorem wf_exponent (neg : Bool) (m : Nat) (e : Int) (hwf : (F32.fin neg m e).wf = true) :
    -149 ≤ e := by
  simp [F32.wf] at hwf
  omega

theorem unit_of_rat (neg : Bool) (m : Nat) (e : Int) (q : ℚ)
    (hq : (F32.fin neg m e).toRat = some q) (h0 : 0 ≤ q) (h1 : q ≤ 1) :
    ((F32.fin neg m e).ge_zero && (F32.fin neg m e).le_one) = true := by
  have hq1 : q = (if neg then -1 else 1) * (m : ℚ) * (2 : ℚ) ^ e := by
    simpa [F32.toRat] using hq.symm
  exact (in_unit_iff neg m e).2 ⟨by rw [← hq1]; exact h0, by rw [← hq1]; exact h1⟩

theorem pow149_cast : ((2 ^ 149 : Nat) : ℚ) = 2 ^ 149 := by norm_cast

/-- C23, amended: while the single-precision product stays below `2 ^ 32`, that is for
`n_tasks < 2 ^ 32 - 128`, the cut is monotone in both arguments: for `n1 ≤ n2` and
`0 ≤ alpha1 ≤ alpha2 ≤ 1`, `partitioner_create(n1, alpha1).cut ≤
partitioner_create(n2, alpha2).cut`; taking `n1 = n2` or `alpha1 = alpha2` gives the two
statements of the claim. -/
theorem C23_cut_monotone (junk n1 n2 : Nat) (alpha1 alpha2 : F32) (q1 q2 : ℚ)
    (hn : n1 ≤ n2) (hn2 : n2 < 2 ^ 32 - 128)
    (hwf1 : alpha1.wf = true) (hwf2 : alpha2.wf = true)
    (hq1 : alpha1.toRat = some q1) (hq2 : alpha2.toRat = some q2)
    (h0 : 0 ≤ q1) (h12 : q1 ≤ q2) (h1 : q2 ≤ 1) :
    (partitioner_create junk n1 alpha1).cut ≤ (partitioner_create junk n2 alpha2).cut := by
  cases alpha1 with
  | inf s => simp [F32.toRat] at hq1
  | nan => simp [F32.toRat] at hq1
  | fin neg1 m1 e1 =>
    cases alpha2 with
    | inf s => simp [F32.toRat] at hq2
    | nan => simp [F32.toRat] at hq2
    | fin neg2 m2 e2 =>
      have hlo1 := wf_exponent neg1 m1 e1 hwf1
      have hlo2 := wf_exponent neg2 m2 e2 hwf2
      have hu1 := unit_of_rat neg1 m1 e1 q1 hq1 h0 (le_trans h12 h1)
      have hu2 := unit_of_rat neg2 m2 e2 q2 hq2 (le_trans h0 h12) h1
      have hc1 := (cut_formula junk n1 m1 neg1 e1 (by omega) hwf1 hu1).1
      have hc2 := (cut_formula junk n2 m2 neg2 e2 hn2 hwf2 hu2).1
      have hs1 := alpha_scaled_rat neg1 m1 e1 q1 hlo1 hq1 h0
      have hs2 := alpha_scaled_rat neg2 m2 e2 q2 hlo2 hq2 (le_trans h0 h12)
      have hal : m1 * 2 ^ (e1 + 149).toNat ≤ m2 * 2 ^ (e2 + 149).toNat := by
        have : ((m1 * 2 ^ (e1 + 149).toNat : Nat) : ℚ)
            ≤ ((m2 * 2 ^ (e2 + 149).toNat : Nat) : ℚ) := by
          rw [hs1, hs2]
          exact mul_le_mul_of_nonneg_right h12 (by positivity)
        exact_mod_cast this
      rw [hc1, hc2]
      apply Nat.div_le_div_right
      apply round_scaled_mono
      exact Nat.mul_le_mul_right _ (Nat.mul_le_mul (round_scaled_mono 0 n1 n2 hn) hal)

theorem C23_witness :
    (10 : Nat) ≤ 20 ∧ alpha_0_3.toRat = some (10066330 / 2 ^ 25) ∧
    alpha_0_75.toRat = some (3 / 4) ∧
    (partitioner_create 0 10 alpha_0_3).cut ≤ (partitioner_create 0 20 alpha_0_75).cut :=
  ⟨by norm_num, by norm_num [alpha_0_3, F32.toRat], by norm_num [alpha_0_75, F32.toRat],
    C23_cut_monotone 0 10 20 alpha_0_3 alpha_0_75 (10066330 / 2 ^ 25) (3 / 4) (by norm_num)
      (by norm_num) (by decide) (by decide) (by norm_num [alpha_0_3, F32.toRat])
      (by norm_num [alpha_0_75, F32.toRat]) (by norm_num) (by norm_num) (by norm_num)⟩

/-- C23 fails as stated: for `n_tasks = 4294967295` and `alpha = 1.0` the float product
is `2 ^ 32`, whose conversion to `unsigned int` is undefined, so the cut is whatever that
conversion yields (`junk`); with the value 0 the cut for `n_tasks = 1` is above the cut
for `n_tasks = 4294967295`, and the cut for `alpha = 0.5` (2147483648) is above the cut
for `alpha = 1.0`. -/
theorem C23_counterexample :
    alpha_1.wf = true ∧ alpha_1.toRat = some 1 ∧ alpha_0_5.toRat = some (1 / 2) ∧
    (∀ junk, (partitioner_create junk 4294967295 alpha_1).cut = junk) ∧
    (partitioner_create 0 1 alpha_1).cut = 1 ∧
    (partitioner_create 0 4294967295 alpha_0_5).cut = 2147483648 ∧
    ¬ ((partitioner_create 0 1 alpha_1).cut ≤ (partitioner_create 0 4294967295 alpha_1).cut) ∧
    ¬ ((partitioner_create 0 4294967295 alpha_0_5).cut
        ≤ (partitioner_create 0 4294967295 alpha_1).cut) := by
  refine ⟨by decide, by norm_num [alpha_1, F32.toRat], by norm_num [alpha_0_5, F32.toRat],
    fun junk => rfl, by decide, by decide, by decide, by decide⟩

theorem round_scaled_div_bounds (s A D : Nat) (hk : max (bit_length A - 24) s ≤ D) :
    A / 2 ^ D ≤ round_scaled s A / 2 ^ D ∧ round_scaled s A / 2 ^ D ≤ A / 2 ^ D + 1 := by
  unfold round_scaled
  generalize max (bit_length A - 24) s = k at hk ⊢
  obtain ⟨t, rfl⟩ : ∃ t, D = k + t := ⟨D - k, by omega⟩
  have e1 : A / 2 ^ (k + t) = A / 2 ^ k / 2 ^ t := by
    rw [pow_add, Nat.div_div_eq_div_mul]
  have e2 : rne A k * 2 ^ k / 2 ^ (k + t) = rne A k / 2 ^ t := by
    rw [pow_add, Nat.mul_comm (2 ^ k), Nat.mul_div_mul_right _ _ (pow2_pos k)]
  rw [e1, e2]
  have ht := pow2_pos t
  rcases rne_cases A k with e | e
  · rw [e]
    exact ⟨le_refl _, Nat.le_succ _⟩
  · rw [e]
    constructor
    · exact Nat.div_le_div_right (Nat.le_succ _)
    · calc (A / 2 ^ k + 1) / 2 ^ t ≤ (A / 2 ^ k + 2 ^ t) / 2 ^ t :=
          Nat.div_le_div_right (by omega)
        _ = A / 2 ^ k / 2 ^ t + 1 := Nat.add_div_right _ ht

/-- C22, amended: for `n_tasks < 2 ^ 24` and `alpha` in `[0, 1]` the cut is the
single-precision product truncated, which is the floor of `n_tasks * alpha` or that floor
plus one (the product may round up to the next integer), and never above `n_tasks`;
`alpha = 0` gives `cut = 0` and `alpha = 1` gives `cut = n_tasks`. -/
theorem C22_cut_bounds (junk n_tasks : Nat) (alpha : F32) (q : ℚ) (hn : n_tasks < 2 ^ 24)
    (hwf : alpha.wf = true) (hq : alpha.toRat = some q) (h0 : 0 ≤ q) (h1 : q ≤ 1) :
    ⌊(n_tasks : ℚ) * q⌋ ≤ ((partitioner_create junk n_tasks alpha).cut : Int) ∧
    ((partitioner_create junk n_tasks alpha).cut : Int) ≤ ⌊(n_tasks : ℚ) * q⌋ + 1 ∧
    (partitioner_create junk n_tasks alpha).cut ≤ n_tasks ∧
    (q = 0 → (partitioner_create junk n_tasks alpha).cut = 0) ∧
    (q = 1 → (partitioner_create junk n_tasks alpha).cut = n_tasks) := by
  cases alpha with
  | inf s => simp [F32.toRat] at hq
  | nan => simp [F32.toRat] at hq
  | fin neg m e =>
    have hlo := wf_exponent neg m e hwf
    have hu := unit_of_rat neg m e q hq h0 h1
    have hc := (cut_formula junk n_tasks m neg e (by norm_num at hn ⊢; omega) hwf hu).1
    have hs := alpha_scaled_rat neg m e q hlo hq h0
    have hfix : round_scaled 0 n_tasks = n_tasks := by
      have := round_scaled_fixed 0 n_tasks 0 hn (le_refl _)
      rwa [pow_zero, Nat.mul_one] at this
    rw [hfix] at hc
    generalize m * 2 ^ (e + 149).toNat = a at hc hs
    have hal : a ≤ 2 ^ 149 := by
      have : (a : ℚ) ≤ ((2 ^ 149 : Nat) : ℚ) := by
        rw [hs, pow149_cast]
        calc q * 2 ^ 149 ≤ 1 * 2 ^ 149 := mul_le_mul_of_nonneg_right h1 (by positivity)
          _ = 2 ^ 149 := one_mul _
      exact_mod_cast this
    have hfl : ⌊(n_tasks : ℚ) * q⌋ = ((n_tasks * a / 2 ^ 149 : Nat) : Int) := by
      have e1 : (n_tasks : ℚ) * q = ((n_tasks * a : Nat) : ℚ) / ((2 ^ 149 : Nat) : ℚ) := by
        rw [Nat.cast_mul, hs, pow149_cast, ← mul_assoc, mul_div_assoc,
          div_self (by positivity), mul_one]
      rw [e1, Rat.floor_natCast_div_natCast]
      norm_cast
    have hdiv : n_tasks * a * 2 ^ 149 / 2 ^ 298 = n_tasks * a / 2 ^ 149 := by
      rw [show (298 : Nat) = 149 + 149 from rfl, pow_add,
        Nat.mul_div_mul_right _ _ (pow2_pos 149)]
    have hA : n_tasks * a * 2 ^ 149 ≤ n_tasks * 2 ^ 298 := by
      rw [show (298 : Nat) = 149 + 149 from rfl, pow_add, ← Nat.mul_assoc]
      exact Nat.mul_le_mul_right _ (Nat.mul_le_mul_left _ hal)
    have hV : round_scaled 149 (n_tasks * a * 2 ^ 149) ≤ n_tasks * 2 ^ 298 := by
      have := round_scaled_mono 149 _ _ hA
      rwa [round_scaled_fixed 149 n_tasks 298 hn (by norm_num)] at this
    have hbl : max (bit_length (n_tasks * a * 2 ^ 149) - 24) 149 ≤ 298 := by
      have : bit_length (n_tasks * a * 2 ^ 149) ≤ 24 + 298 := by
        rw [bit_length_le_iff, pow_add]
        calc n_tasks * a * 2 ^ 149 ≤ n_tasks * 2 ^ 298 := hA
          _ < 2 ^ 24 * 2 ^ 298 := Nat.mul_lt_mul_of_pos_right hn (pow2_pos 298)
      omega
    obtain ⟨b1, b2⟩ := round_scaled_div_bounds 149 (n_tasks * a * 2 ^ 149) 298 hbl
    rw [hdiv] at b1 b2
    rw [hc, hfl]
    refine ⟨by exact_mod_cast b1, by exact_mod_cast b2, ?_, ?_, ?_⟩
    · calc round_scaled 149 (n_tasks * a * 2 ^ 149) / 2 ^ 298
          ≤ n_tasks * 2 ^ 298 / 2 ^ 298 := Nat.div_le_div_right hV
        _ = n_tasks := Nat.mul_div_cancel _ (pow2_pos 298)
    · intro hq0
      have ha : a = 0 := by
        have : (a : ℚ) = 0 := by rw [hs, hq0, zero_mul]
        exact_mod_cast this
      rw [ha, Nat.mul_zero, Nat.zero_mul, round_scaled_of_zero, Nat.zero_div]
    · intro hq1
      have ha : a = 2 ^ 149 := by
        have : (a : ℚ) = ((2 ^ 149 : Nat) : ℚ) := by rw [hs, hq1, one_mul, pow149_cast]
        exact_mod_cast this
      have e2 : n_tasks * a * 2 ^ 149 = n_tasks * 2 ^ 298 := by
        rw [ha, show (298 : Nat) = 149 + 149 from rfl, pow_add, Nat.mul_assoc]
      rw [e2, round_scaled_fixed 149 n_tasks 298 hn (by norm_num),
        Nat.mul_div_cancel _ (pow2_pos 298)]

theorem C22_witness :
    alpha_0_7.wf = true ∧ alpha_0_7.toRat = some (11744051 / 2 ^ 24) ∧
    ((partitioner_create 0 10 alpha_0_7).cut : Int) ≤ ⌊((10 : Nat) : ℚ) * (11744051 / 2 ^ 24)⌋ + 1 ∧
    (partitioner_create 0 10 alpha_0_7).cut ≤ 10 :=
  ⟨by decide, by norm_num [alpha_0_7, F32.toRat],
    (C22_cut_bounds 0 10 alpha_0_7 (11744051 / 2 ^ 24) (by norm_num) (by decide)
      (by norm_num [alpha_0_7, F32.toRat]) (by norm_num) (by norm_num)).2.1,
    by decide⟩

/-- C22 fails as stated: for `n_tasks = 10` and `alpha = 0.7f = 11744051 * 2 ^ (-24)` the
exact product is `7 - 2 ^ (-23)`, which rounds to the `float` 7.0, so `cut = 7` while
the floor of `n_tasks * alpha` is 6: the cut exceeds `n_tasks * alpha`. -/
theorem C22_counterexample :
    alpha_0_7.wf = true ∧ alpha_0_7.toRat = some (11744051 / 2 ^ 24) ∧
    (∀ junk, (partitioner_create junk 10 alpha_0_7).strategy = STATIC_PARTITIONING) ∧
    (∀ junk, (partitioner_create junk 10 alpha_0_7).cut = 7) ∧
    ⌊((10 : Nat) : ℚ) * (11744051 / 2 ^ 24)⌋ = 6 ∧
    ((10 : Nat) : ℚ) * (11744051 / 2 ^ 24) < 7 := by
  refine ⟨by decide, by norm_num [alpha_0_7, F32.toRat], fun _ => rfl, fun _ => rfl, ?_, ?_⟩
  · rw [Int.floor_eq_iff]
    norm_num
  · norm_num


theorem exhausted_run_accepts_nothing (p : Partitioner)
    (hd : p.strategy = DYNAMIC_PARTITIONING) (stride : Nat) (sched : List Nat) :
    ∀ s : DynState, s.accepted = [] → p.n_tasks ≤ to_u32 s.cursor →
      to_u32 s.cursor + (s.claimers.length - s.claimers.count .finished) < 2 ^ 32 →
      (dyn_run p stride s sched).accepted = [] := by
  induction sched with
  | nil => intro s h _ _; exact h
  | cons i sched ih =>
    intro s hacc hge hlt
    rw [dyn_run_cons]
    rcases claimer_cases s i with h | ⟨c, hget, hc⟩
    · rw [dyn_step_inactive p stride s i h]
      exact ih s hacc hge hlt
    · rw [dyn_step_reject p hd stride s i c hget hc hge]
      have hcnt := count_finished_set_finished s.claimers i c hget hc
      have hF := count_finished_lt s.claimers i c hget hc
      have hu : to_u32 (wrap_s32 (s.cursor + 1)) = to_u32 s.cursor + 1 := by
        rw [to_u32_wrap_succ]
        exact Nat.mod_eq_of_lt (by omega)
      apply ih
      · exact hacc
      · dsimp only
        omega
      · dsimp only
        rw [hu, List.length_set, hcnt]
        omega

theorem next_iteration_eq (p : Partitioner) (w stride : Nat) (c0 : Int) (sched : List Nat) :
    next_iteration p (dyn_run p stride (iteration_start p w c0) sched)
      = iteration_start p w c0 := by
  have hlen := dyn_run_length p stride sched (iteration_start p w c0)
  have hmap : (dyn_run p stride (iteration_start p w c0) sched).claimers.map
      (fun _ => Claimer.idle) = List.replicate w Claimer.idle := by
    rw [List.map_const', hlen]
    simp [iteration_start]
  unfold next_iteration
  rw [hmap]
  by_cases hd : p.strategy = DYNAMIC_PARTITIONING
  · simp only [iteration_start, if_pos hd]
  · rw [dyn_run_cursor_static p hd]
    simp only [iteration_start, if_neg hd]

/-- C14. Idempotence across iterations: an iteration run from the state "Reset"
produces, followed by "Reset" on the state it left (the cursor stored 0 under DYNAMIC,
every claimer at its loop entry again) and the same schedule, gives in the second
iteration the same state and the same claimed indices claimer by claimer; the same
holds with an unconditional store of 0. Under DYNAMIC with every loop run to exhaustion
both iterations accept exactly `0, .., n_tasks - 1`, the first leaves the cursor at
`n_tasks + w`, and the same schedule without the store accepts nothing: the store is
what makes the iterations equal. Under STATIC no claim writes the cursor. For 3 tasks
and 2 claimers the second iteration hands claimer 0 the indices 0 and 2 and claimer 1
the index 1, as the first did. -/
theorem C14_idempotent (p : Partitioner) (w stride : Nat) (c0 : Int) (sched : List Nat) :
    dyn_run p stride (next_iteration p (dyn_run p stride (iteration_start p w c0) sched)) sched
      = dyn_run p stride (iteration_start p w c0) sched ∧
    (∀ i, claimer_log i
        (dyn_run p stride (next_iteration p (dyn_run p stride (iteration_start p w c0) sched))
          sched)
      = claimer_log i (dyn_run p stride (iteration_start p w c0) sched)) ∧
    dyn_run p stride
        { cursor := 0,
          claimers := (dyn_run p stride (dyn_init w) sched).claimers.map (fun _ => Claimer.idle),
          accepted := [] } sched
      = dyn_run p stride (dyn_init w) sched ∧
    (p.strategy = DYNAMIC_PARTITIONING → 1 ≤ w → p.n_tasks + w < 2 ^ 31 →
      all_finished (dyn_run p stride (iteration_start p w c0) sched) = true →
      (dyn_run p stride (iteration_start p w c0) sched).accepted.map Prod.snd
        = List.range p.n_tasks ∧
      (dyn_run p stride (next_iteration p (dyn_run p stride (iteration_start p w c0) sched))
        sched).accepted.map Prod.snd = List.range p.n_tasks ∧
      (dyn_run p stride (iteration_start p w c0) sched).cursor = ((p.n_tasks + w : Nat) : Int) ∧
      (dyn_run p stride
        (restart_without_reset (dyn_run p stride (iteration_start p w c0) sched))
        sched).accepted = []) ∧
    (¬ p.strategy = DYNAMIC_PARTITIONING →
      (dyn_run p stride (iteration_start p w c0) sched).cursor = c0) ∧
    claimer_log 0 (dyn_run ⟨3, 0, DYNAMIC_PARTITIONING⟩ 1 (next_iteration
      ⟨3, 0, DYNAMIC_PARTITIONING⟩ (dyn_run ⟨3, 0, DYNAMIC_PARTITIONING⟩ 1
        (iteration_start ⟨3, 0, DYNAMIC_PARTITIONING⟩ 2 7) [0, 1, 0, 1, 0])) [0, 1, 0, 1, 0])
      = [0, 2] ∧
    claimer_log 1 (dyn_run ⟨3, 0, DYNAMIC_PARTITIONING⟩ 1 (next_iteration
      ⟨3, 0, DYNAMIC_PARTITIONING⟩ (dyn_run ⟨3, 0, DYNAMIC_PARTITIONING⟩ 1
        (iteration_start ⟨3, 0, DYNAMIC_PARTITIONING⟩ 2 7) [0, 1, 0, 1, 0])) [0, 1, 0, 1, 0])
      = [1] ∧
    (dyn_run ⟨3, 0, DYNAMIC_PARTITIONING⟩ 1 (iteration_start ⟨3, 0, DYNAMIC_PARTITIONING⟩ 2 7)
      [0, 1, 0, 1, 0]).accepted = [(0, 0), (1, 1), (0, 2)] ∧
    (dyn_run ⟨3, 0, DYNAMIC_PARTITIONING⟩ 1 (restart_without_reset
      (dyn_run ⟨3, 0, DYNAMIC_PARTITIONING⟩ 1 (iteration_start ⟨3, 0, DYNAMIC_PARTITIONING⟩ 2 7)
        [0, 1, 0, 1, 0])) [0, 1, 0, 1, 0]).accepted = [] := by
  have hnext := next_iteration_eq p w stride c0 sched
  refine ⟨by rw [hnext], fun i => by rw [hnext], ?_, ?_, ?_, by decide, by decide, by decide,
    by decide⟩
  · have hlen := dyn_run_length p stride sched (dyn_init w)
    have hmap : (dyn_run p stride (dyn_init w) sched).claimers.map (fun _ => Claimer.idle)
        = List.replicate w Claimer.idle := by
      rw [List.map_const', hlen]
      simp [dyn_init]
    rw [hmap]
    rfl
  · intro hd hw hb hfin
    rw [hnext]
    have hstart : iteration_start p w c0 = dyn_init w := by
      simp only [iteration_start, if_pos hd, dyn_init]
    rw [hstart] at hfin ⊢
    obtain ⟨hlen, hcur, hacc, -, hfull⟩ :=
      dyn_run_inv p hd w stride (by omega) sched _ (dyn_init_inv p w)
    have hall : ∀ b ∈ (dyn_run p stride (dyn_init w) sched).claimers,
        b = Claimer.finished := by
      intro b hbm
      have := List.all_eq_true.1 hfin b hbm
      simp only [decide_eq_true_eq] at this
      exact this
    have hcount : (dyn_run p stride (dyn_init w) sched).claimers.count .finished = w := by
      have hc : (dyn_run p stride (dyn_init w) sched).claimers.count .finished
          = (dyn_run p stride (dyn_init w) sched).claimers.length := by
        rw [List.count_eq_length]
        intro b hbm
        exact (hall b hbm).symm
      rw [hc, hlen]
    have haccn := hfull (by omega)
    have hrange : (dyn_run p stride (dyn_init w) sched).accepted.map Prod.snd
        = List.range p.n_tasks := by rw [hacc, haccn]
    have hcursor : (dyn_run p stride (dyn_init w) sched).cursor
        = ((p.n_tasks + w : Nat) : Int) := by
      rw [hcur, haccn, hcount]
      apply wrap_s32_of_range
      · have : (0 : Int) ≤ ((p.n_tasks + w : Nat) : Int) := Int.natCast_nonneg _
        omega
      · have : ((p.n_tasks + w : Nat) : Int) < 2 ^ 31 := by exact_mod_cast hb
        exact this
    refine ⟨hrange, hrange, hcursor, ?_⟩
    have hu : to_u32 (dyn_run p stride (dyn_init w) sched).cursor = p.n_tasks + w := by
      rw [hcursor, to_u32_of_nonneg _ (Int.natCast_nonneg _) (by
        have : ((p.n_tasks + w : Nat) : Int) < 2 ^ 31 := by exact_mod_cast hb
        omega)]
      exact Int.toNat_ofNat _
    apply exhausted_run_accepts_nothing p hd stride sched
    · rfl
    · show p.n_tasks ≤ to_u32 (dyn_run p stride (dyn_init w) sched).cursor
      omega
    · show to_u32 (dyn_run p stride (dyn_init w) sched).cursor
          + (((dyn_run p stride (dyn_init w) sched).claimers.map (fun _ => Claimer.idle)).length
            - ((dyn_run p stride (dyn_init w) sched).claimers.map
                (fun _ => Claimer.idle)).count .finished) < 2 ^ 32
      rw [hu, List.length_map, hlen]
      omega
  · intro hd
    rw [dyn_run_cursor_static p hd]
    simp only [iteration_start, if_neg hd]

theorem rne_error_aux (p t r M V : Nat) (hM : t + r = M) (hp : p * 2 ^ 23 ≤ M)
    (hV : (V = t ∧ 2 * r ≤ p) ∨ (V = t + p ∧ p ≤ 2 * r ∧ r < p)) :
    2 ^ 24 * V ≤ 2 ^ 24 * M + M ∧ 2 ^ 24 * M ≤ 2 ^ 24 * V + M := by
  rcases hV with ⟨h1, h2⟩ | ⟨h1, h2, h3⟩ <;> omega

theorem rne_error (M k : Nat) (hk : 2 ^ (k + 23) ≤ M) :
    2 ^ 24 * (rne M k * 2 ^ k) ≤ 2 ^ 24 * M + M ∧
      2 ^ 24 * M ≤ 2 ^ 24 * (rne M k * 2 ^ k) + M := by
  have hp := pow2_pos k
  have hdm : M / 2 ^ k * 2 ^ k + M % 2 ^ k = M := by
    rw [Nat.mul_comm]
    exact Nat.div_add_mod M (2 ^ k)
  have hr := Nat.mod_lt M hp
  apply rne_error_aux (2 ^ k) (M / 2 ^ k * 2 ^ k) (M % 2 ^ k) M _ hdm
  · rw [← pow_add]
    exact hk
  · unfold rne
    split_ifs with h1 h2
    · exact Or.inl ⟨rfl, by omega⟩
    · exact Or.inl ⟨rfl, by omega⟩
    · refine Or.inr ⟨by rw [Nat.add_mul, Nat.one_mul], by omega, hr⟩

theorem rne_le_pow24 (M : Nat) : rne M (bit_length M - 24) ≤ 2 ^ 24 := by
  have hlt := lt_two_pow_bit_length M
  have hq : M / 2 ^ (bit_length M - 24) < 2 ^ 24 := by
    rw [Nat.div_lt_iff_lt_mul (pow2_pos _), ← pow_add]
    exact lt_of_lt_of_le hlt (Nat.pow_le_pow_right (by norm_num) (by omega))
  rcases rne_cases M (bit_length M - 24) with e | e <;> omega

theorem f32_round_small (M : Nat) (e : Int) (hlo : -149 ≤ e) (he : e ≤ 0)
    (hb : (bit_length M : Int) + e ≤ 24) :
    f32_round false M e
      = .fin false (rne M (bit_length M - 24)) (e + ((bit_length M - 24 : Nat) : Int)) := by
  have hk : max (bit_length M - 24) (-149 - e).toNat = bit_length M - 24 := by
    have : (-149 - e).toNat = 0 := by omega
    rw [this]
    exact Nat.max_eq_left (Nat.zero_le _)
  have hq := rne_le_pow24 M
  rw [f32_round_rne, hk, if_neg, if_neg]
  · rintro ⟨h1, h2⟩
    have e0 : (e + ((bit_length M - 24 : Nat) : Int)).toNat = 0 := by omega
    rw [e0, pow_zero, Nat.mul_one] at h2
    norm_num at h2 hq
    omega
  · rintro ⟨h1, -⟩
    omega

theorem trunc_floor (junk q1 : Nat) (e : Int) (he : e ≤ 0) (hq : q1 ≤ 2 ^ 24) :
    ((f32_to_u32 junk (.fin false q1 e) : Nat) : Int) = ⌊(q1 : ℚ) * (2 : ℚ) ^ e⌋ := by
  obtain ⟨d, rfl⟩ : ∃ d : Nat, e = -(d : Int) := ⟨(-e).toNat, by omega⟩
  have hfl : ⌊(q1 : ℚ) * (2 : ℚ) ^ (-(d : Int))⌋ = ((q1 / 2 ^ d : Nat) : Int) := by
    rw [zpow_neg, zpow_natCast, ← div_eq_mul_inv]
    have : (q1 : ℚ) / (2 : ℚ) ^ d = ((q1 : Nat) : ℚ) / ((2 ^ d : Nat) : ℚ) := by
      push_cast; ring
    rw [this, Rat.floor_natCast_div_natCast]
    norm_cast
  rw [hfl]
  have hdiv : q1 / 2 ^ d ≤ q1 := Nat.div_le_self _ _
  have ht : (if 0 ≤ -(d : Int) then q1 * 2 ^ (-(d : Int)).toNat
      else q1 / 2 ^ (-(-(d : Int))).toNat) = q1 / 2 ^ d := by
    by_cases hd : d = 0
    · subst hd
      simp
    · have hneg : ¬ (0 : Int) ≤ -(d : Int) := by omega
      rw [if_neg hneg]
      simp
  have hlt : q1 / 2 ^ d < 2 ^ 32 := by
    norm_num at hq ⊢
    omega
  simp only [f32_to_u32, ht, Bool.false_eq_true, if_false, if_pos hlt]
  split_ifs with h0
  · rw [h0]
  · rfl

theorem cut_floor_bounds (junk n_tasks : Nat) (neg : Bool) (m : Nat) (e : Int) (q : ℚ)
    (hn : n_tasks < 2 ^ 24) (hwf : (F32.fin neg m e).wf = true)
    (hq : (F32.fin neg m e).toRat = some q) (h0 : 0 ≤ q) (h1 : q ≤ 1) :
    ⌊(n_tasks : ℚ) * q⌋ ≤ ((partitioner_create junk n_tasks (.fin neg m e)).cut : Int) ∧
    ((partitioner_create junk n_tasks (.fin neg m e)).cut : Int) ≤ ⌊(n_tasks : ℚ) * q⌋ + 1 := by
  have hlo := wf_exponent neg m e hwf
  have hu := unit_of_rat neg m e q hq h0 h1
  have hc := (cut_formula junk n_tasks m neg e (by norm_num at hn ⊢; omega) hwf hu).1
  have hs := alpha_scaled_rat neg m e q hlo hq h0
  have hfix : round_scaled 0 n_tasks = n_tasks := by
    have := round_scaled_fixed 0 n_tasks 0 hn (le_refl _)
    rwa [pow_zero, Nat.mul_one] at this
  rw [hfix] at hc
  generalize m * 2 ^ (e + 149).toNat = a at hc hs
  have hal : a ≤ 2 ^ 149 := by
    have : (a : ℚ) ≤ ((2 ^ 149 : Nat) : ℚ) := by
      rw [hs, pow149_cast]
      calc q * 2 ^ 149 ≤ 1 * 2 ^ 149 := mul_le_mul_of_nonneg_right h1 (by positivity)
        _ = 2 ^ 149 := one_mul _
    exact_mod_cast this
  have hfl : ⌊(n_tasks : ℚ) * q⌋ = ((n_tasks * a / 2 ^ 149 : Nat) : Int) := by
    have e1 : (n_tasks : ℚ) * q = ((n_tasks * a : Nat) : ℚ) / ((2 ^ 149 : Nat) : ℚ) := by
      rw [Nat.cast_mul, hs, pow149_cast, ← mul_assoc, mul_div_assoc,
        div_self (by positivity), mul_one]
    rw [e1, Rat.floor_natCast_div_natCast]
    norm_cast
  have hdiv : n_tasks * a * 2 ^ 149 / 2 ^ 298 = n_tasks * a / 2 ^ 149 := by
    rw [show (298 : Nat) = 149 + 149 from rfl, pow_add,
      Nat.mul_div_mul_right _ _ (pow2_pos 149)]
  have hA : n_tasks * a * 2 ^ 149 ≤ n_tasks * 2 ^ 298 := by
    rw [show (298 : Nat) = 149 + 149 from rfl, pow_add, ← Nat.mul_assoc]
    exact Nat.mul_le_mul_right _ (Nat.mul_le_mul_left _ hal)
  have hbl : max (bit_length (n_tasks * a * 2 ^ 149) - 24) 149 ≤ 298 := by
    have : bit_length (n_tasks * a * 2 ^ 149) ≤ 24 + 298 := by
      rw [bit_length_le_iff, pow_add]
      calc n_tasks * a * 2 ^ 149 ≤ n_tasks * 2 ^ 298 := hA
        _ < 2 ^ 24 * 2 ^ 298 := Nat.mul_lt_mul_of_pos_right hn (pow2_pos 298)
    omega
  obtain ⟨b1, b2⟩ := round_scaled_div_bounds 149 (n_tasks * a * 2 ^ 149) 298 hbl
  rw [hdiv] at b1 b2
  rw [hc, hfl]
  exact ⟨by exact_mod_cast b1, by exact_mod_cast b2⟩

theorem float_product (junk n_tasks : Nat) (neg : Bool) (m : Nat) (e : Int) (q : ℚ)
    (hn : n_tasks < 2 ^ 24) (hwf : (F32.fin neg m e).wf = true)
    (hq : (F32.fin neg m e).toRat = some q) (h0 : 0 ≤ q) (h1 : q ≤ 1) :
    ∃ y : ℚ, (f32_mul (u32_to_f32 n_tasks) (.fin neg m e)).toRat = some y ∧
      ((partitioner_create junk n_tasks (.fin neg m e)).cut : Int) = ⌊y⌋ ∧
      |y - (n_tasks : ℚ) * q| ≤ (n_tasks : ℚ) * q / 2 ^ 24 := by
  have hq1 : q = (if neg then -1 else 1) * (m : ℚ) * (2 : ℚ) ^ e := by
    simpa [F32.toRat] using hq.symm
  have hlo := wf_exponent neg m e hwf
  have hu := unit_of_rat neg m e q hq h0 h1
  unfold partitioner_create
  rw [if_pos hu]
  simp only
  rw [u32_to_f32_exact n_tasks hn]
  simp only [f32_mul, Bool.false_xor, zero_add]
  by_cases hm : m = 0
  · subst hm
    obtain ⟨E1, hr⟩ := f32_round_zero neg e
    rw [Nat.mul_zero, hr, f32_to_u32_zero]
    refine ⟨0, by simp [F32.toRat], by simp, ?_⟩
    rw [hq1]
    simp
  · have hmpos : 0 < m := Nat.pos_of_ne_zero hm
    have hneg : neg = false := by
      cases neg with
      | false => rfl
      | true => simp [F32.ge_zero, hm] at hu
    subst hneg
    simp only [Bool.false_eq_true, if_false, one_mul] at hq1
    have hle : (if 0 ≤ e then decide (m * 2 ^ e.toNat ≤ 1) else decide (m ≤ 2 ^ (-e).toNat))
        = true := by
      simpa [F32.ge_zero, F32.le_one] using hu
    have he : e ≤ 0 := by
      by_contra hcon
      have hpos : 0 ≤ e := by omega
      rw [if_pos hpos] at hle
      simp only [decide_eq_true_eq] at hle
      have h2 : 2 ^ 1 ≤ 2 ^ e.toNat := Nat.pow_le_pow_right (by norm_num) (by omega)
      have h3 : 1 * 2 ^ e.toNat ≤ m * 2 ^ e.toNat := Nat.mul_le_mul_right _ hmpos
      omega
    have hmd : m ≤ 2 ^ (-e).toNat := by
      by_cases hpos : 0 ≤ e
      · rw [if_pos hpos] at hle
        simp only [decide_eq_true_eq] at hle
        have e0 : e = 0 := by omega
        subst e0
        simpa using hle
      · rw [if_neg hpos] at hle
        simpa using hle
    have hbl : (bit_length (n_tasks * m) : Int) + e ≤ 24 := by
      have h1 : n_tasks * m < 2 ^ (24 + (-e).toNat) := by
        rw [pow_add]
        calc n_tasks * m ≤ n_tasks * 2 ^ (-e).toNat := Nat.mul_le_mul_left _ hmd
          _ < 2 ^ 24 * 2 ^ (-e).toNat := Nat.mul_lt_mul_of_pos_right hn (pow2_pos _)
      have h2 := (bit_length_le_iff (n_tasks * m) (24 + (-e).toNat)).2 h1
      omega
    rw [f32_round_small (n_tasks * m) e hlo he hbl]
    generalize hk : bit_length (n_tasks * m) - 24 = k
    have hqle : rne (n_tasks * m) k ≤ 2 ^ 24 := by
      rw [← hk]
      exact rne_le_pow24 _
    have hek : e + (k : Int) ≤ 0 := by omega
    have herr : 2 ^ 24 * (rne (n_tasks * m) k * 2 ^ k) ≤ 2 ^ 24 * (n_tasks * m) + n_tasks * m ∧
        2 ^ 24 * (n_tasks * m) ≤ 2 ^ 24 * (rne (n_tasks * m) k * 2 ^ k) + n_tasks * m := by
      rcases Nat.eq_zero_or_pos k with hk0 | hkpos
      · rw [hk0, rne_k_zero, pow_zero, Nat.mul_one]
        omega
      · apply rne_error
        have hMpos : 0 < n_tasks * m := by
          rcases Nat.eq_zero_or_pos (n_tasks * m) with h | h
          · rw [h, bit_length_zero] at hk
            omega
          · exact h
        have := two_pow_bit_length_pred_le (n_tasks * m) hMpos
        have e1 : bit_length (n_tasks * m) - 1 = k + 23 := by omega
        rwa [e1] at this
    refine ⟨(rne (n_tasks * m) k : ℚ) * (2 : ℚ) ^ (e + (k : Int)), by simp [F32.toRat],
      trunc_floor junk _ _ hek hqle, ?_⟩
    have hP : (0 : ℚ) < (2 : ℚ) ^ e := by positivity
    have hy : (rne (n_tasks * m) k : ℚ) * (2 : ℚ) ^ (e + (k : Int))
        = ((rne (n_tasks * m) k * 2 ^ k : Nat) : ℚ) * (2 : ℚ) ^ e := by
      rw [zpow_add₀ (by norm_num : (2 : ℚ) ≠ 0), zpow_natCast]
      push_cast
      ring
    have hx : (n_tasks : ℚ) * q = ((n_tasks * m : Nat) : ℚ) * (2 : ℚ) ^ e := by
      rw [hq1]
      push_cast
      ring
    rw [hy, hx]
    generalize rne (n_tasks * m) k * 2 ^ k = V at herr
    generalize n_tasks * m = M at herr
    obtain ⟨g1, g2⟩ := herr
    have g1q : (2 : ℚ) ^ 24 * (V : ℚ) ≤ 2 ^ 24 * (M : ℚ) + (M : ℚ) := by exact_mod_cast g1
    have g2q : (2 : ℚ) ^ 24 * (M : ℚ) ≤ 2 ^ 24 * (V : ℚ) + (M : ℚ) := by exact_mod_cast g2
    have k1 := mul_le_mul_of_nonneg_right g1q hP.le
    have k2 := mul_le_mul_of_nonneg_right g2q hP.le
    have hc : (M : ℚ) * (2 : ℚ) ^ e / 2 ^ 24 * 2 ^ 24 = (M : ℚ) * (2 : ℚ) ^ e :=
      div_mul_cancel₀ _ (by norm_num)
    generalize (M : ℚ) * (2 : ℚ) ^ e / 2 ^ 24 = c at hc ⊢
    have k1a : (2 : ℚ) ^ 24 * ((V : ℚ) * (2 : ℚ) ^ e)
        ≤ 2 ^ 24 * ((M : ℚ) * (2 : ℚ) ^ e) + (M : ℚ) * (2 : ℚ) ^ e := by linarith
    have k2a : (2 : ℚ) ^ 24 * ((M : ℚ) * (2 : ℚ) ^ e)
        ≤ 2 ^ 24 * ((V : ℚ) * (2 : ℚ) ^ e) + (M : ℚ) * (2 : ℚ) ^ e := by linarith
    generalize (V : ℚ) * (2 : ℚ) ^ e = a at k1a k2a ⊢
    generalize (M : ℚ) * (2 : ℚ) ^ e = b at k1a k2a hc ⊢
    rw [abs_le]
    norm_num at k1a k2a hc
    constructor <;> linarith

/-- C1, amended: for `n_tasks < 2 ^ 24` and `alpha = m * 2 ^ e` in `[0, 1]` the cut is the
single-precision product truncated toward zero, not rounded to the nearest integer: it
is the floor of the `float` product `y`, and `y` differs from `n_tasks * alpha` by at most
`n_tasks * alpha / 2 ^ 24`; so the cut is the floor of `n_tasks * alpha` or that floor
plus one, and it is that floor whenever the product is exact in single precision
(`n_tasks * m < 2 ^ 24`). -/
theorem C1_cut_truncated (junk n_tasks : Nat) (neg : Bool) (m : Nat) (e : Int) (q : ℚ)
    (hn : n_tasks < 2 ^ 24) (hwf : (F32.fin neg m e).wf = true)
    (hq : (F32.fin neg m e).toRat = some q) (h0 : 0 ≤ q) (h1 : q ≤ 1) :
    (∃ y : ℚ, (f32_mul (u32_to_f32 n_tasks) (.fin neg m e)).toRat = some y ∧
      ((partitioner_create junk n_tasks (.fin neg m e)).cut : Int) = ⌊y⌋ ∧
      |y - (n_tasks : ℚ) * q| ≤ (n_tasks : ℚ) * q / 2 ^ 24) ∧
    ⌊(n_tasks : ℚ) * q⌋ ≤ ((partitioner_create junk n_tasks (.fin neg m e)).cut : Int) ∧
    ((partitioner_create junk n_tasks (.fin neg m e)).cut : Int) ≤ ⌊(n_tasks : ℚ) * q⌋ + 1 ∧
    (n_tasks * m < 2 ^ 24 →
      ((partitioner_create junk n_tasks (.fin neg m e)).cut : Int) = ⌊(n_tasks : ℚ) * q⌋) := by
  obtain ⟨b1, b2⟩ := cut_floor_bounds junk n_tasks neg m e q hn hwf hq h0 h1
  exact ⟨float_product junk n_tasks neg m e q hn hwf hq h0 h1, b1, b2,
    fun hex => cut_exact_product junk n_tasks neg m e q
      (lt_trans hn (by norm_num)) hwf hq h0 h1 hex⟩

/-- Instance of the amended C1 at `n_tasks = 100`, `alpha = 0.3f`, where the product is
not exact: the cut is 30, the floor of `100 * alpha`. -/
theorem C1_witness :
    (F32.fin false 10066330 (-25)).wf = true ∧
    (F32.fin false 10066330 (-25)).toRat = some (10066330 / 2 ^ 25) ∧
    ¬ (100 * 10066330 < 2 ^ 24) ∧
    (partitioner_create 0 100 (.fin false 10066330 (-25))).cut = 30 ∧
    ⌊((100 : Nat) : ℚ) * (10066330 / 2 ^ 25)⌋
      ≤ ((partitioner_create 0 100 (.fin false 10066330 (-25))).cut : Int) :=
  ⟨by decide, by norm_num [F32.toRat], by norm_num, by decide,
    (C1_cut_truncated 0 100 false 10066330 (-25) (10066330 / 2 ^ 25) (by norm_num) (by decide)
      (by norm_num [F32.toRat]) (by norm_num) (by norm_num)).2.1⟩

end Chai
